import Mathlib

/-!
Verification of the `datastore` key–value store (hash-table engine, registries,
WAL, pager stack) against its natural-language specification.

The Rust source is shallowly embedded: machine integers become `Nat` (with
explicit `% 2^32` where the source casts to `u32`), byte buffers and files
become `List Nat`, fallible operations return `Except String`, and each
stateful component becomes a structure with explicit state-passing operations
translated from the corresponding Rust functions.
-/

namespace Datastore

/-! ## Byte-level utilities

`toLE n v` is `v.to_le_bytes()` truncated/zero-extended to `n` bytes;
`fromLE` is `from_le_bytes` over a little-endian byte list.  `writeAt` is the
effect of `seek(Start off)` followed by `write_all d` on a sparse byte stream
(zero backed past the current length); `readBytes` reads `n` bytes at `off`
with sparse (zero) semantics. -/

def toLE : Nat → Nat → List Nat
  | 0, _ => []
  | n + 1, v => v % 256 :: toLE n (v / 256)

def fromLE : List Nat → Nat
  | [] => 0
  | b :: bs => b + 256 * fromLE bs

def writeAt (c : List Nat) (off : Nat) (d : List Nat) : List Nat :=
  c.take off ++ List.replicate (off - c.length) 0 ++ d ++ c.drop (off + d.length)

def byteAt (c : List Nat) (i : Nat) : Nat := c.getD i 0

def readBytes (c : List Nat) (off n : Nat) : List Nat :=
  (List.range n).map (fun i => byteAt c (off + i))

theorem toLE_length (n v : Nat) : (toLE n v).length = n := by
  induction n generalizing v with
  | zero => rfl
  | succ m ih => simp [toLE, ih]

theorem fromLE_toLE (n v : Nat) : fromLE (toLE n v) = v % 256 ^ n := by
  induction n generalizing v with
  | zero => simp [toLE, fromLE, Nat.mod_one]
  | succ m ih =>
    simp only [toLE, fromLE, ih]
    rw [pow_succ]
    conv_rhs => rw [Nat.mul_comm, Nat.mod_mul]

theorem fromLE_append_zeros (l : List Nat) (n : Nat) :
    fromLE (l ++ List.replicate n 0) = fromLE l := by
  induction l with
  | nil =>
    induction n with
    | zero => rfl
    | succ m ih => simpa [fromLE, List.replicate_succ] using ih
  | cons b bs ih => simp [fromLE, ih]

theorem writeAt_eq_append (c : List Nat) (d : List Nat) :
    writeAt c c.length d = c ++ d := by
  simp [writeAt, List.drop_eq_nil_of_le]

theorem byteAt_append_left (a b : List Nat) (i : Nat) (h : i < a.length) :
    byteAt (a ++ b) i = byteAt a i := by
  simp [byteAt, List.getD, List.getElem?_append_left h]

theorem byteAt_append_right (a b : List Nat) (i : Nat) (h : a.length ≤ i) :
    byteAt (a ++ b) i = byteAt b (i - a.length) := by
  simp [byteAt, List.getD, List.getElem?_append_right h]

theorem readBytes_append_left (a b : List Nat) (off n : Nat)
    (h : off + n ≤ a.length) : readBytes (a ++ b) off n = readBytes a off n := by
  simp only [readBytes, List.map_inj_left, List.mem_range]
  intro i hi
  exact byteAt_append_left a b (off + i) (by omega)

theorem readBytes_append_right (a b : List Nat) (off n : Nat)
    (h : a.length ≤ off) :
    readBytes (a ++ b) off n = readBytes b (off - a.length) n := by
  simp only [readBytes, List.map_inj_left, List.mem_range]
  intro i hi
  rw [byteAt_append_right a b (off + i) (by omega)]
  congr 1
  omega

theorem readBytes_all (c : List Nat) : readBytes c 0 c.length = c := by
  apply List.ext_getElem
  · simp [readBytes]
  · intro i h1 h2
    simp only [readBytes] at h1 ⊢
    simp only [List.getElem_map, List.getElem_range, byteAt, Nat.zero_add]
    simp only [List.length_map, List.length_range] at h1
    simp [List.getD, List.getElem?_eq_getElem, h1]

theorem readBytes_append_exact (a b : List Nat) :
    readBytes (a ++ b) 0 a.length = a := by
  rw [readBytes_append_left a b 0 a.length (by omega), readBytes_all]

/-! ## PrefixHasher (src/hash_table/prefix_hasher.rs)

The shipped 32-bit hasher: a 4-byte buffer filled from the front by `update`,
`finalize` returns `u32::from_le_bytes(buffer)`. -/

structure PrefixHasher where
  buffer : List Nat
  offset : Nat
deriving Repr, DecidableEq

def PrefixHasher.new : PrefixHasher := ⟨List.replicate 4 0, 0⟩

def PrefixHasher.update (h : PrefixHasher) (data : List Nat) : PrefixHasher :=
  let len := min data.length (4 - h.offset)
  if len = 0 then h
  else { buffer := h.buffer.take h.offset ++ data.take len ++ h.buffer.drop (h.offset + len)
         offset := h.offset + len }

def PrefixHasher.finalize (h : PrefixHasher) : Nat := fromLE h.buffer

/-- `H(key)` as computed by insert/scan: one `update` with the whole key, then
`finalize` (src/hash_table/book.rs lines 69–71). -/
def hashKey (k : List Nat) : Nat := (PrefixHasher.new.update k).finalize

/-- `section_index = hash % section_count` (src/hash_table/book.rs line 73). -/
def sectionOf (sc : Nat) (k : List Nat) : Nat := hashKey k % sc

/-- `bloom_index = (hash / section_count) % 64` (line 74). -/
def bloomIndexOf (sc : Nat) (k : List Nat) : Nat := (hashKey k / sc) % 64

/-- `bloom_bit = 1 << bloom_index` (line 75). -/
def bloomBitOf (sc : Nat) (k : List Nat) : Nat := 2 ^ bloomIndexOf sc k

theorem hashKey_eq (k : List Nat) :
    hashKey k = fromLE (k.take 4 ++ List.replicate (4 - min 4 k.length) 0) := by
  by_cases hk : k.length = 0
  · rw [List.eq_nil_of_length_eq_zero hk]
    simp [hashKey, PrefixHasher.new, PrefixHasher.update, PrefixHasher.finalize]
  · have hmin : min k.length (4 - 0) ≠ 0 := by omega
    simp only [hashKey, PrefixHasher.new, PrefixHasher.update, PrefixHasher.finalize]
    rw [if_neg hmin]
    simp only [List.take_zero, Nat.zero_add, List.nil_append]
    rw [List.drop_replicate]
    have h1 : List.take (k.length ⊓ 4) k = List.take 4 k := by
      have h2 : List.take 4 (List.take k.length k) = List.take (4 ⊓ k.length) k :=
        List.take_take 4 k.length k
      rw [List.take_length] at h2
      rw [Nat.min_comm, ← h2]
    rw [h1, Nat.min_comm k.length 4]

/-- C9: the shipped hasher (PrefixHasher) computes the 32-bit hash of a key as
the little-endian u32 of its first `min 4 len` bytes, zero-padded when the key
is shorter than 4 bytes; consequently any two keys that agree on their first 4
bytes are routed by insert and scan to the same section index and the same
bloom bit, so the bloom filter can never distinguish them. -/
theorem prefixHasher_first_four_bytes (sc : Nat) (k k1 k2 : List Nat)
    (h : k1.take 4 = k2.take 4) :
    hashKey k = fromLE (k.take 4 ++ List.replicate (4 - min 4 k.length) 0) ∧
    sectionOf sc k1 = sectionOf sc k2 ∧
    bloomIndexOf sc k1 = bloomIndexOf sc k2 ∧
    bloomBitOf sc k1 = bloomBitOf sc k2 := by
  have hlen : min 4 k1.length = min 4 k2.length := by
    have := congrArg List.length h
    simpa using this
  have hhash : hashKey k1 = hashKey k2 := by
    rw [hashKey_eq, hashKey_eq, h, hlen]
  refine ⟨hashKey_eq k, ?_, ?_, ?_⟩
  · simp [sectionOf, hhash]
  · simp [bloomIndexOf, hhash]
  · simp [bloomBitOf, bloomIndexOf, hhash]

/-- Witness for C9 at concrete inputs. -/
theorem prefixHasher_first_four_bytes_witness :
    hashKey [1, 2, 3, 4, 5] =
      fromLE ([1, 2, 3, 4, 5].take 4 ++ List.replicate (4 - min 4 5) 0) ∧
    sectionOf 4 [97, 98, 99, 100, 7] = sectionOf 4 [97, 98, 99, 100, 9] ∧
    bloomIndexOf 4 [97, 98, 99, 100, 7] = bloomIndexOf 4 [97, 98, 99, 100, 9] ∧
    bloomBitOf 4 [97, 98, 99, 100, 7] = bloomBitOf 4 [97, 98, 99, 100, 9] := by
  have h := prefixHasher_first_four_bytes 4 [1, 2, 3, 4, 5]
    [97, 98, 99, 100, 7] [97, 98, 99, 100, 9] (by decide)
  simpa using h

/-! ## ManagedSectionRegistry (src/dbms/section_registry.rs)

State: the `cache` vector of section headers, the `hot` set of dirty section
indices (a `BTreeSet`, modelled as a duplicate-free list), and the list of
events recorded to the WAL (the `wal.record` calls made so far). -/

structure SectionHeader where
  end_offset : Nat
deriving Repr, DecidableEq

inductive SectionEvent where
  | updated (section_index : Nat) (header : SectionHeader)
deriving Repr, DecidableEq

structure SectionRegState where
  cache : List SectionHeader
  hot : List Nat
  wal : List SectionEvent
deriving Repr, DecidableEq

/-- `BTreeSet::insert` on a duplicate-free list model. -/
def setInsert (l : List Nat) (x : Nat) : List Nat := if x ∈ l then l else x :: l

/-- `ManagedSectionRegistry::apply`. -/
def SectionRegState.apply (st : SectionRegState) (ev : SectionEvent) :
    Except String SectionRegState :=
  match ev with
  | .updated si header =>
    if st.cache.length ≤ si then .error "Section index out of bounds"
    else .ok { st with cache := st.cache.set si header, hot := setInsert st.hot si }

/-- `resolve_section` (src/dbms/section_registry.rs lines 107–112). -/
def resolveSection (st : SectionRegState) (si : Nat) : Except String SectionHeader :=
  match st.cache[si]? with
  | some h => .ok h
  | none => .error "Section not found"

/-- `update_section_end_offset` (src/dbms/section_registry.rs lines 114–128):
skip when the stored offset is already ≥ the proposed one, otherwise record
one WAL event and apply it. -/
def updateSectionEndOffset (st : SectionRegState) (si eo : Nat) :
    Except String SectionRegState :=
  match st.cache[si]? with
  | none => .error "Section not found"
  | some header =>
    if eo ≤ header.end_offset then .ok st
    else
      let ev := SectionEvent.updated si { end_offset := eo }
      SectionRegState.apply { st with wal := st.wal ++ [ev] } ev

/-- C5: `update_end_offset` is monotonic: when the stored end_offset is already
≥ the proposed one the call succeeds, changes nothing and records no WAL
event; otherwise it records exactly one WAL event and sets the stored
end_offset to the proposed value; applying it twice with the same value equals
applying it once. -/
theorem updateSectionEndOffset_monotonic (st : SectionRegState) (si eo : Nat)
    (cur : SectionHeader) (hcur : st.cache[si]? = some cur) :
    (eo ≤ cur.end_offset → updateSectionEndOffset st si eo = .ok st) ∧
    (cur.end_offset < eo →
      updateSectionEndOffset st si eo = .ok
        { cache := st.cache.set si ⟨eo⟩
          hot := setInsert st.hot si
          wal := st.wal ++ [SectionEvent.updated si ⟨eo⟩] }) ∧
    (updateSectionEndOffset st si eo >>= fun st2 => updateSectionEndOffset st2 si eo)
      = updateSectionEndOffset st si eo := by
  have hlt : si < st.cache.length := by
    by_contra hge
    rw [List.getElem?_eq_none (by omega)] at hcur
    exact Option.noConfusion hcur
  refine ⟨?_, ?_, ?_⟩
  · intro hle
    simp [updateSectionEndOffset, hcur, hle]
  · intro hgt
    simp only [updateSectionEndOffset, hcur]
    rw [if_neg (by omega)]
    simp [SectionRegState.apply, if_neg (Nat.not_le.mpr hlt)]
  · by_cases hle : eo ≤ cur.end_offset
    · simp [updateSectionEndOffset, hcur, hle, bind, Except.bind]
    · simp only [updateSectionEndOffset, hcur, if_neg hle]
      simp only [SectionRegState.apply, if_neg (Nat.not_le.mpr hlt)]
      simp only [bind, Except.bind]
      have hset : (st.cache.set si ⟨eo⟩)[si]? = some ⟨eo⟩ :=
        List.getElem?_set_eq_of_lt _ hlt
      simp [updateSectionEndOffset, hset]

/-- Witness for C5 at a concrete registry state. -/
theorem updateSectionEndOffset_monotonic_witness :
    (7 ≤ (5 : Nat) →
      updateSectionEndOffset ⟨[⟨5⟩, ⟨0⟩], [], []⟩ 0 7 = .ok ⟨[⟨5⟩, ⟨0⟩], [], []⟩) ∧
    ((5 : Nat) < 7 →
      updateSectionEndOffset ⟨[⟨5⟩, ⟨0⟩], [], []⟩ 0 7 = .ok
        { cache := [(⟨5⟩ : SectionHeader), ⟨0⟩].set 0 ⟨7⟩
          hot := setInsert [] 0
          wal := ([] : List SectionEvent) ++ [SectionEvent.updated 0 ⟨7⟩] }) ∧
    (updateSectionEndOffset ⟨[⟨5⟩, ⟨0⟩], [], []⟩ 0 7 >>= fun st2 =>
        updateSectionEndOffset st2 0 7)
      = updateSectionEndOffset ⟨[⟨5⟩, ⟨0⟩], [], []⟩ 0 7 :=
  updateSectionEndOffset_monotonic ⟨[⟨5⟩, ⟨0⟩], [], []⟩ 0 7 ⟨5⟩ (by decide)

/-! ## ManagedIndexRegistry (src/dbms/index_registry.rs)

State: the dense `cache` of `(IndexKey, IndexHeader)` pairs, the `map` from
`IndexKey` to cache index (a `BTreeMap`, modelled as an association list with
overwrite-on-insert), the `hot` set, and the recorded WAL events. -/

structure IndexKey where
  section_index : Nat
  index_chunk : Nat
deriving Repr, DecidableEq

structure IndexHeader where
  bloom_filter : Nat
  first_entry_offset : Nat
deriving Repr, DecidableEq

inductive IndexEvent where
  | updated (cache_idx : Nat) (key : IndexKey) (header : IndexHeader)
deriving Repr, DecidableEq

/-- `BTreeMap` lookup on an association-list model. -/
def mapLookup {α β : Type} [DecidableEq α] : List (α × β) → α → Option β
  | [], _ => none
  | p :: m, k => if p.1 = k then some p.2 else mapLookup m k

/-- `BTreeMap::insert`: drop any binding of `k`, bind `k ↦ v`. -/
def mapInsert {α β : Type} [DecidableEq α] : List (α × β) → α → β → List (α × β)
  | [], k, v => [(k, v)]
  | p :: m, k, v => if p.1 = k then mapInsert m k v else p :: mapInsert m k v

structure IndexRegState where
  cache : List (IndexKey × IndexHeader)
  map : List (IndexKey × Nat)
  hot : List Nat
  wal : List IndexEvent
deriving Repr, DecidableEq

/-- `ManagedIndexRegistry::apply` (src/dbms/index_registry.rs lines 108–121). -/
def IndexRegState.apply (st : IndexRegState) (ev : IndexEvent) :
    Except String IndexRegState :=
  match ev with
  | .updated ci key header =>
    if st.cache.length < ci then .error "Out of order index event"
    else .ok { cache := if st.cache.length = ci then st.cache ++ [(key, header)]
                        else st.cache.set ci (key, header)
               map := mapInsert st.map key ci
               hot := setInsert st.hot ci
               wal := st.wal }

/-- `try_resolve_index` (lines 155–163).  The source indexes `cache[idx]`
unconditionally; a dangling map index (impossible in reachable states) is
modelled as `none`. -/
def tryResolveIdx (st : IndexRegState) (ik : IndexKey) : Option IndexHeader :=
  (mapLookup st.map ik).bind (fun ci => (st.cache[ci]?).map Prod.snd)

/-- `update_index_bloom_filter` (lines 178–201).  A dangling map index is
modelled as an error in place of the source's panic. -/
def updateIndexBloomFilter (st : IndexRegState) (ik : IndexKey)
    (entry_offset bloom_bit : Nat) : Except String IndexRegState :=
  match mapLookup st.map ik with
  | some ci =>
    match st.cache[ci]? with
    | none => .error "Index cache corrupted"
    | some entry =>
      let oldFilter := entry.2.bloom_filter
      let newFilter := oldFilter ||| bloom_bit
      if newFilter = oldFilter then .ok st
      else
        let ev := IndexEvent.updated ci ik
          { bloom_filter := newFilter, first_entry_offset := entry.2.first_entry_offset }
        IndexRegState.apply { st with wal := st.wal ++ [ev] } ev
  | none =>
    let ci := st.cache.length
    let ev := IndexEvent.updated ci ik
      { bloom_filter := bloom_bit, first_entry_offset := entry_offset }
    IndexRegState.apply { st with wal := st.wal ++ [ev] } ev

/-- C6: `update_bloom` behaves in exactly three cases: absent key → insert
`(bloom_bit, first_entry_offset)` at the next cache index and record one WAL
event; present with the bit already set → no-op, no event; present otherwise →
OR the bit into the filter, keep `first_entry_offset` (the argument is
ignored), record one WAL event. -/
theorem updateIndexBloomFilter_cases (st : IndexRegState) (ik : IndexKey)
    (eo bb : Nat) :
    (mapLookup st.map ik = none →
      updateIndexBloomFilter st ik eo bb = .ok
        { cache := st.cache ++ [(ik, ⟨bb, eo⟩)]
          map := mapInsert st.map ik st.cache.length
          hot := setInsert st.hot st.cache.length
          wal := st.wal ++ [IndexEvent.updated st.cache.length ik ⟨bb, eo⟩] }) ∧
    (∀ ci entry, mapLookup st.map ik = some ci → st.cache[ci]? = some entry →
      entry.2.bloom_filter ||| bb = entry.2.bloom_filter →
      updateIndexBloomFilter st ik eo bb = .ok st) ∧
    (∀ ci entry, mapLookup st.map ik = some ci → st.cache[ci]? = some entry →
      entry.2.bloom_filter ||| bb ≠ entry.2.bloom_filter →
      updateIndexBloomFilter st ik eo bb = .ok
        { cache := st.cache.set ci
            (ik, ⟨entry.2.bloom_filter ||| bb, entry.2.first_entry_offset⟩)
          map := mapInsert st.map ik ci
          hot := setInsert st.hot ci
          wal := st.wal ++ [IndexEvent.updated ci ik
            ⟨entry.2.bloom_filter ||| bb, entry.2.first_entry_offset⟩] }) := by
  refine ⟨?_, ?_, ?_⟩
  · intro hnone
    simp [updateIndexBloomFilter, hnone, IndexRegState.apply]
  · intro ci entry hci hentry hset
    simp [updateIndexBloomFilter, hci, hentry, hset]
  · intro ci entry hci hentry hset
    have hlt : ci < st.cache.length := by
      by_contra hge
      rw [List.getElem?_eq_none (by omega)] at hentry
      exact Option.noConfusion hentry
    simp only [updateIndexBloomFilter, hci, hentry, if_neg hset]
    simp [IndexRegState.apply, Nat.not_lt.mpr (Nat.le_of_lt hlt), Nat.ne_of_gt hlt]

/-- Witness for C6: a fresh chunk insert and an OR-update at concrete states. -/
theorem updateIndexBloomFilter_cases_witness :
    updateIndexBloomFilter ⟨[], [], [], []⟩ ⟨0, 0⟩ 5 4 = .ok
      { cache := [] ++ [(⟨0, 0⟩, ⟨4, 5⟩)]
        map := mapInsert [] ⟨0, 0⟩ (List.length ([] : List (IndexKey × IndexHeader)))
        hot := setInsert [] (List.length ([] : List (IndexKey × IndexHeader)))
        wal := [] ++ [IndexEvent.updated (List.length ([] : List (IndexKey × IndexHeader))) ⟨0, 0⟩ ⟨4, 5⟩] } ∧
    updateIndexBloomFilter ⟨[(⟨0, 0⟩, ⟨1, 0⟩)], [(⟨0, 0⟩, 0)], [0], []⟩ ⟨0, 0⟩ 9 2 = .ok
      { cache := [(⟨0, 0⟩, ⟨1, 0⟩)].set 0 (⟨0, 0⟩, ⟨(1 : Nat) ||| 2, 0⟩)
        map := mapInsert [(⟨0, 0⟩, 0)] ⟨0, 0⟩ 0
        hot := setInsert [0] 0
        wal := [] ++ [IndexEvent.updated 0 ⟨0, 0⟩ ⟨(1 : Nat) ||| 2, 0⟩] } :=
  ⟨(updateIndexBloomFilter_cases ⟨[], [], [], []⟩ ⟨0, 0⟩ 5 4).1 (by decide),
   (updateIndexBloomFilter_cases ⟨[(⟨0, 0⟩, ⟨1, 0⟩)], [(⟨0, 0⟩, 0)], [0], []⟩
      ⟨0, 0⟩ 9 2).2.2 0 (⟨0, 0⟩, ⟨1, 0⟩) (by decide) (by decide) (by decide)⟩

/-! ## ManagedPageRegistry (src/dbms/page_registry.rs)

State: the dense `cache` of page keys (position = `pager_page_index`), the
`map` from `PageKey` to `pager_page_index`, the `hot` vector and the recorded
WAL events. -/

structure PageKey where
  section_index : Nat
  section_page_index : Nat
deriving Repr, DecidableEq

inductive PageEvent where
  | assigned (key : PageKey) (page_index : Nat)
deriving Repr, DecidableEq

structure PageRegState where
  cache : List PageKey
  map : List (PageKey × Nat)
  hot : List (PageKey × Nat)
  wal : List PageEvent
deriving Repr, DecidableEq

/-- `ManagedPageRegistry::apply` (src/dbms/page_registry.rs lines 69–82). -/
def PageRegState.apply (st : PageRegState) (ev : PageEvent) :
    Except String PageRegState :=
  match ev with
  | .assigned key pi =>
    if st.cache.length < pi then .error "Out of order page event"
    else .ok { cache := if st.cache.length = pi then st.cache ++ [key]
                        else st.cache.set pi key
               map := mapInsert st.map key pi
               hot := st.hot ++ [(key, pi)]
               wal := st.wal }

/-- `resolve_page` (lines 125–141): lookup, or allocate the next dense index
and record the assignment to the WAL.  (The source repeats the map lookup
after `try_resolve_page`; both lookups read the same map, so they are
collapsed here.) -/
def resolvePage (st : PageRegState) (key : PageKey) :
    Except String (Nat × PageRegState) :=
  match mapLookup st.map key with
  | some pi => .ok (pi, st)
  | none =>
    let pi := st.cache.length
    let ev := PageEvent.assigned key pi
    (PageRegState.apply { st with wal := st.wal ++ [ev] } ev).map (fun st2 => (pi, st2))

/-- `cache.iter().enumerate().map(|(i, key)| (key, i))` starting at index `i`. -/
def enumMapFrom {α : Type} (i : Nat) : List α → List (α × Nat)
  | [] => []
  | a :: l => (a, i) :: enumMapFrom (i + 1) l

/-- `ManagedPageRegistry::load` (lines 89–101) for a snapshot holding `keys`,
before WAL replay. -/
def PageRegState.load (keys : List PageKey) : PageRegState :=
  { cache := keys, map := enumMapFrom 0 keys, hot := [], wal := [] }

/-- Index of the first occurrence of `k` in `l`. -/
def listIdx {α : Type} [DecidableEq α] : List α → α → Option Nat
  | [], _ => none
  | a :: l, k => if a = k then some 0 else (listIdx l k).map (· + 1)

/-- The page registry's representation invariant: the dense cache has no
duplicate keys and the map is exactly its index function. -/
def PageRegState.Valid (st : PageRegState) : Prop :=
  st.cache.Nodup ∧ ∀ k, mapLookup st.map k = listIdx st.cache k

theorem listIdx_eq_none_iff {α : Type} [DecidableEq α] (l : List α) (k : α) :
    listIdx l k = none ↔ k ∉ l := by
  induction l with
  | nil => simp [listIdx]
  | cons a l ih =>
    by_cases h : a = k
    · simp [listIdx, h]
    · rw [listIdx, if_neg h]
      simp only [Option.map_eq_none', ih, List.mem_cons]
      constructor
      · intro hn hor
        rcases hor with h1 | h2
        · exact h h1.symm
        · exact hn h2
      · intro hn hmem
        exact hn (Or.inr hmem)

theorem listIdx_getElem? {α : Type} [DecidableEq α] {l : List α} {k : α} {i : Nat}
    (h : listIdx l k = some i) : l[i]? = some k := by
  induction l generalizing i with
  | nil => exact Option.noConfusion h
  | cons a l ih =>
    by_cases ha : a = k
    · rw [listIdx, if_pos ha] at h
      cases h
      simpa using ha
    · rw [listIdx, if_neg ha] at h
      match hj : listIdx l k with
      | none => rw [hj] at h; exact Option.noConfusion h
      | some j =>
        rw [hj] at h
        simp only [Option.map_some'] at h
        cases h
        simpa using ih hj

theorem listIdx_of_getElem? {α : Type} [DecidableEq α] {l : List α} {k : α} {i : Nat}
    (hnd : l.Nodup) (h : l[i]? = some k) : listIdx l k = some i := by
  induction l generalizing i with
  | nil => simp at h
  | cons a l ih =>
    match i with
    | 0 =>
      simp only [List.getElem?_cons_zero, Option.some_inj] at h
      simp [listIdx, h]
    | j + 1 =>
      simp only [List.getElem?_cons_succ] at h
      have hk : k ∈ l := by
        obtain ⟨hlt, heq⟩ := List.getElem?_eq_some.mp h
        exact heq ▸ List.getElem_mem hlt
      have ha : a ≠ k := by
        intro hak
        exact (List.nodup_cons.mp hnd).1 (hak ▸ hk)
      rw [listIdx, if_neg ha, ih (List.nodup_cons.mp hnd).2 h]
      rfl

theorem listIdx_append_single {α : Type} [DecidableEq α] (l : List α) (a k : α) :
    listIdx (l ++ [a]) k =
      match listIdx l k with
      | some i => some i
      | none => if a = k then some l.length else none := by
  induction l with
  | nil => simp [listIdx]
  | cons b l ih =>
    by_cases hb : b = k
    · simp [listIdx, hb]
    · rw [List.cons_append, listIdx, if_neg hb, ih, listIdx, if_neg hb]
      match hj : listIdx l k with
      | some j => rfl
      | none =>
        by_cases ha : a = k <;> simp [ha]

theorem mapLookup_mapInsert_self {α β : Type} [DecidableEq α]
    (m : List (α × β)) (k : α) (v : β) : mapLookup (mapInsert m k v) k = some v := by
  induction m with
  | nil => simp [mapInsert, mapLookup]
  | cons p m ih =>
    by_cases hp : p.1 = k
    · simpa [mapInsert, hp] using ih
    · simpa [mapInsert, mapLookup, hp] using ih

theorem mapLookup_mapInsert_ne {α β : Type} [DecidableEq α]
    (m : List (α × β)) (k k' : α) (v : β) (h : k' ≠ k) :
    mapLookup (mapInsert m k v) k' = mapLookup m k' := by
  induction m with
  | nil => simp [mapInsert, mapLookup, Ne.symm h]
  | cons p m ih =>
    by_cases hp : p.1 = k
    · have hpk : ¬ p.1 = k' := by rw [hp]; exact Ne.symm h
      rw [mapInsert, if_pos hp, mapLookup, if_neg hpk, ih]
    · by_cases hq : p.1 = k'
      · rw [mapInsert, if_neg hp, mapLookup, if_pos hq, mapLookup, if_pos hq]
      · rw [mapInsert, if_neg hp, mapLookup, if_neg hq, mapLookup, if_neg hq, ih]

theorem set_getElem?_self {α : Type} {l : List α} {i : Nat} {a : α}
    (h : l[i]? = some a) : l.set i a = l := by
  induction l generalizing i with
  | nil => simp at h
  | cons b l ih =>
    match i with
    | 0 =>
      simp only [List.getElem?_cons_zero, Option.some_inj] at h
      simp [h]
    | j + 1 =>
      simp only [List.getElem?_cons_succ] at h
      simp [ih h]

theorem mapLookup_enumMapFrom {α : Type} [DecidableEq α] (l : List α) (i : Nat) (k : α) :
    mapLookup (enumMapFrom i l) k = (listIdx l k).map (· + i) := by
  induction l generalizing i with
  | nil => rfl
  | cons a l ih =>
    by_cases ha : a = k
    · simp [enumMapFrom, mapLookup, listIdx, ha]
    · rw [enumMapFrom, mapLookup, if_neg ha, listIdx, if_neg ha, ih]
      match h : listIdx l k with
      | none => rfl
      | some j => simp only [Option.map_some']; congr 1; omega

theorem nodup_concat_of {α : Type} {l : List α} {a : α}
    (hnd : l.Nodup) (hna : a ∉ l) : (l ++ [a]).Nodup := by
  rw [List.nodup_append]
  refine ⟨hnd, List.nodup_singleton a, ?_⟩
  intro x hx hxa
  rw [List.mem_singleton] at hxa
  exact hna (hxa ▸ hx)

/-- Valid state extended by a fresh key at the next dense index stays valid. -/
theorem valid_extend {st : PageRegState} (hv : st.Valid) (k : PageKey)
    (hk : mapLookup st.map k = none) (hot2 : List (PageKey × Nat)) (wal2 : List PageEvent) :
    PageRegState.Valid
      { cache := st.cache ++ [k], map := mapInsert st.map k st.cache.length
        hot := hot2, wal := wal2 } := by
  have hnotmem : k ∉ st.cache := by
    rw [← listIdx_eq_none_iff st.cache k, ← hv.2 k]
    exact hk
  refine ⟨nodup_concat_of hv.1 hnotmem, ?_⟩
  intro k2
  by_cases hk2 : k2 = k
  · subst hk2
    rw [mapLookup_mapInsert_self, listIdx_append_single]
    rw [← hv.2 k2] at *
    simp [hk]
  · rw [mapLookup_mapInsert_ne _ _ _ _ hk2, hv.2 k2, listIdx_append_single]
    match h : listIdx st.cache k2 with
    | some j => rfl
    | none => rw [if_neg (fun h2 => hk2 h2.symm)]

/-- C7: starting from a valid loaded page-registry state and applying
`resolve_page` operations and consistent WAL-event replays, the map from
`PageKey` to `pager_page_index` stays injective, the set of assigned indices
is exactly `{0, …, n-1}` (`n` = number of assignments = cache length), and a
fresh allocation receives index `n`. -/
theorem pageRegistry_dense_injective (st : PageRegState) (hv : st.Valid) :
    (∀ k1 k2 i, mapLookup st.map k1 = some i → mapLookup st.map k2 = some i → k1 = k2) ∧
    (∀ i, (∃ k, mapLookup st.map k = some i) ↔ i < st.cache.length) ∧
    (∀ keys : List PageKey, keys.Nodup → (PageRegState.load keys).Valid) ∧
    (∀ k pi, mapLookup st.map k = some pi → resolvePage st k = .ok (pi, st)) ∧
    (∀ k, mapLookup st.map k = none →
      ∃ st2, resolvePage st k = .ok (st.cache.length, st2) ∧ st2.Valid ∧
        st2.cache = st.cache ++ [k]) ∧
    (∀ key pi, (pi = st.cache.length ∧ key ∉ st.cache) ∨ st.cache[pi]? = some key →
      ∃ st2, st.apply (PageEvent.assigned key pi) = .ok st2 ∧ st2.Valid) := by
  obtain ⟨hnd, hmap⟩ := hv
  refine ⟨?_, ?_, ?_, ?_, ?_, ?_⟩
  · intro k1 k2 i h1 h2
    rw [hmap] at h1 h2
    have g1 := listIdx_getElem? h1
    have g2 := listIdx_getElem? h2
    rw [g1] at g2
    exact Option.some_inj.mp g2
  · intro i
    constructor
    · rintro ⟨k, hk⟩
      rw [hmap] at hk
      have := listIdx_getElem? hk
      exact (List.getElem?_eq_some.mp this).1
    · intro hi
      refine ⟨st.cache[i], ?_⟩
      rw [hmap]
      exact listIdx_of_getElem? hnd (List.getElem?_eq_getElem hi)
  · intro keys hknd
    refine ⟨hknd, ?_⟩
    intro k
    rw [PageRegState.load, mapLookup_enumMapFrom]
    match h : listIdx keys k with
    | none => rfl
    | some j => simp
  · intro k pi hk
    simp [resolvePage, hk]
  · intro k hk
    refine ⟨⟨st.cache ++ [k], mapInsert st.map k st.cache.length,
        st.hot ++ [(k, st.cache.length)],
        st.wal ++ [PageEvent.assigned k st.cache.length]⟩, ?_, ?_, rfl⟩
    · simp [resolvePage, hk, PageRegState.apply, Except.map]
    · exact valid_extend ⟨hnd, hmap⟩ k hk _ _
  · intro key pi hcase
    rcases hcase with ⟨hpi, hmem⟩ | hget
    · subst hpi
      refine ⟨⟨st.cache ++ [key], mapInsert st.map key st.cache.length,
          st.hot ++ [(key, st.cache.length)], st.wal⟩, ?_, ?_⟩
      · simp [PageRegState.apply]
      · have hk : mapLookup st.map key = none := by
          rw [hmap, listIdx_eq_none_iff]
          exact hmem
        exact valid_extend ⟨hnd, hmap⟩ key hk _ _
    · have hlt : pi < st.cache.length := (List.getElem?_eq_some.mp hget).1
      refine ⟨⟨st.cache.set pi key, mapInsert st.map key pi,
          st.hot ++ [(key, pi)], st.wal⟩, ?_, ?_⟩
      · rw [PageRegState.apply, if_neg (by omega), if_neg (by omega)]
      · rw [set_getElem?_self hget]
        refine ⟨hnd, ?_⟩
        intro k2
        by_cases hk2 : k2 = key
        · subst hk2
          rw [mapLookup_mapInsert_self]
          exact (listIdx_of_getElem? hnd hget).symm
        · rw [mapLookup_mapInsert_ne _ _ _ _ hk2]
          exact hmap k2

/-- Witness for C7 at the empty (freshly created) registry state. -/
theorem pageRegistry_dense_injective_witness :
    (∀ k1 k2 i, mapLookup (PageRegState.mk [] [] [] []).map k1 = some i →
      mapLookup (PageRegState.mk [] [] [] []).map k2 = some i → k1 = k2) ∧
    (∀ i, (∃ k, mapLookup (PageRegState.mk [] [] [] []).map k = some i) ↔
      i < (PageRegState.mk [] [] [] []).cache.length) ∧
    (∀ keys : List PageKey, keys.Nodup → (PageRegState.load keys).Valid) ∧
    (∀ k pi, mapLookup (PageRegState.mk [] [] [] []).map k = some pi →
      resolvePage (PageRegState.mk [] [] [] []) k = .ok (pi, PageRegState.mk [] [] [] [])) ∧
    (∀ k, mapLookup (PageRegState.mk [] [] [] []).map k = none →
      ∃ st2, resolvePage (PageRegState.mk [] [] [] []) k =
          .ok ((PageRegState.mk [] [] [] []).cache.length, st2) ∧ st2.Valid ∧
        st2.cache = (PageRegState.mk [] [] [] []).cache ++ [k]) ∧
    (∀ key pi, (pi = (PageRegState.mk [] [] [] []).cache.length ∧
        key ∉ (PageRegState.mk [] [] [] []).cache) ∨
        (PageRegState.mk [] [] [] []).cache[pi]? = some key →
      ∃ st2, (PageRegState.mk [] [] [] []).apply (PageEvent.assigned key pi) = .ok st2 ∧
        st2.Valid) :=
  pageRegistry_dense_injective (PageRegState.mk [] [] [] [])
    ⟨List.nodup_nil, fun _ => rfl⟩

/-! ## FileWAL (src/dbms/wal.rs)

The WAL file is a byte list; bytes 0..8 hold the persisted height (u64 LE),
`height` is the in-memory height.  `record` serializes an event at `height`
and advances only the in-memory height; `sync` writes the in-memory height at
offset 0; `clear` resets both to 8.  Replay (`FileWALReader::read_next`) reads
events over exactly the byte range `[8, persisted height)`. -/

structure WALState where
  file : List Nat
  height : Nat
deriving Repr, DecidableEq

/-- `FileWAL::load` (src/dbms/wal.rs lines 64–87). -/
def walLoad (file : List Nat) : Except String WALState :=
  if file.length = 0 then .ok { file := toLE 8 8, height := 8 }
  else if file.length < 8 then .error "Failed to read WAL height"
  else
    let h := fromLE (readBytes file 0 8)
    if h < 8 ∨ file.length < h then .error "WAL height is invalid"
    else .ok { file := file, height := h }

/-- `FileWAL::record` (lines 112–119): seek to `height`, write the serialized
event, set `height` to the resulting stream position. -/
def walRecord (st : WALState) (eventBytes : List Nat) : WALState :=
  { file := writeAt st.file st.height eventBytes
    height := st.height + eventBytes.length }

/-- `FileWAL::sync` (lines 89–95): write the in-memory height at offset 0. -/
def walSync (st : WALState) : WALState :=
  { file := writeAt st.file 0 (toLE 8 st.height), height := st.height }

/-- `FileWAL::clear` (lines 97–103): reset height to 8 in memory and on disk. -/
def walClear (st : WALState) : WALState :=
  { file := writeAt st.file 0 (toLE 8 8), height := 8 }

/-- The height stored in bytes 0..8 of the WAL file, as read by
`FileWALReader::new`. -/
def persistedHeight (file : List Nat) : Nat := fromLE (readBytes file 0 8)

/-- The byte range `[8, persisted height)`: `FileWALReader::read_next` replays
events from these bytes only (read_next stops once the stream position
reaches the persisted height). -/
def replayRegion (file : List Nat) : List Nat :=
  readBytes file 8 (persistedHeight file - 8)

theorem byteAt_take_lt (l : List Nat) (n i : Nat) (h : i < n) :
    byteAt (l.take n) i = byteAt l i := by
  simp [byteAt, List.getD, List.get?_eq_getElem?, List.getElem?_take_of_lt h]

theorem byteAt_writeAt_lt (c : List Nat) (off : Nat) (d : List Nat) (i : Nat)
    (h : i < off) : byteAt (writeAt c off d) i = byteAt c i := by
  have hw : writeAt c off d =
      (c.take off ++ List.replicate (off - c.length) 0) ++
        (d ++ c.drop (off + d.length)) := by
    rw [writeAt, List.append_assoc]
  have hpre : (c.take off ++ List.replicate (off - c.length) 0).length = off := by
    simp only [List.length_append, List.length_take, List.length_replicate]
    omega
  rw [hw, byteAt_append_left _ _ _ (by omega)]
  by_cases hc : i < c.length
  · rw [byteAt_append_left _ _ i (by simp only [List.length_take]; omega),
      byteAt_take_lt c off i h]
  · have htl : (c.take off).length = c.length := by
      simp only [List.length_take]
      omega
    rw [byteAt_append_right _ _ i (by omega)]
    have h1 : byteAt (List.replicate (off - c.length) 0) (i - (c.take off).length) = 0 := by
      simp only [byteAt, List.getD, List.get?_eq_getElem?]
      rw [List.getElem?_replicate_of_lt (by omega)]
      rfl
    have h2 : byteAt c i = 0 := by
      simp [byteAt, List.getD, List.get?_eq_getElem?, List.getElem?_eq_none (by omega : c.length ≤ i)]
    rw [h1, h2]

theorem readBytes_writeAt_of_le (c : List Nat) (off : Nat) (d : List Nat)
    (p n : Nat) (h : p + n ≤ off) :
    readBytes (writeAt c off d) p n = readBytes c p n := by
  simp only [readBytes, List.map_inj_left, List.mem_range]
  intro i hi
  exact byteAt_writeAt_lt c off d (p + i) (by omega)

/-- C4: `wal.record(event)` appends the serialized event at the in-memory
height and advances only the in-memory height; it leaves bytes 0..8 of the WAL
file (the persisted height, rewritten only by `wal.sync`) unchanged, and the
byte range `[8, persisted height)` that replay reads on the next open is also
unchanged — so events recorded without a subsequent sync are invisible to
replay. -/
theorem walRecord_invisible_without_sync (st : WALState) (ev : List Nat)
    (hinv : 8 ≤ persistedHeight st.file) (hle : persistedHeight st.file ≤ st.height) :
    readBytes (walRecord st ev).file 0 8 = readBytes st.file 0 8 ∧
    persistedHeight (walRecord st ev).file = persistedHeight st.file ∧
    (walRecord st ev).height = st.height + ev.length ∧
    replayRegion (walRecord st ev).file = replayRegion st.file ∧
    readBytes (walSync st).file 0 8 = toLE 8 st.height := by
  have h8 : readBytes (walRecord st ev).file 0 8 = readBytes st.file 0 8 :=
    readBytes_writeAt_of_le st.file st.height ev 0 8 (by omega)
  have hph : persistedHeight (walRecord st ev).file = persistedHeight st.file := by
    rw [persistedHeight, walRecord] at *
    rw [h8]
    rfl
  refine ⟨h8, hph, rfl, ?_, ?_⟩
  · rw [replayRegion, replayRegion, hph]
    exact readBytes_writeAt_of_le st.file st.height ev 8 (persistedHeight st.file - 8)
      (by omega)
  · rw [walSync]
    have : writeAt st.file 0 (toLE 8 st.height) =
        toLE 8 st.height ++ st.file.drop 8 := by
      simp [writeAt, toLE_length]
    rw [this]
    have hl : (toLE 8 st.height).length = 8 := toLE_length 8 st.height
    calc readBytes (toLE 8 st.height ++ st.file.drop 8) 0 8
        = readBytes (toLE 8 st.height ++ st.file.drop 8) 0 (toLE 8 st.height).length := by
          rw [hl]
      _ = toLE 8 st.height := readBytes_append_exact _ _

/-- Witness for C4 at a concrete WAL state (persisted height 8, one already
recorded but unsynced byte at offset 8). -/
theorem walRecord_invisible_without_sync_witness :
    readBytes (walRecord ⟨toLE 8 8 ++ [7], 9⟩ [1, 2, 3]).file 0 8 =
      readBytes (toLE 8 8 ++ [7]) 0 8 ∧
    persistedHeight (walRecord ⟨toLE 8 8 ++ [7], 9⟩ [1, 2, 3]).file =
      persistedHeight (toLE 8 8 ++ [7]) ∧
    (walRecord ⟨toLE 8 8 ++ [7], 9⟩ [1, 2, 3]).height = 9 + 3 ∧
    replayRegion (walRecord ⟨toLE 8 8 ++ [7], 9⟩ [1, 2, 3]).file =
      replayRegion (toLE 8 8 ++ [7]) ∧
    readBytes (walSync ⟨toLE 8 8 ++ [7], 9⟩).file 0 8 = toLE 8 9 :=
  walRecord_invisible_without_sync ⟨toLE 8 8 ++ [7], 9⟩ [1, 2, 3]
    (by decide) (by decide)

/-! ## FilePager / FilePage (src/pager/fs.rs) and PagerBook sections
(src/book/pager.rs)

The pager's backing file is a byte list (`resource.size` = its length).  A
`FilePage` handle carries its page index and its two cursors.  A book section
handle resolves `(section_index, section_page_index)` through the book's page
map; reads on a missing mapping zero-fill, reads on a mapped page go through
`FilePage::read` after `seek(Start(page_offset))`. -/

structure FilePager where
  page_size : Nat
  content : List Nat
deriving Repr, DecidableEq

structure FilePage where
  index : Nat
  page_offset : Nat
  file_offset : Nat
deriving Repr, DecidableEq

/-- `FilePage::read` (src/pager/fs.rs lines 63–87).  Returns the bytes read
and the updated handle.  In the zero-fill branch the source advances both
offsets twice (once inside the branch, once after it); this is modelled
faithfully.  A backed read returns the available prefix of the request. -/
def filePageRead (p : FilePager) (pg : FilePage) (bufLen : Nat) : List Nat × FilePage :=
  let ps := p.page_size
  if pg.page_offset = ps then ([], pg)
  else
    let maxRead := min (ps - pg.page_offset) bufLen
    if maxRead = 0 then ([], pg)
    else if p.content.length ≤ pg.file_offset then
      (List.replicate maxRead 0,
        { pg with page_offset := pg.page_offset + 2 * maxRead
                  file_offset := pg.file_offset + 2 * maxRead })
    else
      let readSize := min maxRead (p.content.length - pg.file_offset)
      (readBytes p.content pg.file_offset readSize,
        { pg with page_offset := pg.page_offset + readSize
                  file_offset := pg.file_offset + readSize })

/-- The book: a pager plus the `PageKey → pager_page_index` map
(src/book/pager.rs `Inner.pages`). -/
structure PagerBookModel where
  pager : FilePager
  pages : List (PageKey × Nat)
deriving Repr, DecidableEq

/-- `PagerBookSection::read` (src/book/pager.rs lines 158–174) at logical
offset `off`: cap to the remainder of the current page, zero-fill when the
page key is unmapped, otherwise seek the mapped pager page to `page_offset`
and read.  Returns the bytes and the advanced section offset.  (The handle's
`current_page` cache only memoizes the map lookup; the read path re-seeks the
page each call, so the cache is semantically transparent and omitted.) -/
def sectionRead (b : PagerBookModel) (sIdx off bufLen : Nat) : List Nat × Nat :=
  let ps := b.pager.page_size
  let pageOff := off % ps
  let maxRead := min bufLen (ps - pageOff)
  let spi := off / ps
  match mapLookup b.pages ⟨sIdx, spi⟩ with
  | none => (List.replicate maxRead 0, off + maxRead)
  | some ppi =>
    let pg : FilePage := ⟨ppi, pageOff, ppi * ps + pageOff⟩
    let res := filePageRead b.pager pg maxRead
    (res.1, off + res.1.length)

theorem filePageRead_length (p : FilePager) (pg : FilePage) (bufLen : Nat) :
    (filePageRead p pg bufLen).1.length ≤ min (p.page_size - pg.page_offset) bufLen := by
  rw [filePageRead]
  by_cases h1 : pg.page_offset = p.page_size
  · simp [h1]
  · rw [if_neg h1]
    by_cases h2 : min (p.page_size - pg.page_offset) bufLen = 0
    · simp [h2]
    · rw [if_neg h2]
      by_cases h3 : p.content.length ≤ pg.file_offset
      · simp [h3]
      · rw [if_neg h3]
        simp only [List.length_map, List.length_range, readBytes]
        omega

/-- C8: a section read never crosses a page boundary (the byte count is at
most the remainder of the current page, and at most the buffer size); an
unmapped `(section_index, section_page_index)` yields the capped prefix
zero-filled and advances the offset by that count; and `FilePage::read` at or
past the backing file's length yields zeros rather than an error. -/
theorem sectionRead_page_bounded (b : PagerBookModel) (sIdx off bufLen : Nat) :
    (sectionRead b sIdx off bufLen).1.length ≤
      b.pager.page_size - off % b.pager.page_size ∧
    (sectionRead b sIdx off bufLen).1.length ≤ bufLen ∧
    (mapLookup b.pages ⟨sIdx, off / b.pager.page_size⟩ = none →
      sectionRead b sIdx off bufLen =
        (List.replicate (min bufLen (b.pager.page_size - off % b.pager.page_size)) 0,
         off + min bufLen (b.pager.page_size - off % b.pager.page_size))) ∧
    (∀ (p : FilePager) (pg : FilePage) (n : Nat), p.content.length ≤ pg.file_offset →
      (filePageRead p pg n).1 = List.replicate (min (p.page_size - pg.page_offset) n) 0) := by
  have hb : ∀ ppi, (filePageRead b.pager
      ⟨ppi, off % b.pager.page_size,
        ppi * b.pager.page_size + off % b.pager.page_size⟩ (min bufLen
        (b.pager.page_size - off % b.pager.page_size))).1.length ≤
      min bufLen (b.pager.page_size - off % b.pager.page_size) := by
    intro ppi
    have := filePageRead_length b.pager
      ⟨ppi, off % b.pager.page_size,
        ppi * b.pager.page_size + off % b.pager.page_size⟩
      (min bufLen (b.pager.page_size - off % b.pager.page_size))
    omega
  refine ⟨?_, ?_, ?_, ?_⟩
  · rw [sectionRead]
    match hm : mapLookup b.pages ⟨sIdx, off / b.pager.page_size⟩ with
    | none => simp only [List.length_replicate]; omega
    | some ppi =>
      simp only []
      have := hb ppi
      omega
  · rw [sectionRead]
    match hm : mapLookup b.pages ⟨sIdx, off / b.pager.page_size⟩ with
    | none => simp only [List.length_replicate]; omega
    | some ppi =>
      simp only []
      have := hb ppi
      omega
  · intro hm
    rw [sectionRead]
    rw [hm]
  · intro p pg n hoff
    rw [filePageRead]
    by_cases h1 : pg.page_offset = p.page_size
    · rw [if_pos h1]
      simp [h1]
    · rw [if_neg h1]
      by_cases h2 : min (p.page_size - pg.page_offset) n = 0
      · rw [if_pos h2, h2]
        rfl
      · rw [if_neg h2, if_pos hoff]

/-- Witness for C8: an unmapped read and an unbacked page read at concrete
states (page size 8, empty backing file, empty page map). -/
theorem sectionRead_page_bounded_witness :
    (sectionRead ⟨⟨8, []⟩, []⟩ 0 3 100).1.length ≤ 8 - 3 % 8 ∧
    (sectionRead ⟨⟨8, []⟩, []⟩ 0 3 100).1.length ≤ 100 ∧
    sectionRead ⟨⟨8, []⟩, []⟩ 0 3 100 =
      (List.replicate (min 100 (8 - 3 % 8)) 0, 3 + min 100 (8 - 3 % 8)) ∧
    (filePageRead ⟨8, [1, 2]⟩ ⟨0, 2, 2⟩ 100).1 = List.replicate (min (8 - 2) 100) 0 := by
  have h := sectionRead_page_bounded ⟨⟨8, []⟩, []⟩ 0 3 100
  exact ⟨h.1, h.2.1, h.2.2.1 (by decide), h.2.2.2 ⟨8, [1, 2]⟩ ⟨0, 2, 2⟩ 100 (by decide)⟩

/-! ## BookHashTable (src/hash_table/book.rs) over the managed registries

The composite state carried by `BookHashTable` as instantiated in
src/dbms/hash_table.rs: one sparse byte stream per section (the `Book`
projection, whose page-level behaviour is verified separately on
`sectionRead`), the managed section registry and the managed index registry.
Machine-level writes through the section handle at offset `off` are the
`writeAt` stream semantics. -/

structure HTConfig where
  sectionCount : Nat
  indexChunkSize : Nat
deriving Repr, DecidableEq

structure HTState where
  sections : List (List Nat)
  secReg : SectionRegState
  idxReg : IndexRegState
deriving Repr, DecidableEq

/-- The on-stream entry layout written by `insert` (lines 89–94):
`key_size: u32 LE | value_size: u32 LE | key | value`. -/
def encodeEntry (k v : List Nat) : List Nat :=
  toLE 4 k.length ++ toLE 4 v.length ++ k ++ v

/-- `BookHashTable::insert` (src/hash_table/book.rs lines 68–102). -/
def htInsert (cfg : HTConfig) (st : HTState) (k v : List Nat) :
    Except String HTState := do
  let hash := hashKey k
  let sIdx := hash % cfg.sectionCount
  let bloomIndex := (hash / cfg.sectionCount) % 64
  let bloomBit := 2 ^ bloomIndex
  let sh ← resolveSection st.secReg sIdx
  let chunk := sh.end_offset / cfg.indexChunkSize
  let ik : IndexKey := ⟨sIdx, chunk⟩
  let entryOffset := sh.end_offset
  let record := encodeEntry k v
  let content2 := writeAt (st.sections.getD sIdx []) entryOffset record
  let newEnd := entryOffset + record.length
  let secReg2 ← updateSectionEndOffset st.secReg sIdx newEnd
  let idxReg2 ← updateIndexBloomFilter st.idxReg ik entryOffset bloomBit
  pure { sections := st.sections.set sIdx content2, secReg := secReg2, idxReg := idxReg2 }

/-- The state of a freshly created store (empty streams, all section end
offsets 0, empty index registry), as produced by the registry `load`
functions on empty files. -/
def initState (cfg : HTConfig) : HTState :=
  { sections := List.replicate cfg.sectionCount []
    secReg := ⟨List.replicate cfg.sectionCount ⟨0⟩, [], []⟩
    idxReg := ⟨[], [], [], []⟩ }

def insertMany (cfg : HTConfig) : HTState → List (List Nat × List Nat) →
    Except String HTState
  | st, [] => .ok st
  | st, e :: rest => (htInsert cfg st e.1 e.2).bind fun st2 => insertMany cfg st2 rest

/-- Entry of a `BTreeMap` range with the least key: here, least
`index_chunk` (the keys in a `try_resolve_next` range share their
`section_index`). -/
def minChunkEntry : List (IndexKey × Nat) → Option (IndexKey × Nat)
  | [] => none
  | p :: l =>
    match minChunkEntry l with
    | none => some p
    | some q => if p.1.index_chunk ≤ q.1.index_chunk then some p else some q

/-- `try_resolve_next_index` (src/dbms/index_registry.rs lines 165–176): the
binding with the least key strictly greater than `ik` and below
`(section_index + 1, 0)`. -/
def tryResolveNextIdx (st : IndexRegState) (ik : IndexKey) : Option IndexHeader :=
  let cands := st.map.filter (fun p =>
    decide (p.1.section_index = ik.section_index ∧ ik.index_chunk < p.1.index_chunk))
  match minChunkEntry cands with
  | some p => (st.cache[p.2]?).map Prod.snd
  | none => none

/-- What one `SectionScanner::next` call (src/hash_table/book.rs lines
283–341) hands out: the entry's start position and its two decoded sizes; the
entry's reader is the section handle cloned at `entryPos + 8`. -/
structure ScanItem where
  entryPos : Nat
  keySize : Nat
  valueSize : Nat
deriving Repr, DecidableEq

/-- `self.section.seek_relative((key_size + value_size) as i64)` leaves the
scanner just past the entry. -/
def ScanItem.nextPos (it : ScanItem) : Nat := it.entryPos + 8 + it.keySize + it.valueSize

/-- `SectionScanner::next`.  The `index_chunk` cache memoizes
`try_resolve_index` for the current chunk; the registry is not mutated during
a scan, so a cache hit returns what `try_resolve_index` returns and the cache
is semantically transparent and omitted. -/
def sectionNext (icsz : Nat) (reg : IndexRegState) (content : List Nat)
    (sIdx sEnd : Nat) (bq : Option Nat) (pos : Nat) :
    Except String (Option ScanItem) :=
  let pos1 : Option Nat :=
    match bq with
    | none => some pos
    | some q =>
      let ik : IndexKey := ⟨sIdx, pos / icsz⟩
      match tryResolveIdx reg ik with
      | none => none
      | some ih =>
        if ih.bloom_filter &&& q = 0 then
          match tryResolveNextIdx reg ik with
          | some nih => some nih.first_entry_offset
          | none => some sEnd
        else some pos
  match pos1 with
  | none => .ok none
  | some p =>
    if sEnd < p then .error "Section stream position exceeded section end"
    else if p = sEnd then .ok none
    else .ok (some ⟨p, fromLE (readBytes content p 4), fromLE (readBytes content (p + 4) 4)⟩)

/-- Driving a `SectionScanner` to the end, collecting each entry's key and
value bytes (the bytes its lazy `key()`/`value()` readers yield).  The fuel
only bounds the number of `next` calls; every theorem below supplies enough
fuel for the loop to finish on its own. -/
def sectionScan (icsz : Nat) (reg : IndexRegState) (content : List Nat)
    (sIdx sEnd : Nat) (bq : Option Nat) :
    Nat → Nat → Except String (List (List Nat × List Nat))
  | 0, _ => .error "out of fuel"
  | fuel + 1, pos =>
    match sectionNext icsz reg content sIdx sEnd bq pos with
    | .error e => .error e
    | .ok none => .ok []
    | .ok (some it) =>
      match sectionScan icsz reg content sIdx sEnd bq fuel it.nextPos with
      | .error e => .error e
      | .ok rest =>
        .ok ((readBytes content (it.entryPos + 8) it.keySize,
              readBytes content (it.entryPos + 8 + it.keySize) it.valueSize) :: rest)

/-- The successive reads `FilterScanner::next` performs through the entry's
key reader into its 256-byte buffer. -/
def chunksBy256 (l : List Nat) : List (List Nat) :=
  if l = [] then [] else l.take 256 :: chunksBy256 (l.drop 256)
termination_by l.length
decreasing_by
  have := List.length_pos.mpr (by assumption)
  simp only [List.length_drop]
  omega

/-- The key-comparison loop of `FilterScanner::next` (src/hash_table/book.rs
lines 188–208) over the successive reads: an empty read accepts iff the
expected remainder is exhausted; an over-long read rejects; a prefix mismatch
rejects; otherwise continue on the remainders. -/
def matchChunks : List (List Nat) → List Nat → Bool
  | [], expected => expected.isEmpty
  | c :: rest, expected =>
    if c.isEmpty then expected.isEmpty
    else if expected.length < c.length then false
    else if c ≠ expected.take c.length then false
    else matchChunks rest (expected.drop c.length)

def keyMatches (entryKey expected : List Nat) : Bool :=
  matchChunks (chunksBy256 entryKey) expected

/-- `BookHashTable::scan` with filter `Key(k)` (lines 104–171 and the
`FilterScanner`), driven to completion: route to the single section
`hash(k) % section_count`, skip it entirely when its end offset is 0, else
run the section scanner from position 0 with the key's bloom bit as the
query, and keep exactly the entries whose key bytes equal `k`. -/
def scanKey (cfg : HTConfig) (st : HTState) (k : List Nat) :
    Except String (List (List Nat × List Nat)) :=
  let hash := hashKey k
  let sIdx := hash % cfg.sectionCount
  let q := 2 ^ ((hash / cfg.sectionCount) % 64)
  match resolveSection st.secReg sIdx with
  | .error e => .error e
  | .ok sh =>
    if 0 < sh.end_offset then
      match sectionScan cfg.indexChunkSize st.idxReg (st.sections.getD sIdx [])
          sIdx sh.end_offset (some q) (sh.end_offset + 1) 0 with
      | .error e => .error e
      | .ok es => .ok (es.filter (fun e => keyMatches e.1 k))
    else .ok []

theorem mapLookup_mem {α β : Type} [DecidableEq α] {m : List (α × β)} {k : α} {v : β}
    (h : mapLookup m k = some v) : (k, v) ∈ m := by
  induction m with
  | nil => exact Option.noConfusion h
  | cons p m ih =>
    by_cases hp : p.1 = k
    · rw [mapLookup, if_pos hp] at h
      have hpv : p = (k, v) := by
        obtain ⟨p1, p2⟩ := p
        simp only [Option.some_inj] at h
        simp only at hp
        rw [hp, h]
      rw [← hpv]
      exact List.mem_cons_self p m
    · rw [mapLookup, if_neg hp] at h
      exact List.mem_cons_of_mem _ (ih h)

theorem encodeEntry_length (k v : List Nat) :
    (encodeEntry k v).length = 8 + k.length + v.length := by
  simp only [encodeEntry, List.length_append, toLE_length]
  try omega

theorem updateIndexBloomFilter_ok (st : IndexRegState) (ik : IndexKey) (eo bb : Nat)
    (hwf : ∀ p ∈ st.map, p.2 < st.cache.length) :
    ∃ st2, updateIndexBloomFilter st ik eo bb = .ok st2 := by
  match h : mapLookup st.map ik with
  | none =>
    refine ⟨⟨st.cache ++ [(ik, ⟨bb, eo⟩)], mapInsert st.map ik st.cache.length,
      setInsert st.hot st.cache.length,
      st.wal ++ [IndexEvent.updated st.cache.length ik ⟨bb, eo⟩]⟩, ?_⟩
    simp [updateIndexBloomFilter, h, IndexRegState.apply]
  | some ci =>
    have hci : ci < st.cache.length := hwf _ (mapLookup_mem h)
    have hentry : st.cache[ci]? = some st.cache[ci] := List.getElem?_eq_getElem hci
    by_cases hb : st.cache[ci].2.bloom_filter ||| bb = st.cache[ci].2.bloom_filter
    · exact ⟨st, by simp [updateIndexBloomFilter, h, hentry, hb]⟩
    · refine ⟨⟨st.cache.set ci
        (ik, ⟨st.cache[ci].2.bloom_filter ||| bb, st.cache[ci].2.first_entry_offset⟩),
        mapInsert st.map ik ci, setInsert st.hot ci,
        st.wal ++ [IndexEvent.updated ci ik
          ⟨st.cache[ci].2.bloom_filter ||| bb, st.cache[ci].2.first_entry_offset⟩]⟩, ?_⟩
      simp only [updateIndexBloomFilter, h, hentry, if_neg hb,
        IndexRegState.apply, if_neg (by omega : ¬ st.cache.length < ci),
        if_neg (by omega : ¬ st.cache.length = ci)]

/-- C2: `insert(k, v)` (lengths fitting u32) writes, into section
`hash(k) % section_count` starting at its current end offset `E`, the record
`len(k) u32 LE | len(v) u32 LE | key | value`, updates the section's end
offset to `E + 8 + len(k) + len(v)`, and updates index chunk
`E / index_chunk_size` passing `entry_offset = E` and the key's bloom bit. -/
theorem insert_record_layout (cfg : HTConfig) (st : HTState) (k v : List Nat)
    (sh : SectionHeader)
    (hk32 : k.length < 2 ^ 32) (hv32 : v.length < 2 ^ 32)
    (hsec : st.secReg.cache[sectionOf cfg.sectionCount k]? = some sh)
    (hwf : ∀ p ∈ st.idxReg.map, p.2 < st.idxReg.cache.length) :
    ∃ idxReg2,
      updateIndexBloomFilter st.idxReg
        ⟨sectionOf cfg.sectionCount k, sh.end_offset / cfg.indexChunkSize⟩
        sh.end_offset (bloomBitOf cfg.sectionCount k) = .ok idxReg2 ∧
      htInsert cfg st k v = .ok
        { sections := st.sections.set (sectionOf cfg.sectionCount k)
            (writeAt (st.sections.getD (sectionOf cfg.sectionCount k) [])
              sh.end_offset (toLE 4 k.length ++ toLE 4 v.length ++ k ++ v))
          secReg :=
            { cache := st.secReg.cache.set (sectionOf cfg.sectionCount k)
                ⟨sh.end_offset + (8 + k.length + v.length)⟩
              hot := setInsert st.secReg.hot (sectionOf cfg.sectionCount k)
              wal := st.secReg.wal ++ [SectionEvent.updated
                (sectionOf cfg.sectionCount k)
                ⟨sh.end_offset + (8 + k.length + v.length)⟩] }
          idxReg := idxReg2 } := by
  obtain ⟨idxReg2, hidx⟩ := updateIndexBloomFilter_ok st.idxReg
    ⟨sectionOf cfg.sectionCount k, sh.end_offset / cfg.indexChunkSize⟩
    sh.end_offset (bloomBitOf cfg.sectionCount k) hwf
  refine ⟨idxReg2, hidx, ?_⟩
  have hslt : sectionOf cfg.sectionCount k < st.secReg.cache.length := by
    by_contra hge
    rw [List.getElem?_eq_none (by omega)] at hsec
    exact Option.noConfusion hsec
  rw [sectionOf] at hsec hslt
  rw [bloomBitOf, bloomIndexOf, sectionOf] at hidx
  simp only [htInsert, resolveSection, hsec, bind, Except.bind, updateSectionEndOffset,
    encodeEntry_length]
  rw [if_neg (by omega : ¬ sh.end_offset + (8 + k.length + v.length) ≤ sh.end_offset)]
  simp only [SectionRegState.apply, if_neg (Nat.not_le.mpr hslt), hidx]
  simp only [pure, Except.pure, sectionOf, encodeEntry]

/-- Witness for C2 at a concrete one-section state. -/
theorem insert_record_layout_witness :
    ∃ idxReg2,
      updateIndexBloomFilter (IndexRegState.mk [] [] [] [])
        ⟨sectionOf 1 [97], SectionHeader.end_offset ⟨0⟩ / 64⟩
        (SectionHeader.end_offset ⟨0⟩) (bloomBitOf 1 [97]) = .ok idxReg2 ∧
      htInsert ⟨1, 64⟩ ⟨[[]], ⟨[⟨0⟩], [], []⟩, ⟨[], [], [], []⟩⟩ [97] [49] = .ok
        { sections := [[]].set (sectionOf 1 [97])
            (writeAt ([[]].getD (sectionOf 1 [97]) [])
              (SectionHeader.end_offset ⟨0⟩)
              (toLE 4 (List.length [97]) ++ toLE 4 (List.length [49]) ++ [97] ++ [49]))
          secReg :=
            { cache := [(⟨0⟩ : SectionHeader)].set (sectionOf 1 [97])
                ⟨SectionHeader.end_offset ⟨0⟩ + (8 + List.length [97] + List.length [49])⟩
              hot := setInsert [] (sectionOf 1 [97])
              wal := [] ++ [SectionEvent.updated (sectionOf 1 [97])
                ⟨SectionHeader.end_offset ⟨0⟩ + (8 + List.length [97] + List.length [49])⟩] }
          idxReg := idxReg2 } :=
  insert_record_layout ⟨1, 64⟩ ⟨[[]], ⟨[⟨0⟩], [], []⟩, ⟨[], [], [], []⟩⟩ [97] [49] ⟨0⟩
    (by decide) (by decide) (by decide) (by intro p hp; simp at hp)

theorem minChunkEntry_eq_none {l : List (IndexKey × Nat)} :
    minChunkEntry l = none ↔ l = [] := by
  match l with
  | [] => simp [minChunkEntry]
  | p :: l2 =>
    simp only [minChunkEntry]
    match minChunkEntry l2 with
    | none => simp
    | some q =>
      by_cases h : p.1.index_chunk ≤ q.1.index_chunk <;> simp [h]

theorem minChunkEntry_min {l : List (IndexKey × Nat)} {p : IndexKey × Nat}
    (h : minChunkEntry l = some p) :
    p ∈ l ∧ ∀ q ∈ l, p.1.index_chunk ≤ q.1.index_chunk := by
  induction l generalizing p with
  | nil => exact Option.noConfusion h
  | cons a l ih =>
    rw [minChunkEntry] at h
    match hm : minChunkEntry l with
    | none =>
      rw [hm] at h
      cases h
      have hl : l = [] := minChunkEntry_eq_none.mp hm
      subst hl
      exact ⟨List.mem_cons_self a [], by intro q hq; simp at hq; rw [hq]⟩
    | some q =>
      simp only [hm] at h
      obtain ⟨hqmem, hqmin⟩ := ih hm
      by_cases hle : a.1.index_chunk ≤ q.1.index_chunk
      · rw [if_pos hle] at h
        cases h
        refine ⟨List.mem_cons_self a l, ?_⟩
        intro r hr
        rcases List.mem_cons.mp hr with h1 | h2
        · rw [h1]
        · exact le_trans hle (hqmin r h2)
      · rw [if_neg hle] at h
        cases h
        refine ⟨List.mem_cons_of_mem a hqmem, ?_⟩
        intro r hr
        rcases List.mem_cons.mp hr with h1 | h2
        · rw [h1]; omega
        · exact hqmin r h2

/-- C3: one `SectionScanner::next` call with a bloom query: an unresolved
current chunk returns None; a bloom miss moves the position to the next
materialized chunk's `first_entry_offset` (the least strictly greater chunk
of the same section, by the characterization conjuncts) or to `section_end`,
and continues exactly as a query-less call from there; afterwards a position
beyond `section_end` is an invalid-data error, a position equal to it returns
None, and a smaller position reads the two u32 sizes at the position and
hands out the entry there (the scan loop then continues at
`entryPos + 8 + keySize + valueSize`). -/
theorem sectionScanner_next_spec (icsz : Nat) (reg : IndexRegState)
    (content : List Nat) (sIdx sEnd q pos : Nat) :
    (tryResolveIdx reg ⟨sIdx, pos / icsz⟩ = none →
      sectionNext icsz reg content sIdx sEnd (some q) pos = .ok none) ∧
    (∀ ih, tryResolveIdx reg ⟨sIdx, pos / icsz⟩ = some ih →
      ih.bloom_filter &&& q = 0 →
      sectionNext icsz reg content sIdx sEnd (some q) pos =
        sectionNext icsz reg content sIdx sEnd none
          ((tryResolveNextIdx reg ⟨sIdx, pos / icsz⟩).elim sEnd
            IndexHeader.first_entry_offset)) ∧
    (∀ nih, tryResolveNextIdx reg ⟨sIdx, pos / icsz⟩ = some nih →
      ∃ p2, p2 ∈ reg.map ∧ p2.1.section_index = sIdx ∧
        pos / icsz < p2.1.index_chunk ∧
        (reg.cache[p2.2]?).map Prod.snd = some nih ∧
        ∀ p3 ∈ reg.map, p3.1.section_index = sIdx →
          pos / icsz < p3.1.index_chunk → p2.1.index_chunk ≤ p3.1.index_chunk) ∧
    (tryResolveNextIdx reg ⟨sIdx, pos / icsz⟩ = none →
      (∀ p3 ∈ reg.map, p3.2 < reg.cache.length) →
      ∀ p3 ∈ reg.map, ¬(p3.1.section_index = sIdx ∧ pos / icsz < p3.1.index_chunk)) ∧
    (∀ ih, tryResolveIdx reg ⟨sIdx, pos / icsz⟩ = some ih →
      ih.bloom_filter &&& q ≠ 0 →
      sectionNext icsz reg content sIdx sEnd (some q) pos =
        sectionNext icsz reg content sIdx sEnd none pos) ∧
    (∀ p, sEnd < p → sectionNext icsz reg content sIdx sEnd none p =
      .error "Section stream position exceeded section end") ∧
    (sectionNext icsz reg content sIdx sEnd none sEnd = .ok none) ∧
    (∀ p, p < sEnd → sectionNext icsz reg content sIdx sEnd none p =
      .ok (some ⟨p, fromLE (readBytes content p 4),
        fromLE (readBytes content (p + 4) 4)⟩)) := by
  refine ⟨?_, ?_, ?_, ?_, ?_, ?_, ?_, ?_⟩
  · intro hres
    simp [sectionNext, hres]
  · intro ih hres hbloom
    simp only [sectionNext, hres, if_pos hbloom]
    match hnext : tryResolveNextIdx reg ⟨sIdx, pos / icsz⟩ with
    | some nih => simp [Option.elim]
    | none => simp [Option.elim]
  · intro nih hnext
    rw [tryResolveNextIdx] at hnext
    match hmin : minChunkEntry (reg.map.filter (fun p =>
        decide (p.1.section_index = (⟨sIdx, pos / icsz⟩ : IndexKey).section_index ∧
          (⟨sIdx, pos / icsz⟩ : IndexKey).index_chunk < p.1.index_chunk))) with
    | none =>
      simp only [hmin] at hnext
      exact Option.noConfusion hnext
    | some p2 =>
      simp only [hmin] at hnext
      obtain ⟨hmem, hmin2⟩ := minChunkEntry_min hmin
      have hmem2 := List.mem_filter.mp hmem
      have hp2 := of_decide_eq_true hmem2.2
      refine ⟨p2, hmem2.1, hp2.1, hp2.2, hnext, ?_⟩
      intro p3 hp3 hsec3 hchunk3
      exact hmin2 p3 (List.mem_filter.mpr ⟨hp3, decide_eq_true ⟨hsec3, hchunk3⟩⟩)
  · intro hnext hwf p3 hp3 hcond
    rw [tryResolveNextIdx] at hnext
    match hmin : minChunkEntry (reg.map.filter (fun p =>
        decide (p.1.section_index = (⟨sIdx, pos / icsz⟩ : IndexKey).section_index ∧
          (⟨sIdx, pos / icsz⟩ : IndexKey).index_chunk < p.1.index_chunk))) with
    | some p2 =>
      simp only [hmin] at hnext
      obtain ⟨hmem, _⟩ := minChunkEntry_min hmin
      have hmem2 := List.mem_filter.mp hmem
      have hlt := hwf p2 hmem2.1
      rw [List.getElem?_eq_getElem hlt] at hnext
      exact Option.noConfusion hnext
    | none =>
      have hempty := minChunkEntry_eq_none.mp hmin
      have : p3 ∈ reg.map.filter (fun p =>
          decide (p.1.section_index = (⟨sIdx, pos / icsz⟩ : IndexKey).section_index ∧
            (⟨sIdx, pos / icsz⟩ : IndexKey).index_chunk < p.1.index_chunk)) :=
        List.mem_filter.mpr ⟨hp3, decide_eq_true hcond⟩
      rw [hempty] at this
      exact (List.not_mem_nil p3) this
  · intro ih hres hbloom
    simp [sectionNext, hres, hbloom]
  · intro p hp
    simp [sectionNext, if_pos hp]
  · simp [sectionNext]
  · intro p hp
    simp [sectionNext, Nat.not_lt.mpr (Nat.le_of_lt hp), Nat.ne_of_lt hp]

/-- Witness for C3 at a concrete registry/section state. -/
theorem sectionScanner_next_spec_witness :
    sectionNext 64 ⟨[], [], [], []⟩ [] 0 32 (some 1) 0 = .ok none ∧
    sectionNext 64 ⟨[(⟨0, 0⟩, ⟨2, 0⟩)], [(⟨0, 0⟩, 0)], [], []⟩ (toLE 4 1 ++ toLE 4 1 ++ [7] ++ [8])
        0 10 none 11 = .error "Section stream position exceeded section end" ∧
    sectionNext 64 ⟨[(⟨0, 0⟩, ⟨2, 0⟩)], [(⟨0, 0⟩, 0)], [], []⟩ (toLE 4 1 ++ toLE 4 1 ++ [7] ++ [8])
        0 10 none 10 = .ok none ∧
    sectionNext 64 ⟨[(⟨0, 0⟩, ⟨2, 0⟩)], [(⟨0, 0⟩, 0)], [], []⟩ (toLE 4 1 ++ toLE 4 1 ++ [7] ++ [8])
        0 10 none 0 = .ok (some ⟨0,
          fromLE (readBytes (toLE 4 1 ++ toLE 4 1 ++ [7] ++ [8]) 0 4),
          fromLE (readBytes (toLE 4 1 ++ toLE 4 1 ++ [7] ++ [8]) (0 + 4) 4)⟩) := by
  refine ⟨(sectionScanner_next_spec 64 ⟨[], [], [], []⟩ [] 0 32 1 0).1 (by decide),
    (sectionScanner_next_spec 64 ⟨[(⟨0, 0⟩, ⟨2, 0⟩)], [(⟨0, 0⟩, 0)], [], []⟩
      (toLE 4 1 ++ toLE 4 1 ++ [7] ++ [8]) 0 10 5 11).2.2.2.2.2.1 11 (by decide),
    (sectionScanner_next_spec 64 ⟨[(⟨0, 0⟩, ⟨2, 0⟩)], [(⟨0, 0⟩, 0)], [], []⟩
      (toLE 4 1 ++ toLE 4 1 ++ [7] ++ [8]) 0 10 5 10).2.2.2.2.2.2.1,
    (sectionScanner_next_spec 64 ⟨[(⟨0, 0⟩, ⟨2, 0⟩)], [(⟨0, 0⟩, 0)], [], []⟩
      (toLE 4 1 ++ toLE 4 1 ++ [7] ++ [8]) 0 10 5 0).2.2.2.2.2.2.2 0 (by decide)⟩

/-! ## Reachable-state layout for C1

For a fixed section, the entries routed to it (in insertion order) determine
the section's byte content, its registry end offset, and the canonical index
chunk headers.  These definitions describe that layout; the invariant `Inv`
below states that every state reachable by inserts satisfies it. -/

def encLen (e : List Nat × List Nat) : Nat := 8 + e.1.length + e.2.length

/-- Byte offset of entry `i` within its section. -/
def offAt (es : List (List Nat × List Nat)) (i : Nat) : Nat :=
  ((es.take i).map encLen).sum

/-- The section's bytes: the concatenated encodings of its entries. -/
def secContent (es : List (List Nat × List Nat)) : List Nat :=
  (es.map (fun e => encodeEntry e.1 e.2)).flatten

/-- Index chunk containing the start of entry `i`. -/
def chunkAt (icsz : Nat) (es : List (List Nat × List Nat)) (i : Nat) : Nat :=
  offAt es i / icsz

def entAt (es : List (List Nat × List Nat)) (i : Nat) : List Nat × List Nat :=
  es.getD i ([], [])

/-- The entries routed to section `s` by the insert path. -/
def esFor (cfg : HTConfig) (ops : List (List Nat × List Nat)) (s : Nat) :
    List (List Nat × List Nat) :=
  ops.filter (fun e => decide (sectionOf cfg.sectionCount e.1 = s))

/-- A chunk is materialized when some entry starts inside it. -/
def matChunk (icsz : Nat) (es : List (List Nat × List Nat)) (c : Nat) : Prop :=
  ∃ i, i < es.length ∧ chunkAt icsz es i = c

/-- Least entry index at or after `m` whose start falls in chunk `c`. -/
def firstIdxFrom (es : List (List Nat × List Nat)) (icsz c : Nat) (m : Nat) :
    Option Nat :=
  if h : m < es.length then
    if chunkAt icsz es m = c then some m else firstIdxFrom es icsz c (m + 1)
  else none
termination_by es.length - m

def canonFeo (es : List (List Nat × List Nat)) (icsz c : Nat) : Nat :=
  (firstIdxFrom es icsz c 0).elim 0 (offAt es)

def canonBloom (sc : Nat) (es : List (List Nat × List Nat)) (icsz c : Nat) : Nat :=
  ((List.range es.length).filter (fun i => decide (chunkAt icsz es i = c))).foldr
    (fun i acc => bloomBitOf sc (entAt es i).1 ||| acc) 0

/-- The index header the insert path maintains for a materialized chunk. -/
def canonHdr (sc : Nat) (es : List (List Nat × List Nat)) (icsz c : Nat) :
    IndexHeader :=
  ⟨canonBloom sc es icsz c, canonFeo es icsz c⟩

/-- The index-registry invariant over the per-section entry lists. -/
def IdxInv (cfg : HTConfig) (ops : List (List Nat × List Nat))
    (reg : IndexRegState) : Prop :=
  (reg.map.map Prod.fst).Nodup ∧
  (∀ ik ci, (ik, ci) ∈ reg.map →
    reg.cache[ci]? = some (ik, canonHdr cfg.sectionCount
      (esFor cfg ops ik.section_index) cfg.indexChunkSize ik.index_chunk)) ∧
  (∀ ik : IndexKey, (∃ ci, (ik, ci) ∈ reg.map) ↔
    matChunk cfg.indexChunkSize (esFor cfg ops ik.section_index) ik.index_chunk)

/-- States reachable from an empty store by successful inserts. -/
def Inv (cfg : HTConfig) (ops : List (List Nat × List Nat)) (st : HTState) : Prop :=
  st.sections.length = cfg.sectionCount ∧
  st.secReg.cache.length = cfg.sectionCount ∧
  (∀ s, s < cfg.sectionCount →
    st.sections.getD s [] = secContent (esFor cfg ops s) ∧
    st.secReg.cache[s]? = some ⟨(secContent (esFor cfg ops s)).length⟩) ∧
  IdxInv cfg ops st.idxReg

theorem encLen_pos (e : List Nat × List Nat) : 8 ≤ encLen e := by
  simp only [encLen]
  omega

theorem offAt_zero (es : List (List Nat × List Nat)) : offAt es 0 = 0 := by
  simp [offAt]

theorem secContent_length (es : List (List Nat × List Nat)) :
    (secContent es).length = (es.map encLen).sum := by
  induction es with
  | nil => rfl
  | cons e es ih =>
    simp only [secContent, List.map_cons, List.flatten_cons, List.length_append] at *
    rw [ih, encodeEntry_length, List.sum_cons]
    simp [encLen]

theorem offAt_eq_length_take (es : List (List Nat × List Nat)) (i : Nat) :
    offAt es i = (secContent (es.take i)).length := by
  rw [secContent_length, offAt]

theorem offAt_length (es : List (List Nat × List Nat)) :
    offAt es es.length = (secContent es).length := by
  rw [offAt_eq_length_take, List.take_length]

theorem offAt_succ (es : List (List Nat × List Nat)) (i : Nat) (h : i < es.length) :
    offAt es (i + 1) = offAt es i + encLen (entAt es i) := by
  simp only [offAt]
  rw [List.take_succ, List.getElem?_eq_getElem h]
  simp only [Option.toList_some, List.map_append, List.sum_append, List.map_cons,
    List.map_nil, List.sum_cons, List.sum_nil]
  simp [entAt, List.getD, List.get?_eq_getElem?, List.getElem?_eq_getElem h]

theorem offAt_mono (es : List (List Nat × List Nat)) {i j : Nat} (h : i ≤ j) :
    offAt es i ≤ offAt es j := by
  induction j with
  | zero =>
    have : i = 0 := by omega
    rw [this]
  | succ m ih =>
    by_cases hi : i = m + 1
    · rw [hi]
    · have him : i ≤ m := by omega
      by_cases hm : m < es.length
      · have := offAt_succ es m hm
        have := ih him
        omega
      · have : es.take (m + 1) = es.take m := by
          rw [List.take_of_length_le (by omega), List.take_of_length_le (by omega)]
        calc offAt es i ≤ offAt es m := ih him
          _ = offAt es (m + 1) := by rw [offAt, offAt, this]

theorem offAt_strict (es : List (List Nat × List Nat)) {i j : Nat}
    (hij : i < j) (hi : i < es.length) : offAt es i < offAt es j := by
  have h1 := offAt_succ es i hi
  have h2 := offAt_mono es (show i + 1 ≤ j by omega)
  have h3 := encLen_pos (entAt es i)
  omega

theorem chunkAt_mono (icsz : Nat) (es : List (List Nat × List Nat)) {i j : Nat}
    (h : i ≤ j) : chunkAt icsz es i ≤ chunkAt icsz es j :=
  Nat.div_le_div_right (offAt_mono es h)

theorem secContent_append (a b : List (List Nat × List Nat)) :
    secContent (a ++ b) = secContent a ++ secContent b := by
  simp [secContent]

theorem readBytes_append_skip (a b : List Nat) (x n : Nat) :
    readBytes (a ++ b) (a.length + x) n = readBytes b x n := by
  rw [readBytes_append_right a b _ n (by omega)]
  congr 1
  omega

theorem secContent_decompose (es : List (List Nat × List Nat)) (i : Nat) :
    secContent es = secContent (es.take i) ++ secContent (es.drop i) := by
  rw [← secContent_append, List.take_append_drop]

theorem secContent_drop (es : List (List Nat × List Nat)) (i : Nat)
    (h : i < es.length) :
    secContent (es.drop i) =
      encodeEntry (entAt es i).1 (entAt es i).2 ++ secContent (es.drop (i + 1)) := by
  have hd : es.drop i = entAt es i :: es.drop (i + 1) := by
    rw [entAt, List.getD, List.get?_eq_getElem?, List.getElem?_eq_getElem h]
    exact (List.drop_eq_getElem_cons h)
  rw [hd]
  simp [secContent]

theorem byteAt_drop (c : List Nat) (i j : Nat) :
    byteAt (c.drop i) j = byteAt c (i + j) := by
  simp [byteAt, List.getD, List.get?_eq_getElem?, List.getElem?_drop]

theorem readBytes_shift (c : List Nat) (off x n : Nat) :
    readBytes c (off + x) n = readBytes (c.drop off) x n := by
  simp only [readBytes, List.map_inj_left, List.mem_range]
  intro i hi
  rw [byteAt_drop]
  congr 1
  omega

theorem readBytes_first (a b : List Nat) (n : Nat) (hn : a.length = n) :
    readBytes (a ++ b) 0 n = a := by
  rw [← hn, readBytes_append_exact]

theorem drop_append_self (a b : List Nat) (n : Nat) (hn : a.length = n) :
    (a ++ b).drop n = b := by
  rw [← hn, List.drop_left]

/-- Reading the four fields of entry `i` out of the section bytes. -/
theorem parse_entry (es : List (List Nat × List Nat)) (i : Nat) (h : i < es.length) :
    readBytes (secContent es) (offAt es i) 4 = toLE 4 (entAt es i).1.length ∧
    readBytes (secContent es) (offAt es i + 4) 4 = toLE 4 (entAt es i).2.length ∧
    readBytes (secContent es) (offAt es i + 8) (entAt es i).1.length = (entAt es i).1 ∧
    readBytes (secContent es) (offAt es i + 8 + (entAt es i).1.length)
      (entAt es i).2.length = (entAt es i).2 := by
  have hdropC : (secContent es).drop (offAt es i) = secContent (es.drop i) := by
    rw [secContent_decompose es i]
    exact drop_append_self _ _ _ (offAt_eq_length_take es i).symm
  have hD : secContent (es.drop i) =
      toLE 4 (entAt es i).1.length ++ (toLE 4 (entAt es i).2.length ++
        ((entAt es i).1 ++ ((entAt es i).2 ++ secContent (es.drop (i + 1))))) := by
    rw [secContent_drop es i h, encodeEntry]
    simp [List.append_assoc]
  have hshift : ∀ x n, readBytes (secContent es) (offAt es i + x) n =
      readBytes (secContent (es.drop i)) x n := by
    intro x n
    rw [readBytes_shift, hdropC]
  have hA : (toLE 4 (entAt es i).1.length).length = 4 := toLE_length _ _
  have hB : (toLE 4 (entAt es i).2.length).length = 4 := toLE_length _ _
  have hd4 : (secContent (es.drop i)).drop 4 =
      toLE 4 (entAt es i).2.length ++
        ((entAt es i).1 ++ ((entAt es i).2 ++ secContent (es.drop (i + 1)))) := by
    rw [hD]
    exact drop_append_self _ _ _ hA
  have hd8 : (secContent (es.drop i)).drop 8 =
      (entAt es i).1 ++ ((entAt es i).2 ++ secContent (es.drop (i + 1))) := by
    have h1 : (secContent (es.drop i)).drop 8 =
        ((secContent (es.drop i)).drop 4).drop 4 := by
      rw [List.drop_drop]
    rw [h1, hd4]
    exact drop_append_self _ _ _ hB
  have hdk : (secContent (es.drop i)).drop (8 + (entAt es i).1.length) =
      (entAt es i).2 ++ secContent (es.drop (i + 1)) := by
    have h1 : (secContent (es.drop i)).drop (8 + (entAt es i).1.length) =
        ((secContent (es.drop i)).drop 8).drop (entAt es i).1.length := by
      rw [List.drop_drop]
      try congr 1
      try omega
    rw [h1, hd8]
    exact drop_append_self _ _ _ rfl
  refine ⟨?_, ?_, ?_, ?_⟩
  · have h0 := hshift 0 4
    rw [Nat.add_zero] at h0
    rw [h0, hD, readBytes_first _ _ 4 hA]
  · rw [hshift 4 4]
    have h1 : readBytes (secContent (es.drop i)) 4 4 =
        readBytes ((secContent (es.drop i)).drop 4) 0 4 := by
      have := readBytes_shift (secContent (es.drop i)) 4 0 4
      simpa using this
    rw [h1, hd4, readBytes_first _ _ 4 hB]
  · rw [hshift 8 (entAt es i).1.length]
    have h1 : readBytes (secContent (es.drop i)) 8 (entAt es i).1.length =
        readBytes ((secContent (es.drop i)).drop 8) 0 (entAt es i).1.length := by
      have := readBytes_shift (secContent (es.drop i)) 8 0 (entAt es i).1.length
      simpa using this
    rw [h1, hd8, readBytes_first _ _ _ rfl]
  · have h0 := hshift (8 + (entAt es i).1.length) (entAt es i).2.length
    rw [← Nat.add_assoc] at h0
    rw [h0]
    have h1 : readBytes (secContent (es.drop i)) (8 + (entAt es i).1.length)
        (entAt es i).2.length =
        readBytes ((secContent (es.drop i)).drop (8 + (entAt es i).1.length)) 0
          (entAt es i).2.length := by
      have := readBytes_shift (secContent (es.drop i)) (8 + (entAt es i).1.length) 0
        (entAt es i).2.length
      simpa using this
    rw [h1, hdk, readBytes_first _ _ _ rfl]

theorem firstIdxFrom_some {es : List (List Nat × List Nat)} {icsz c : Nat} :
    ∀ {m i : Nat}, firstIdxFrom es icsz c m = some i →
      m ≤ i ∧ i < es.length ∧ chunkAt icsz es i = c ∧
        ∀ x, m ≤ x → x < i → chunkAt icsz es x ≠ c := by
  have key : ∀ n m i, es.length - m ≤ n → firstIdxFrom es icsz c m = some i →
      m ≤ i ∧ i < es.length ∧ chunkAt icsz es i = c ∧
        ∀ x, m ≤ x → x < i → chunkAt icsz es x ≠ c := by
    intro n
    induction n with
    | zero =>
      intro m i hn h
      rw [firstIdxFrom, dif_neg (by omega)] at h
      exact Option.noConfusion h
    | succ n ih =>
      intro m i hn h
      rw [firstIdxFrom] at h
      by_cases hm : m < es.length
      · rw [dif_pos hm] at h
        by_cases hc : chunkAt icsz es m = c
        · rw [if_pos hc] at h
          cases h
          exact ⟨le_refl m, hm, hc, fun x hx1 hx2 => absurd (by omega : m ≤ x ∧ x < m)
            (by omega)⟩
        · rw [if_neg hc] at h
          obtain ⟨h1, h2, h3, h4⟩ := ih (m + 1) i (by omega) h
          refine ⟨by omega, h2, h3, ?_⟩
          intro x hx1 hx2
          by_cases hxm : x = m
          · rw [hxm]; exact hc
          · exact h4 x (by omega) hx2
      · rw [dif_neg hm] at h
        exact Option.noConfusion h
  intro m i h
  exact key (es.length - m) m i (le_refl _) h

theorem firstIdxFrom_none {es : List (List Nat × List Nat)} {icsz c : Nat} :
    ∀ {m : Nat}, firstIdxFrom es icsz c m = none →
      ∀ x, m ≤ x → x < es.length → chunkAt icsz es x ≠ c := by
  have key : ∀ n m, es.length - m ≤ n → firstIdxFrom es icsz c m = none →
      ∀ x, m ≤ x → x < es.length → chunkAt icsz es x ≠ c := by
    intro n
    induction n with
    | zero =>
      intro m hn h x hx1 hx2
      omega
    | succ n ih =>
      intro m hn h x hx1 hx2
      rw [firstIdxFrom] at h
      by_cases hm : m < es.length
      · rw [dif_pos hm] at h
        by_cases hc : chunkAt icsz es m = c
        · rw [if_pos hc] at h
          exact Option.noConfusion h
        · rw [if_neg hc] at h
          by_cases hxm : x = m
          · rw [hxm]; exact hc
          · exact ih (m + 1) (by omega) h x (by omega) hx2
      · omega
  intro m h
  exact key (es.length - m) m (le_refl _) h

theorem testBit_foldr_lor (l : List Nat) (f : Nat → Nat) (j : Nat) :
    (l.foldr (fun i acc => f i ||| acc) 0).testBit j = l.any (fun i => (f i).testBit j) := by
  induction l with
  | nil => simp
  | cons a l ih => simp [List.foldr_cons, Nat.testBit_or, ih]

theorem canonBloom_has (sc icsz : Nat) (es : List (List Nat × List Nat))
    (i c : Nat) (hi : i < es.length) (hc : chunkAt icsz es i = c) :
    (canonBloom sc es icsz c).testBit (bloomIndexOf sc (entAt es i).1) = true := by
  rw [canonBloom, testBit_foldr_lor]
  apply List.any_eq_true.mpr
  refine ⟨i, List.mem_filter.mpr ⟨List.mem_range.mpr hi, decide_eq_true hc⟩, ?_⟩
  rw [bloomBitOf]
  exact Nat.testBit_two_pow_self

/-- A chunk whose bloom filter misses the query bit contains no entry with
the queried key. -/
theorem bloom_skip_no_key (sc icsz : Nat) (es : List (List Nat × List Nat))
    (c : Nat) (k : List Nat)
    (hq : canonBloom sc es icsz c &&& bloomBitOf sc k = 0) :
    ∀ i, i < es.length → chunkAt icsz es i = c → (entAt es i).1 ≠ k := by
  intro i hi hc heq
  have h1 := canonBloom_has sc icsz es i c hi hc
  rw [heq] at h1
  have h2 : (canonBloom sc es icsz c &&& bloomBitOf sc k).testBit
      (bloomIndexOf sc k) = true := by
    rw [Nat.testBit_and, h1, bloomBitOf, Nat.testBit_two_pow_self]
    rfl
  rw [hq] at h2
  simp at h2

theorem mapLookup_eq_some_of_mem {α β : Type} [DecidableEq α]
    {m : List (α × β)} {k : α} {v : β} (hnd : (m.map Prod.fst).Nodup)
    (hmem : (k, v) ∈ m) : mapLookup m k = some v := by
  induction m with
  | nil => exact absurd hmem (List.not_mem_nil _)
  | cons p m ih =>
    rcases List.mem_cons.mp hmem with h1 | h2
    · rw [mapLookup, if_pos (by rw [← h1])]
      rw [← h1]
    · have hp : p.1 ≠ k := by
        intro hpk
        have : k ∈ m.map Prod.fst := by
          refine List.mem_map.mpr ⟨(k, v), h2, rfl⟩
        rw [List.map_cons, List.nodup_cons] at hnd
        exact hnd.1 (hpk ▸ this)
      rw [mapLookup, if_neg hp]
      exact ih (by rw [List.map_cons, List.nodup_cons] at hnd; exact hnd.2) h2

theorem mapLookup_eq_none_iff {α β : Type} [DecidableEq α]
    {m : List (α × β)} {k : α} :
    mapLookup m k = none ↔ ∀ v, (k, v) ∉ m := by
  induction m with
  | nil => simp [mapLookup]
  | cons p m ih =>
    by_cases hp : p.1 = k
    · rw [mapLookup, if_pos hp]
      constructor
      · intro h; exact Option.noConfusion h
      · intro h
        exact absurd (List.mem_cons_self p m) (by
          have := h p.2
          intro hmem
          apply this
          have : p = (k, p.2) := by
            obtain ⟨p1, p2⟩ := p
            simp only at hp
            rw [hp]
          rw [← this]
          exact hmem)
    · rw [mapLookup, if_neg hp, ih]
      constructor
      · intro h v hv
        rcases List.mem_cons.mp hv with h1 | h2
        · exact hp (by rw [← h1])
        · exact h v h2
      · intro h v hv
        exact h v (List.mem_cons_of_mem p hv)

theorem mem_mapInsert {α β : Type} [DecidableEq α]
    (m : List (α × β)) (k : α) (v : β) (p : α × β) :
    p ∈ mapInsert m k v ↔ ((p ∈ m ∧ p.1 ≠ k) ∨ p = (k, v)) := by
  induction m with
  | nil =>
    simp only [mapInsert, List.mem_singleton, List.not_mem_nil, false_and, false_or]
  | cons q m ih =>
    by_cases hq : q.1 = k
    · rw [mapInsert, if_pos hq, ih]
      constructor
      · rintro (⟨h1, h2⟩ | h3)
        · exact Or.inl ⟨List.mem_cons_of_mem q h1, h2⟩
        · exact Or.inr h3
      · rintro (⟨h1, h2⟩ | h3)
        · rcases List.mem_cons.mp h1 with hh | hh
          · exact absurd (by rw [hh]; exact hq) h2
          · exact Or.inl ⟨hh, h2⟩
        · exact Or.inr h3
    · rw [mapInsert, if_neg hq]
      constructor
      · intro hmem
        rcases List.mem_cons.mp hmem with h1 | h2
        · exact Or.inl ⟨by rw [h1]; exact List.mem_cons_self q m, by rw [h1]; exact hq⟩
        · rcases (ih).mp h2 with ⟨h3, h4⟩ | h5
          · exact Or.inl ⟨List.mem_cons_of_mem q h3, h4⟩
          · exact Or.inr h5
      · rintro (⟨h1, h2⟩ | h3)
        · rcases List.mem_cons.mp h1 with hh | hh
          · rw [hh]; exact List.mem_cons_self q _
          · exact List.mem_cons_of_mem q ((ih).mpr (Or.inl ⟨hh, h2⟩))
        · exact List.mem_cons_of_mem q ((ih).mpr (Or.inr h3))

theorem mapInsert_fst_mem {α β : Type} [DecidableEq α]
    {m : List (α × β)} {k : α} {v : β} {a : α}
    (h : a ∈ (mapInsert m k v).map Prod.fst) :
    a ∈ m.map Prod.fst ∨ a = k := by
  obtain ⟨p, hp, hpa⟩ := List.mem_map.mp h
  rcases (mem_mapInsert m k v p).mp hp with ⟨h1, _⟩ | h2
  · exact Or.inl (List.mem_map.mpr ⟨p, h1, hpa⟩)
  · rw [h2] at hpa
    exact Or.inr (by rw [← hpa])

theorem mapInsert_fst_nodup {α β : Type} [DecidableEq α]
    {m : List (α × β)} (k : α) (v : β) (hnd : (m.map Prod.fst).Nodup) :
    ((mapInsert m k v).map Prod.fst).Nodup := by
  induction m with
  | nil => simp [mapInsert]
  | cons p m ih =>
    rw [List.map_cons, List.nodup_cons] at hnd
    by_cases hp : p.1 = k
    · rw [mapInsert, if_pos hp]
      exact ih hnd.2
    · rw [mapInsert, if_neg hp, List.map_cons, List.nodup_cons]
      refine ⟨?_, ih hnd.2⟩
      intro hmem
      rcases mapInsert_fst_mem hmem with h1 | h2
      · exact hnd.1 h1
      · exact hp h2

theorem mapInsert_of_lookup_none {α β : Type} [DecidableEq α]
    {m : List (α × β)} {k : α} (v : β) (h : mapLookup m k = none) :
    mapInsert m k v = m ++ [(k, v)] := by
  induction m with
  | nil => rfl
  | cons p m ih =>
    by_cases hp : p.1 = k
    · rw [mapLookup, if_pos hp] at h
      exact Option.noConfusion h
    · rw [mapLookup, if_neg hp] at h
      rw [mapInsert, if_neg hp, ih h, List.cons_append]

/-! Stability of the canonical layout under appending one entry. -/

theorem offAt_append_one (es : List (List Nat × List Nat))
    (e : List Nat × List Nat) {i : Nat} (h : i ≤ es.length) :
    offAt (es ++ [e]) i = offAt es i := by
  rw [offAt, offAt, List.take_append_of_le_length h]

theorem chunkAt_append_one (icsz : Nat) (es : List (List Nat × List Nat))
    (e : List Nat × List Nat) {i : Nat} (h : i ≤ es.length) :
    chunkAt icsz (es ++ [e]) i = chunkAt icsz es i := by
  rw [chunkAt, chunkAt, offAt_append_one es e h]

theorem entAt_append_one_lt (es : List (List Nat × List Nat))
    (e : List Nat × List Nat) {i : Nat} (h : i < es.length) :
    entAt (es ++ [e]) i = entAt es i := by
  simp [entAt, List.getD, List.get?_eq_getElem?, List.getElem?_append_left h]

theorem entAt_append_one_last (es : List (List Nat × List Nat))
    (e : List Nat × List Nat) : entAt (es ++ [e]) es.length = e := by
  simp only [entAt, List.getD, List.get?_eq_getElem?]
  rw [List.getElem?_append_right (le_refl _)]
  simp

theorem matChunk_append_one (icsz : Nat) (es : List (List Nat × List Nat))
    (e : List Nat × List Nat) (c : Nat) :
    matChunk icsz (es ++ [e]) c ↔
      matChunk icsz es c ∨ chunkAt icsz (es ++ [e]) es.length = c := by
  constructor
  · rintro ⟨i, hi, hc⟩
    rw [List.length_append, List.length_singleton] at hi
    by_cases hilen : i < es.length
    · exact Or.inl ⟨i, hilen, by rw [← chunkAt_append_one icsz es e (le_of_lt hilen)]; exact hc⟩
    · have : i = es.length := by omega
      rw [this] at hc
      exact Or.inr hc
  · rintro (⟨i, hi, hc⟩ | hc)
    · exact ⟨i, by simp only [List.length_append, List.length_singleton]; omega,
        by rw [chunkAt_append_one icsz es e (le_of_lt hi)]; exact hc⟩
    · exact ⟨es.length, by simp, hc⟩

theorem foldr_lor_init (l : List Nat) (f : Nat → Nat) (b : Nat) :
    l.foldr (fun i acc => f i ||| acc) b =
      l.foldr (fun i acc => f i ||| acc) 0 ||| b := by
  induction l with
  | nil => simp
  | cons a l ih =>
    simp only [List.foldr_cons, ih]
    rw [Nat.or_assoc]

theorem canonBloom_not_mat (sc icsz : Nat) (es : List (List Nat × List Nat))
    (c : Nat) (h : ¬ matChunk icsz es c) : canonBloom sc es icsz c = 0 := by
  rw [canonBloom]
  have : (List.range es.length).filter
      (fun i => decide (chunkAt icsz es i = c)) = [] := by
    rw [List.filter_eq_nil_iff]
    intro i hi
    simp only [decide_eq_true_eq]
    intro hc
    exact h ⟨i, List.mem_range.mp hi, hc⟩
  rw [this]
  rfl

theorem canonBloom_append_one (sc icsz : Nat) (es : List (List Nat × List Nat))
    (e : List Nat × List Nat) (c : Nat) :
    canonBloom sc (es ++ [e]) icsz c =
      if chunkAt icsz (es ++ [e]) es.length = c then
        canonBloom sc es icsz c ||| bloomBitOf sc e.1
      else canonBloom sc es icsz c := by
  have hrange : List.range (es ++ [e]).length = List.range es.length ++ [es.length] := by
    simp [List.range_succ]
  have hfstable : ∀ i ∈ List.range es.length,
      (decide (chunkAt icsz (es ++ [e]) i = c)) = decide (chunkAt icsz es i = c) := by
    intro i hi
    rw [chunkAt_append_one icsz es e (le_of_lt (List.mem_range.mp hi))]
  have hfold : ∀ (l : List Nat), (∀ i ∈ l, i < es.length) →
      l.foldr (fun i acc => bloomBitOf sc (entAt (es ++ [e]) i).1 ||| acc) 0 =
      l.foldr (fun i acc => bloomBitOf sc (entAt es i).1 ||| acc) 0 := by
    intro l hl
    induction l with
    | nil => rfl
    | cons a l ih =>
      simp only [List.foldr_cons]
      rw [entAt_append_one_lt es e (hl a (List.mem_cons_self a l)),
        ih (fun i hi => hl i (List.mem_cons_of_mem a hi))]
  rw [canonBloom, canonBloom, hrange, List.filter_append]
  rw [List.filter_congr hfstable]
  by_cases hc : chunkAt icsz (es ++ [e]) es.length = c
  · rw [if_pos hc]
    have : List.filter (fun i => decide (chunkAt icsz (es ++ [e]) i = c)) [es.length]
        = [es.length] := by
      simp [hc]
    rw [this, List.foldr_append]
    simp only [List.foldr_cons, List.foldr_nil]
    rw [foldr_lor_init, hfold _ (fun i hi => List.mem_range.mp
      (List.mem_filter.mp hi).1), entAt_append_one_last]
    rw [Nat.or_zero]
  · rw [if_neg hc]
    have : List.filter (fun i => decide (chunkAt icsz (es ++ [e]) i = c)) [es.length]
        = [] := by
      simp [hc]
    rw [this, List.append_nil]
    exact hfold _ (fun i hi => List.mem_range.mp (List.mem_filter.mp hi).1)

theorem firstIdxFrom_intro {es : List (List Nat × List Nat)} {icsz c : Nat} :
    ∀ {m i : Nat}, m ≤ i → i < es.length → chunkAt icsz es i = c →
      (∀ x, m ≤ x → x < i → chunkAt icsz es x ≠ c) →
      firstIdxFrom es icsz c m = some i := by
  have key : ∀ n m i, i - m ≤ n → m ≤ i → i < es.length → chunkAt icsz es i = c →
      (∀ x, m ≤ x → x < i → chunkAt icsz es x ≠ c) →
      firstIdxFrom es icsz c m = some i := by
    intro n
    induction n with
    | zero =>
      intro m i hn hmi hi hc hmin
      have : m = i := by omega
      rw [firstIdxFrom, dif_pos (by omega), if_pos (by rw [this]; exact hc), this]
    | succ n ih =>
      intro m i hn hmi hi hc hmin
      by_cases heq : m = i
      · rw [firstIdxFrom, dif_pos (by omega), if_pos (by rw [heq]; exact hc), heq]
      · rw [firstIdxFrom, dif_pos (by omega),
          if_neg (hmin m (le_refl m) (by omega))]
        exact ih (m + 1) i (by omega) (by omega) hi hc
          (fun x hx1 hx2 => hmin x (by omega) hx2)
  intro m i hmi hi hc hmin
  exact key (i - m) m i (le_refl _) hmi hi hc hmin

theorem canonFeo_append_one_mat (icsz : Nat) (es : List (List Nat × List Nat))
    (e : List Nat × List Nat) (c : Nat) (h : matChunk icsz es c) :
    canonFeo (es ++ [e]) icsz c = canonFeo es icsz c := by
  match hf : firstIdxFrom es icsz c 0 with
  | none =>
    obtain ⟨i, hi, hc⟩ := h
    exact absurd hc (firstIdxFrom_none hf i (Nat.zero_le i) hi)
  | some i =>
    obtain ⟨_, hi, hc, hmin⟩ := firstIdxFrom_some hf
    have hf2 : firstIdxFrom (es ++ [e]) icsz c 0 = some i := by
      apply firstIdxFrom_intro (Nat.zero_le i)
        (by simp only [List.length_append, List.length_singleton]; omega)
        (by rw [chunkAt_append_one icsz es e (le_of_lt hi)]; exact hc)
      intro x hx1 hx2
      rw [chunkAt_append_one icsz es e (by omega)]
      exact hmin x hx1 hx2
    rw [canonFeo, canonFeo, hf, hf2]
    simp only [Option.elim]
    exact offAt_append_one es e (le_of_lt hi)

theorem canonFeo_append_one_fresh (icsz : Nat) (es : List (List Nat × List Nat))
    (e : List Nat × List Nat) (c : Nat) (hnm : ¬ matChunk icsz es c)
    (hc : chunkAt icsz (es ++ [e]) es.length = c) :
    canonFeo (es ++ [e]) icsz c = offAt es es.length := by
  have hf2 : firstIdxFrom (es ++ [e]) icsz c 0 = some es.length := by
    apply firstIdxFrom_intro (Nat.zero_le _) (by simp) hc
    intro x hx1 hx2
    rw [chunkAt_append_one icsz es e (by omega)]
    intro hcx
    exact hnm ⟨x, hx2, hcx⟩
  rw [canonFeo, hf2]
  simp only [Option.elim]
  exact offAt_append_one es e (le_refl _)

theorem esFor_append (cfg : HTConfig) (ops : List (List Nat × List Nat))
    (e : List Nat × List Nat) (s : Nat) :
    esFor cfg (ops ++ [e]) s =
      esFor cfg ops s ++
        (if sectionOf cfg.sectionCount e.1 = s then [e] else []) := by
  rw [esFor, esFor, List.filter_append]
  congr 1
  by_cases h : sectionOf cfg.sectionCount e.1 = s <;> simp [h]

theorem chunkAt_last (icsz : Nat) (es : List (List Nat × List Nat))
    (e : List Nat × List Nat) :
    chunkAt icsz (es ++ [e]) es.length = (secContent es).length / icsz := by
  rw [chunkAt, offAt_append_one es e (le_refl _), offAt_length]

/-- Appending an entry to a section leaves the canonical header of every
other (materialized) chunk unchanged. -/
theorem canonHdr_stable (cfg : HTConfig) (ops : List (List Nat × List Nat))
    (k v : List Nat) (ik2 : IndexKey)
    (hne : ik2 ≠ ⟨sectionOf cfg.sectionCount k,
      (secContent (esFor cfg ops (sectionOf cfg.sectionCount k))).length /
        cfg.indexChunkSize⟩)
    (hmat : matChunk cfg.indexChunkSize (esFor cfg ops ik2.section_index)
      ik2.index_chunk) :
    canonHdr cfg.sectionCount (esFor cfg (ops ++ [(k, v)]) ik2.section_index)
        cfg.indexChunkSize ik2.index_chunk =
      canonHdr cfg.sectionCount (esFor cfg ops ik2.section_index)
        cfg.indexChunkSize ik2.index_chunk := by
  rw [esFor_append]
  by_cases hs : sectionOf cfg.sectionCount k = ik2.section_index
  · rw [if_pos hs]
    have hcne : chunkAt cfg.indexChunkSize
        (esFor cfg ops ik2.section_index ++ [(k, v)])
        (esFor cfg ops ik2.section_index).length ≠ ik2.index_chunk := by
      rw [chunkAt_last]
      intro hcc
      exact hne (by
        obtain ⟨i2, c2⟩ := ik2
        simp only at hs hcc
        rw [hs, hcc])
    rw [canonHdr, canonHdr, canonBloom_append_one, if_neg hcne,
      canonFeo_append_one_mat _ _ _ _ hmat]
  · rw [if_neg hs, List.append_nil]

/-- Appending an entry to a section leaves every other chunk's
materialization unchanged. -/
theorem matChunk_stable (cfg : HTConfig) (ops : List (List Nat × List Nat))
    (k v : List Nat) (ik2 : IndexKey)
    (hne : ik2 ≠ ⟨sectionOf cfg.sectionCount k,
      (secContent (esFor cfg ops (sectionOf cfg.sectionCount k))).length /
        cfg.indexChunkSize⟩) :
    (matChunk cfg.indexChunkSize (esFor cfg (ops ++ [(k, v)]) ik2.section_index)
        ik2.index_chunk ↔
      matChunk cfg.indexChunkSize (esFor cfg ops ik2.section_index)
        ik2.index_chunk) := by
  rw [esFor_append]
  by_cases hs : sectionOf cfg.sectionCount k = ik2.section_index
  · rw [if_pos hs, matChunk_append_one]
    have hcne : chunkAt cfg.indexChunkSize
        (esFor cfg ops ik2.section_index ++ [(k, v)])
        (esFor cfg ops ik2.section_index).length ≠ ik2.index_chunk := by
      rw [chunkAt_last]
      intro hcc
      exact hne (by
        obtain ⟨i2, c2⟩ := ik2
        simp only at hs hcc
        rw [hs, hcc])
    simp [hcne]
  · rw [if_neg hs, List.append_nil]

instance matChunk_decidable (icsz : Nat) (es : List (List Nat × List Nat)) (c : Nat) :
    Decidable (matChunk icsz es c) :=
  decidable_of_iff (∃ i ∈ List.range es.length, chunkAt icsz es i = c)
    (by
      constructor
      · rintro ⟨i, hi, hc⟩
        exact ⟨i, List.mem_range.mp hi, hc⟩
      · rintro ⟨i, hi, hc⟩
        exact ⟨i, List.mem_range.mpr hi, hc⟩)

/-- The canonical header of the chunk receiving the new entry. -/
theorem canonHdr_target (cfg : HTConfig) (ops : List (List Nat × List Nat))
    (k v : List Nat) :
    canonHdr cfg.sectionCount
        (esFor cfg (ops ++ [(k, v)]) (sectionOf cfg.sectionCount k))
        cfg.indexChunkSize
        ((secContent (esFor cfg ops (sectionOf cfg.sectionCount k))).length /
          cfg.indexChunkSize) =
      ⟨canonBloom cfg.sectionCount (esFor cfg ops (sectionOf cfg.sectionCount k))
          cfg.indexChunkSize
          ((secContent (esFor cfg ops (sectionOf cfg.sectionCount k))).length /
            cfg.indexChunkSize) ||| bloomBitOf cfg.sectionCount k,
        if matChunk cfg.indexChunkSize (esFor cfg ops (sectionOf cfg.sectionCount k))
            ((secContent (esFor cfg ops (sectionOf cfg.sectionCount k))).length /
              cfg.indexChunkSize) then
          canonFeo (esFor cfg ops (sectionOf cfg.sectionCount k)) cfg.indexChunkSize
            ((secContent (esFor cfg ops (sectionOf cfg.sectionCount k))).length /
              cfg.indexChunkSize)
        else (secContent (esFor cfg ops (sectionOf cfg.sectionCount k))).length⟩ := by
  set s := sectionOf cfg.sectionCount k with hs
  set es := esFor cfg ops s with hes
  set c := (secContent es).length / cfg.indexChunkSize with hc
  have hesp : esFor cfg (ops ++ [(k, v)]) s = es ++ [(k, v)] := by
    rw [esFor_append, if_pos rfl]
  have hlast : chunkAt cfg.indexChunkSize (es ++ [(k, v)]) es.length = c :=
    chunkAt_last _ _ _
  rw [hesp, canonHdr, canonBloom_append_one, if_pos hlast]
  congr 1
  by_cases hm : matChunk cfg.indexChunkSize es c
  · rw [if_pos hm]
    exact canonFeo_append_one_mat _ _ _ _ hm
  · rw [if_neg hm]
    rw [canonFeo_append_one_fresh _ _ _ _ hm hlast, offAt_length]

theorem mem_unique_of_fst_nodup {α β : Type} [DecidableEq α]
    {m : List (α × β)} (hnd : (m.map Prod.fst).Nodup) {k : α} {a b : β}
    (ha : (k, a) ∈ m) (hb : (k, b) ∈ m) : a = b := by
  have h1 := mapLookup_eq_some_of_mem hnd ha
  have h2 := mapLookup_eq_some_of_mem hnd hb
  rw [h1] at h2
  exact Option.some_inj.mp h2

theorem getElem?_concat_self {α : Type} (l : List α) (a : α) :
    (l ++ [a])[l.length]? = some a := by
  rw [List.getElem?_append_right (le_refl _)]
  simp

/-- `update_index_bloom_filter` as called by `insert` preserves the canonical
index layout, now for the extended operation sequence. -/
theorem idxInv_update (cfg : HTConfig) (ops : List (List Nat × List Nat))
    (reg : IndexRegState) (k v : List Nat) (hidx : IdxInv cfg ops reg) :
    ∃ reg2, updateIndexBloomFilter reg
        ⟨sectionOf cfg.sectionCount k,
          (secContent (esFor cfg ops (sectionOf cfg.sectionCount k))).length /
            cfg.indexChunkSize⟩
        (secContent (esFor cfg ops (sectionOf cfg.sectionCount k))).length
        (bloomBitOf cfg.sectionCount k) = .ok reg2 ∧
      IdxInv cfg (ops ++ [(k, v)]) reg2 := by
  obtain ⟨hnd, hclause2, hiff⟩ := hidx
  set s := sectionOf cfg.sectionCount k with hsdef
  set es := esFor cfg ops s with hesdef
  set E := (secContent es).length with hEdef
  set c := E / cfg.indexChunkSize with hcdef
  set ik : IndexKey := ⟨s, c⟩ with hikdef
  set bit := bloomBitOf cfg.sectionCount k with hbitdef
  have hmat2 : matChunk cfg.indexChunkSize (esFor cfg (ops ++ [(k, v)]) s) c := by
    rw [esFor_append, if_pos rfl, matChunk_append_one]
    exact Or.inr (chunkAt_last _ _ _)
  match hl : mapLookup reg.map ik with
  | none =>
    have hnomem := mapLookup_eq_none_iff.mp hl
    have hnomat : ¬ matChunk cfg.indexChunkSize es c := by
      intro hm
      obtain ⟨ci, hci⟩ := (hiff ik).mpr hm
      exact hnomem ci hci
    refine ⟨⟨reg.cache ++ [(ik, ⟨bit, E⟩)], mapInsert reg.map ik reg.cache.length,
      setInsert reg.hot reg.cache.length,
      reg.wal ++ [IndexEvent.updated reg.cache.length ik ⟨bit, E⟩]⟩, ?_, ?_, ?_, ?_⟩
    · simp [updateIndexBloomFilter, hl, IndexRegState.apply]
    · exact mapInsert_fst_nodup ik reg.cache.length hnd
    · intro ik2 ci2 hmem2
      rcases (mem_mapInsert reg.map ik reg.cache.length (ik2, ci2)).mp hmem2 with
        ⟨hold, hneq⟩ | heq
      · simp only at hneq
        have holdc := hclause2 ik2 ci2 hold
        have hci2 : ci2 < reg.cache.length := (List.getElem?_eq_some.mp holdc).1
        rw [List.getElem?_append_left hci2, holdc]
        rw [canonHdr_stable cfg ops k v ik2 hneq ((hiff ik2).mp ⟨ci2, hold⟩)]
      · have hik2 : ik2 = ik := congrArg Prod.fst heq
        have hci2 : ci2 = reg.cache.length := congrArg Prod.snd heq
        rw [hik2, hci2, getElem?_concat_self]
        rw [hikdef]
        simp only []
        rw [canonHdr_target cfg ops k v, if_neg hnomat,
          canonBloom_not_mat _ _ _ _ hnomat]
        rw [Nat.zero_or]
    · intro ik2
      by_cases hik2 : ik2 = ik
      · subst hik2
        constructor
        · intro _
          exact hmat2
        · intro _
          exact ⟨reg.cache.length,
            (mem_mapInsert reg.map ik reg.cache.length (ik, reg.cache.length)).mpr
              (Or.inr rfl)⟩
      · have hmem_iff : (∃ ci2, (ik2, ci2) ∈ mapInsert reg.map ik reg.cache.length) ↔
            ∃ ci2, (ik2, ci2) ∈ reg.map := by
          constructor
          · rintro ⟨ci2, hci2⟩
            rcases (mem_mapInsert _ _ _ _).mp hci2 with ⟨hold, _⟩ | heq
            · exact ⟨ci2, hold⟩
            · exact absurd (congrArg Prod.fst heq) hik2
          · rintro ⟨ci2, hci2⟩
            exact ⟨ci2, (mem_mapInsert _ _ _ _).mpr (Or.inl ⟨hci2, hik2⟩)⟩
        rw [hmem_iff, hiff ik2, matChunk_stable cfg ops k v ik2 hik2]
  | some ci =>
    have hmem := mapLookup_mem hl
    have holdc := hclause2 ik ci hmem
    have hci : ci < reg.cache.length := (List.getElem?_eq_some.mp holdc).1
    have hmat : matChunk cfg.indexChunkSize es c := (hiff ik).mp ⟨ci, hmem⟩
    have htarget : canonHdr cfg.sectionCount (esFor cfg (ops ++ [(k, v)]) s)
        cfg.indexChunkSize c =
        ⟨canonBloom cfg.sectionCount es cfg.indexChunkSize c ||| bit,
          canonFeo es cfg.indexChunkSize c⟩ := by
      rw [canonHdr_target cfg ops k v, if_pos hmat]
    by_cases hb : canonBloom cfg.sectionCount es cfg.indexChunkSize c ||| bit =
        canonBloom cfg.sectionCount es cfg.indexChunkSize c
    · refine ⟨reg, ?_, hnd, ?_, ?_⟩
      · simp only [updateIndexBloomFilter, hl, holdc]
        rw [if_pos (by rw [canonHdr] at *; exact hb)]
      · intro ik2 ci2 hmem2
        have holdc2 := hclause2 ik2 ci2 hmem2
        by_cases hik2 : ik2 = ik
        · subst hik2
          have : ci2 = ci := mem_unique_of_fst_nodup hnd hmem2 hmem
          subst this
          rw [holdc2, htarget, hb]
          rw [canonHdr]
        · rw [holdc2,
            canonHdr_stable cfg ops k v ik2 hik2 ((hiff ik2).mp ⟨ci2, hmem2⟩)]
      · intro ik2
        by_cases hik2 : ik2 = ik
        · subst hik2
          constructor
          · intro _
            exact hmat2
          · intro _
            exact ⟨ci, hmem⟩
        · rw [hiff ik2, matChunk_stable cfg ops k v ik2 hik2]
    · refine ⟨⟨reg.cache.set ci (ik,
          ⟨canonBloom cfg.sectionCount es cfg.indexChunkSize c ||| bit,
            canonFeo es cfg.indexChunkSize c⟩),
        mapInsert reg.map ik ci, setInsert reg.hot ci,
        reg.wal ++ [IndexEvent.updated ci ik
          ⟨canonBloom cfg.sectionCount es cfg.indexChunkSize c ||| bit,
            canonFeo es cfg.indexChunkSize c⟩]⟩, ?_, ?_, ?_, ?_⟩
      · simp only [updateIndexBloomFilter, hl, holdc]
        rw [if_neg (by rw [canonHdr] at *; exact hb)]
        simp only [IndexRegState.apply, if_neg (by omega : ¬ reg.cache.length < ci),
          if_neg (by omega : ¬ reg.cache.length = ci)]
        rw [canonHdr]
      · exact mapInsert_fst_nodup ik ci hnd
      · intro ik2 ci2 hmem2
        rcases (mem_mapInsert reg.map ik ci (ik2, ci2)).mp hmem2 with
          ⟨hold, hneq⟩ | heq
        · simp only at hneq
          have holdc2 := hclause2 ik2 ci2 hold
          have hcine : ci2 ≠ ci := by
            intro hcc
            rw [hcc, holdc] at holdc2
            exact hneq (congrArg Prod.fst (Option.some_inj.mp holdc2)).symm
          rw [List.getElem?_set_ne (Ne.symm hcine), holdc2,
            canonHdr_stable cfg ops k v ik2 hneq ((hiff ik2).mp ⟨ci2, hold⟩)]
        · have hik2 : ik2 = ik := congrArg Prod.fst heq
          have hci2 : ci2 = ci := congrArg Prod.snd heq
          rw [hik2, hci2, List.getElem?_set_eq_of_lt _ hci, hikdef]
          simp only []
          rw [htarget]
      · intro ik2
        by_cases hik2 : ik2 = ik
        · subst hik2
          constructor
          · intro _
            exact hmat2
          · intro _
            exact ⟨ci, (mem_mapInsert reg.map ik ci (ik, ci)).mpr (Or.inr rfl)⟩
        · have hmem_iff : (∃ ci2, (ik2, ci2) ∈ mapInsert reg.map ik ci) ↔
              ∃ ci2, (ik2, ci2) ∈ reg.map := by
            constructor
            · rintro ⟨ci2, hci2⟩
              rcases (mem_mapInsert _ _ _ _).mp hci2 with ⟨hold, _⟩ | heq
              · exact ⟨ci2, hold⟩
              · exact absurd (congrArg Prod.fst heq) hik2
            · rintro ⟨ci2, hci2⟩
              exact ⟨ci2, (mem_mapInsert _ _ _ _).mpr (Or.inl ⟨hci2, hik2⟩)⟩
          rw [hmem_iff, hiff ik2, matChunk_stable cfg ops k v ik2 hik2]

theorem getD_set_self {α : Type} (l : List α) (i : Nat) (a d : α)
    (h : i < l.length) : (l.set i a).getD i d = a := by
  simp [List.getD, List.get?_eq_getElem?, List.getElem?_set_eq_of_lt a h]

theorem getD_set_ne {α : Type} (l : List α) {i j : Nat} (a d : α)
    (h : i ≠ j) : (l.set i a).getD j d = l.getD j d := by
  simp [List.getD, List.get?_eq_getElem?, List.getElem?_set_ne h]

theorem secContent_one (e : List Nat × List Nat) :
    secContent [e] = encodeEntry e.1 e.2 := by
  simp [secContent]

/-- One successful insert preserves the reachable-state layout. -/
theorem htInsert_inv (cfg : HTConfig) (ops : List (List Nat × List Nat))
    (st : HTState) (k v : List Nat) (hsc : 0 < cfg.sectionCount)
    (hinv : Inv cfg ops st) :
    ∃ st2, htInsert cfg st k v = .ok st2 ∧ Inv cfg (ops ++ [(k, v)]) st2 := by
  obtain ⟨hlen1, hlen2, h3, hidx⟩ := hinv
  have hslt : sectionOf cfg.sectionCount k < cfg.sectionCount := Nat.mod_lt _ hsc
  obtain ⟨hsecc, hsecr⟩ := h3 (sectionOf cfg.sectionCount k) hslt
  obtain ⟨reg2, hupd, hidx2⟩ := idxInv_update cfg ops st.idxReg k v hidx
  set s := sectionOf cfg.sectionCount k with hsdef
  set es := esFor cfg ops s with hesdef
  set E := (secContent es).length with hEdef
  have hwrite : writeAt (st.sections.getD s []) E (encodeEntry k v) =
      secContent es ++ encodeEntry k v := by
    rw [hsecc]
    have : E = (secContent es).length := hEdef
    rw [← writeAt_eq_append (secContent es) (encodeEntry k v)]
  have hesp : esFor cfg (ops ++ [(k, v)]) s = es ++ [(k, v)] := by
    rw [esFor_append, if_pos rfl]
  refine ⟨⟨st.sections.set s (writeAt (st.sections.getD s []) E (encodeEntry k v)),
    ⟨st.secReg.cache.set s ⟨E + (8 + k.length + v.length)⟩,
      setInsert st.secReg.hot s,
      st.secReg.wal ++ [SectionEvent.updated s ⟨E + (8 + k.length + v.length)⟩]⟩,
    reg2⟩, ?_, ?_, ?_, ?_, ?_⟩
  · rw [hsdef] at hsecr hupd
    simp only [sectionOf, bloomBitOf, bloomIndexOf] at hsecr hupd
    simp only [htInsert, resolveSection, hsecr, bind, Except.bind,
      updateSectionEndOffset, encodeEntry_length]
    rw [if_neg (by omega : ¬ E + (8 + k.length + v.length) ≤ E)]
    have hslt2 : ¬ st.secReg.cache.length ≤ hashKey k % cfg.sectionCount := by
      rw [hlen2]
      have := Nat.mod_lt (hashKey k) hsc
      omega
    simp only [SectionRegState.apply, if_neg hslt2, hupd]
    rfl
  · rw [List.length_set]
    exact hlen1
  · rw [List.length_set]
    exact hlen2
  · intro s2 hs2
    by_cases heq : s2 = s
    · subst heq
      constructor
      · rw [getD_set_self _ _ _ _ (by omega), hwrite, hesp, secContent_append,
          secContent_one]
      · rw [List.getElem?_set_eq_of_lt _ (by omega), hesp, secContent_append,
          secContent_one, List.length_append, encodeEntry_length]
    · obtain ⟨ha, hb⟩ := h3 s2 hs2
      have hesp2 : esFor cfg (ops ++ [(k, v)]) s2 = esFor cfg ops s2 := by
        rw [esFor_append, if_neg (by rw [← hsdef]; exact fun hh => heq hh.symm),
          List.append_nil]
      constructor
      · rw [getD_set_ne _ _ _ (fun hh => heq hh.symm), ha, hesp2]
      · rw [List.getElem?_set_ne (fun hh => heq hh.symm), hb, hesp2]
  · exact hidx2

theorem tryResolveIdx_canon (cfg : HTConfig) (ops : List (List Nat × List Nat))
    (reg : IndexRegState) (hidx : IdxInv cfg ops reg) (ik : IndexKey) :
    tryResolveIdx reg ik =
      if matChunk cfg.indexChunkSize (esFor cfg ops ik.section_index)
          ik.index_chunk then
        some (canonHdr cfg.sectionCount (esFor cfg ops ik.section_index)
          cfg.indexChunkSize ik.index_chunk)
      else none := by
  obtain ⟨hnd, hclause2, hiff⟩ := hidx
  match hl : mapLookup reg.map ik with
  | some ci =>
    have hmem := mapLookup_mem hl
    have holdc := hclause2 ik ci hmem
    rw [if_pos ((hiff ik).mp ⟨ci, hmem⟩)]
    simp [tryResolveIdx, hl, holdc]
  | none =>
    have hnomat : ¬ matChunk cfg.indexChunkSize (esFor cfg ops ik.section_index)
        ik.index_chunk := by
      intro hm
      obtain ⟨ci, hci⟩ := (hiff ik).mpr hm
      exact mapLookup_eq_none_iff.mp hl ci hci
    rw [if_neg hnomat]
    simp [tryResolveIdx, hl]

theorem tryResolveNextIdx_canon (cfg : HTConfig) (ops : List (List Nat × List Nat))
    (reg : IndexRegState) (hidx : IdxInv cfg ops reg) (s c : Nat) :
    (tryResolveNextIdx reg ⟨s, c⟩ = none →
      ∀ c2, c < c2 → ¬ matChunk cfg.indexChunkSize (esFor cfg ops s) c2) ∧
    (∀ nih, tryResolveNextIdx reg ⟨s, c⟩ = some nih →
      ∃ c2, c < c2 ∧ matChunk cfg.indexChunkSize (esFor cfg ops s) c2 ∧
        nih = canonHdr cfg.sectionCount (esFor cfg ops s) cfg.indexChunkSize c2 ∧
        ∀ c3, c < c3 → matChunk cfg.indexChunkSize (esFor cfg ops s) c3 →
          c2 ≤ c3) := by
  obtain ⟨hnd, hclause2, hiff⟩ := hidx
  constructor
  · intro hnone c2 hgt hm
    obtain ⟨ci, hci⟩ := (hiff ⟨s, c2⟩).mpr hm
    have hcand : (⟨s, c2⟩, ci) ∈ reg.map.filter (fun p =>
        decide (p.1.section_index = (⟨s, c⟩ : IndexKey).section_index ∧
          (⟨s, c⟩ : IndexKey).index_chunk < p.1.index_chunk)) :=
      List.mem_filter.mpr ⟨hci, decide_eq_true ⟨rfl, hgt⟩⟩
    rw [tryResolveNextIdx] at hnone
    match hmin : minChunkEntry (reg.map.filter (fun p =>
        decide (p.1.section_index = (⟨s, c⟩ : IndexKey).section_index ∧
          (⟨s, c⟩ : IndexKey).index_chunk < p.1.index_chunk))) with
    | none =>
      rw [minChunkEntry_eq_none.mp hmin] at hcand
      exact List.not_mem_nil _ hcand
    | some p =>
      simp only [hmin] at hnone
      obtain ⟨hpmem, _⟩ := minChunkEntry_min hmin
      have hp := List.mem_filter.mp hpmem
      have holdc := hclause2 p.1 p.2 hp.1
      rw [holdc] at hnone
      exact Option.noConfusion hnone
  · intro nih hsome
    rw [tryResolveNextIdx] at hsome
    match hmin : minChunkEntry (reg.map.filter (fun p =>
        decide (p.1.section_index = (⟨s, c⟩ : IndexKey).section_index ∧
          (⟨s, c⟩ : IndexKey).index_chunk < p.1.index_chunk))) with
    | none =>
      simp only [hmin] at hsome
      exact Option.noConfusion hsome
    | some p =>
      simp only [hmin] at hsome
      obtain ⟨hpmem, hpmin⟩ := minChunkEntry_min hmin
      have hp := List.mem_filter.mp hpmem
      have hpcond := of_decide_eq_true hp.2
      have holdc := hclause2 p.1 p.2 hp.1
      rw [holdc] at hsome
      simp only [Option.map_some', Option.some_inj] at hsome
      have hmatp : matChunk cfg.indexChunkSize (esFor cfg ops s) p.1.index_chunk := by
        have h0 := (hiff p.1).mp ⟨p.2, hp.1⟩
        have hps : p.1.section_index = s := hpcond.1
        rw [hps] at h0
        exact h0
      refine ⟨p.1.index_chunk, hpcond.2, hmatp, ?_, ?_⟩
      · rw [← hsome]
        have : p.1.section_index = s := hpcond.1
        rw [this]
      · intro c3 hgt3 hm3
        obtain ⟨ci3, hci3⟩ := (hiff ⟨s, c3⟩).mpr hm3
        exact hpmin (⟨s, c3⟩, ci3) (List.mem_filter.mpr ⟨hci3,
          decide_eq_true ⟨rfl, hgt3⟩⟩)

theorem entAt_eq_getElem {es : List (List Nat × List Nat)} {j : Nat}
    (h : j < es.length) : entAt es j = es[j] := by
  simp [entAt, List.getD, List.get?_eq_getElem?, List.getElem?_eq_getElem h]

theorem entAt_mem {es : List (List Nat × List Nat)} {i : Nat}
    (h : i < es.length) : entAt es i ∈ es := by
  rw [entAt_eq_getElem h]
  exact List.getElem_mem h

theorem drop_cons_entAt {es : List (List Nat × List Nat)} {i : Nat}
    (h : i < es.length) : es.drop i = entAt es i :: es.drop (i + 1) := by
  rw [entAt_eq_getElem h]
  exact List.drop_eq_getElem_cons h

theorem mem_drop_entAt {es : List (List Nat × List Nat)} {i : Nat}
    {e : List Nat × List Nat} (h : e ∈ es.drop i) :
    ∃ j, i ≤ j ∧ j < es.length ∧ entAt es j = e := by
  obtain ⟨x, hx⟩ := List.mem_iff_getElem?.mp h
  rw [List.getElem?_drop] at hx
  have hlt : i + x < es.length := (List.getElem?_eq_some.mp hx).1
  refine ⟨i + x, by omega, hlt, ?_⟩
  simp [entAt, List.getD, List.get?_eq_getElem?, hx]

theorem mem_seg_entAt {es : List (List Nat × List Nat)} {i j : Nat}
    {e : List Nat × List Nat} (h : e ∈ (es.drop i).take (j - i)) :
    ∃ m, i ≤ m ∧ m < j ∧ m < es.length ∧ entAt es m = e := by
  obtain ⟨x, hx⟩ := List.mem_iff_getElem?.mp h
  have hxlt : x < j - i := by
    have h1 := (List.getElem?_eq_some.mp hx).1
    simp only [List.length_take, List.length_drop] at h1
    omega
  rw [List.getElem?_take_of_lt hxlt, List.getElem?_drop] at hx
  have hlt : i + x < es.length := (List.getElem?_eq_some.mp hx).1
  exact ⟨i + x, by omega, by omega, hlt,
    by simp [entAt, List.getD, List.get?_eq_getElem?, hx]⟩

theorem decode_len {n : Nat} (h : n < 2 ^ 32) : fromLE (toLE 4 n) = n := by
  rw [fromLE_toLE]
  have h2 : (256 : Nat) ^ 4 = 2 ^ 32 := by norm_num
  rw [h2]
  exact Nat.mod_eq_of_lt h

theorem parse_pair (es : List (List Nat × List Nat)) (j : Nat) (hj : j < es.length) :
    (readBytes (secContent es) (offAt es j + 8) (entAt es j).1.length,
      readBytes (secContent es) (offAt es j + 8 + (entAt es j).1.length)
        (entAt es j).2.length) = entAt es j := by
  obtain ⟨_, _, h3, h4⟩ := parse_entry es j hj
  rw [h3, h4]

theorem parse_sizes (es : List (List Nat × List Nat)) (j : Nat) (hj : j < es.length)
    (hk32 : (entAt es j).1.length < 2 ^ 32) (hv32 : (entAt es j).2.length < 2 ^ 32) :
    fromLE (readBytes (secContent es) (offAt es j) 4) = (entAt es j).1.length ∧
    fromLE (readBytes (secContent es) (offAt es j + 4) 4) = (entAt es j).2.length := by
  obtain ⟨h1, h2, _, _⟩ := parse_entry es j hj
  exact ⟨by rw [h1, decode_len hk32], by rw [h2, decode_len hv32]⟩

theorem tryResolveIdx_canon2 (cfg : HTConfig) (ops : List (List Nat × List Nat))
    (reg : IndexRegState) (hidx : IdxInv cfg ops reg) (s2 c2 : Nat) :
    tryResolveIdx reg ⟨s2, c2⟩ =
      if matChunk cfg.indexChunkSize (esFor cfg ops s2) c2 then
        some (canonHdr cfg.sectionCount (esFor cfg ops s2) cfg.indexChunkSize c2)
      else none :=
  tryResolveIdx_canon cfg ops reg hidx ⟨s2, c2⟩

theorem sectionNext_plain (icsz : Nat) (reg : IndexRegState) (content : List Nat)
    (sIdx sEnd pos : Nat) :
    sectionNext icsz reg content sIdx sEnd none pos =
      if sEnd < pos then .error "Section stream position exceeded section end"
      else if pos = sEnd then .ok none
      else .ok (some ⟨pos, fromLE (readBytes content pos 4),
        fromLE (readBytes content (pos + 4) 4)⟩) := rfl

theorem sectionNext_resolved_hit (icsz : Nat) (reg : IndexRegState)
    (content : List Nat) (sIdx sEnd q pos : Nat) (ih2 : IndexHeader)
    (hres : tryResolveIdx reg ⟨sIdx, pos / icsz⟩ = some ih2)
    (hb : ¬ ih2.bloom_filter &&& q = 0) :
    sectionNext icsz reg content sIdx sEnd (some q) pos =
      sectionNext icsz reg content sIdx sEnd none pos := by
  simp only [sectionNext, hres]
  rw [if_neg hb]

theorem sectionNext_resolved_miss (icsz : Nat) (reg : IndexRegState)
    (content : List Nat) (sIdx sEnd q pos : Nat) (ih2 : IndexHeader)
    (hres : tryResolveIdx reg ⟨sIdx, pos / icsz⟩ = some ih2)
    (hb : ih2.bloom_filter &&& q = 0) :
    sectionNext icsz reg content sIdx sEnd (some q) pos =
      sectionNext icsz reg content sIdx sEnd none
        ((tryResolveNextIdx reg ⟨sIdx, pos / icsz⟩).elim sEnd
          IndexHeader.first_entry_offset) := by
  simp only [sectionNext, hres]
  rw [if_pos hb]
  match hnn : tryResolveNextIdx reg ⟨sIdx, pos / icsz⟩ with
  | some nih => simp [Option.elim]
  | none => simp [Option.elim]

/-- Driving the section scanner from the start of entry `i` with the key's
bloom bit yields, after the key filter, exactly the remaining entries whose
key equals `k`, in order. -/
theorem sectionScan_filter (cfg : HTConfig) (ops : List (List Nat × List Nat))
    (reg : IndexRegState) (k : List Nat) (hidx : IdxInv cfg ops reg)
    (hlens : ∀ e ∈ esFor cfg ops (sectionOf cfg.sectionCount k),
      e.1.length < 2 ^ 32 ∧ e.2.length < 2 ^ 32) :
    ∀ fuel i, i ≤ (esFor cfg ops (sectionOf cfg.sectionCount k)).length →
      (esFor cfg ops (sectionOf cfg.sectionCount k)).length - i < fuel →
      ∃ r, sectionScan cfg.indexChunkSize reg
          (secContent (esFor cfg ops (sectionOf cfg.sectionCount k)))
          (sectionOf cfg.sectionCount k)
          (secContent (esFor cfg ops (sectionOf cfg.sectionCount k))).length
          (some (bloomBitOf cfg.sectionCount k)) fuel
          (offAt (esFor cfg ops (sectionOf cfg.sectionCount k)) i) = .ok r ∧
        r.filter (fun e => decide (e.1 = k)) =
          ((esFor cfg ops (sectionOf cfg.sectionCount k)).drop i).filter
            (fun e => decide (e.1 = k)) := by
  intro fuel
  induction fuel with
  | zero =>
    intro i hi hf
    omega
  | succ fuel ih =>
    intro i hi hf
    set s := sectionOf cfg.sectionCount k with hs
    set es := esFor cfg ops s with hes
    set q := bloomBitOf cfg.sectionCount k with hq
    set icsz := cfg.indexChunkSize with hicsz
    by_cases hil : i < es.length
    · -- there is an entry at position offAt es i
      have hposlt : offAt es i < (secContent es).length := by
        rw [← offAt_length es]
        exact offAt_strict es hil hil
      have hcanon := tryResolveIdx_canon2 cfg ops reg hidx s (offAt es i / icsz)
      have hmatc : matChunk icsz es (offAt es i / icsz) := ⟨i, hil, rfl⟩
      rw [← hes, ← hicsz] at hcanon
      rw [if_pos hmatc] at hcanon
      by_cases hb : canonBloom cfg.sectionCount es icsz (offAt es i / icsz) &&& q = 0
      · -- bloom miss: the chunk contains no entry with key k
        have hnokey := bloom_skip_no_key cfg.sectionCount icsz es
          (offAt es i / icsz) k (by rw [← hq]; exact hb)
        match hn : tryResolveNextIdx reg ⟨s, offAt es i / icsz⟩ with
        | none =>
          have hall := (tryResolveNextIdx_canon cfg ops reg hidx s
            (offAt es i / icsz)).1 hn
          rw [← hes, ← hicsz] at hall
          have hchunkeq : ∀ m, i ≤ m → m < es.length →
              chunkAt icsz es m = offAt es i / icsz := by
            intro m h1 h2
            have hge : chunkAt icsz es i ≤ chunkAt icsz es m := chunkAt_mono icsz es h1
            have hx : chunkAt icsz es i = offAt es i / icsz := rfl
            rcases Nat.lt_or_ge (offAt es i / icsz) (chunkAt icsz es m) with hgt | hle
            · exact absurd ⟨m, h2, rfl⟩ (hall _ hgt)
            · omega
          have hstep : sectionNext icsz reg (secContent es) s
              (secContent es).length (some q) (offAt es i) = .ok none := by
            rw [sectionNext_resolved_miss icsz reg (secContent es) s
              (secContent es).length q (offAt es i) _ hcanon
              (by simpa [canonHdr] using hb)]
            rw [hn]
            simp only [Option.elim]
            rw [sectionNext_plain, if_neg (lt_irrefl _), if_pos rfl]
          refine ⟨[], by simp [sectionScan, hstep], ?_⟩
          rw [List.filter_nil]
          symm
          rw [List.filter_eq_nil_iff]
          intro e he
          obtain ⟨j2, hj1, hj2, hj3⟩ := mem_drop_entAt he
          have hne := hnokey j2 hj2 (hchunkeq j2 hj1 hj2)
          rw [hj3] at hne
          simp [hne]
        | some nih =>
          obtain ⟨c2, hgt, hmat2, hnihdef, hminc⟩ :=
            (tryResolveNextIdx_canon cfg ops reg hidx s (offAt es i / icsz)).2 nih hn
          rw [← hes, ← hicsz] at hmat2 hnihdef hminc
          obtain ⟨m0, hm0, hcm0⟩ := hmat2
          have hex : ∃ x, x < es.length ∧ offAt es i / icsz < chunkAt icsz es x :=
            ⟨m0, hm0, by rw [hcm0]; exact hgt⟩
          obtain ⟨hjlen, hjgt⟩ := Nat.find_spec hex
          set j := Nat.find hex with hj
          have hij : i < j := by
            by_contra hle
            have h1 : chunkAt icsz es j ≤ chunkAt icsz es i := chunkAt_mono _ es (by omega)
            have hx : chunkAt icsz es i = offAt es i / icsz := rfl
            omega
          have hseg : ∀ x, x < j → x < es.length →
              chunkAt icsz es x ≤ offAt es i / icsz := by
            intro x hx1 hx2
            have hnm := Nat.find_min hex hx1
            rcases Nat.lt_or_ge (offAt es i / icsz) (chunkAt icsz es x) with hgt2 | hle2
            · exact absurd ⟨hx2, hgt2⟩ hnm
            · exact hle2
          have hcj : chunkAt icsz es j = c2 := by
            have le1 : c2 ≤ chunkAt icsz es j := hminc _ hjgt ⟨j, hjlen, rfl⟩
            have le2 : j ≤ m0 := Nat.find_min' hex ⟨hm0, by rw [hcm0]; exact hgt⟩
            have le3 : chunkAt icsz es j ≤ chunkAt icsz es m0 := chunkAt_mono _ es le2
            omega
          have hfeo : nih.first_entry_offset = offAt es j := by
            rw [hnihdef]
            show canonFeo es icsz c2 = offAt es j
            rw [canonFeo, firstIdxFrom_intro (Nat.zero_le j) hjlen hcj ?minp]
            case minp =>
              intro x hx1 hx2
              have hxle : chunkAt icsz es x ≤ offAt es i / icsz :=
                hseg x hx2 (by omega)
              omega
            rfl
          have hjstrict : offAt es j < (secContent es).length := by
            rw [← offAt_length es]
            exact offAt_strict es hjlen hjlen
          obtain ⟨hk32j, hv32j⟩ := hlens (entAt es j) (entAt_mem hjlen)
          obtain ⟨d1, d2⟩ := parse_sizes es j hjlen hk32j hv32j
          have hstep : sectionNext icsz reg (secContent es) s
              (secContent es).length (some q) (offAt es i) =
              .ok (some ⟨offAt es j, (entAt es j).1.length, (entAt es j).2.length⟩) := by
            rw [sectionNext_resolved_miss icsz reg (secContent es) s
              (secContent es).length q (offAt es i) _ hcanon
              (by simpa [canonHdr] using hb)]
            rw [hn]
            simp only [Option.elim]
            rw [hfeo, sectionNext_plain,
              if_neg (Nat.not_lt.mpr (Nat.le_of_lt hjstrict)),
              if_neg (Nat.ne_of_lt hjstrict), d1, d2]
          obtain ⟨r2, hr2, hf2⟩ := ih (j + 1) (by omega) (by omega)
          have hnp : (⟨offAt es j, (entAt es j).1.length,
              (entAt es j).2.length⟩ : ScanItem).nextPos = offAt es (j + 1) := by
            rw [ScanItem.nextPos, offAt_succ es j hjlen, encLen]
            simp only []
            omega
          refine ⟨entAt es j :: r2, ?_, ?_⟩
          · simp only [sectionScan, hstep]
            rw [hnp, hr2]
            simp only []
            rw [parse_pair es j hjlen]
          · have hdropsplit : es.drop i = (es.drop i).take (j - i) ++ es.drop j := by
              conv_lhs => rw [← List.take_append_drop (j - i) (es.drop i)]
              rw [List.drop_drop]
              congr 2
              omega
            have hsegnil : ((es.drop i).take (j - i)).filter
                (fun e => decide (e.1 = k)) = [] := by
              rw [List.filter_eq_nil_iff]
              intro e he
              obtain ⟨m, hm1, hm2, hm3, hm4⟩ := mem_seg_entAt he
              have hci : chunkAt icsz es m = offAt es i / icsz := by
                have h1 := hseg m hm2 hm3
                have h2 : chunkAt icsz es i ≤ chunkAt icsz es m := chunkAt_mono _ es hm1
                have hx : chunkAt icsz es i = offAt es i / icsz := rfl
                omega
              have hne := hnokey m hm3 hci
              rw [hm4] at hne
              simp [hne]
            rw [hdropsplit, List.filter_append, hsegnil, List.nil_append,
              drop_cons_entAt hjlen]
            simp only [List.filter_cons, hf2]
      · -- bloom hit: the scanner emits entry i
        obtain ⟨hk32i, hv32i⟩ := hlens (entAt es i) (entAt_mem hil)
        obtain ⟨d1, d2⟩ := parse_sizes es i hil hk32i hv32i
        have hstep : sectionNext icsz reg (secContent es) s
            (secContent es).length (some q) (offAt es i) =
            .ok (some ⟨offAt es i, (entAt es i).1.length, (entAt es i).2.length⟩) := by
          rw [sectionNext_resolved_hit icsz reg (secContent es) s
            (secContent es).length q (offAt es i) _ hcanon
            (by simpa [canonHdr] using hb)]
          rw [sectionNext_plain, if_neg (Nat.not_lt.mpr (Nat.le_of_lt hposlt)),
            if_neg (Nat.ne_of_lt hposlt), d1, d2]
        obtain ⟨r2, hr2, hf2⟩ := ih (i + 1) (by omega) (by omega)
        have hnp : (⟨offAt es i, (entAt es i).1.length,
            (entAt es i).2.length⟩ : ScanItem).nextPos = offAt es (i + 1) := by
          rw [ScanItem.nextPos, offAt_succ es i hil, encLen]
          simp only []
          omega
        refine ⟨entAt es i :: r2, ?_, ?_⟩
        · simp only [sectionScan, hstep]
          rw [hnp, hr2]
          simp only []
          rw [parse_pair es i hil]
        · rw [drop_cons_entAt hil]
          simp only [List.filter_cons, hf2]
    · -- i = es.length: the scanner terminates with no further entries
      have hieq : i = es.length := by omega
      subst hieq
      have hpos : offAt es es.length = (secContent es).length := offAt_length es
      have hstep : sectionNext icsz reg (secContent es) s
          (secContent es).length (some q) (offAt es es.length) = .ok none := by
        have hcanon := tryResolveIdx_canon2 cfg ops reg hidx s
          (offAt es es.length / icsz)
        rw [← hes, ← hicsz] at hcanon
        by_cases hm : matChunk icsz es (offAt es es.length / icsz)
        · rw [if_pos hm] at hcanon
          by_cases hb : canonBloom cfg.sectionCount es icsz
              (offAt es es.length / icsz) &&& q = 0
          · match hn : tryResolveNextIdx reg ⟨s, offAt es es.length / icsz⟩ with
            | some nih =>
              obtain ⟨c2, hgt, hmat2, _, _⟩ :=
                (tryResolveNextIdx_canon cfg ops reg hidx s
                  (offAt es es.length / icsz)).2 nih hn
              rw [← hes, ← hicsz] at hmat2
              obtain ⟨m0, hm0, hcm0⟩ := hmat2
              have hle : chunkAt icsz es m0 ≤ chunkAt icsz es es.length :=
                chunkAt_mono _ es (by omega)
              have hx : chunkAt icsz es es.length = offAt es es.length / icsz := rfl
              omega
            | none =>
              rw [sectionNext_resolved_miss icsz reg (secContent es) s
                (secContent es).length q (offAt es es.length) _ hcanon
                (by simpa [canonHdr] using hb)]
              rw [hn]
              simp only [Option.elim]
              rw [sectionNext_plain, if_neg (lt_irrefl _), if_pos rfl]
          · rw [sectionNext_resolved_hit icsz reg (secContent es) s
              (secContent es).length q (offAt es es.length) _ hcanon
              (by simpa [canonHdr] using hb)]
            rw [hpos, sectionNext_plain, if_neg (lt_irrefl _), if_pos rfl]
        · rw [if_neg hm] at hcanon
          simp [sectionNext, hcanon]
      refine ⟨[], by simp [sectionScan, hstep], ?_⟩
      simp [List.drop_length]

theorem initState_inv (cfg : HTConfig) : Inv cfg [] (initState cfg) := by
  refine ⟨by simp [initState], by simp [initState], ?_, ?_, ?_, ?_⟩
  · intro s hs
    constructor
    · simp [initState, esFor, secContent, List.getD, List.get?_eq_getElem?,
        List.getElem?_replicate, hs]
    · simp only [initState, esFor, List.filter_nil, secContent, List.map_nil,
        List.flatten_nil, List.length_nil]
      rw [List.getElem?_eq_getElem (by simpa using hs)]
      simp
  · simp [initState]
  · intro ik ci hmem
    simp [initState] at hmem
  · intro ik
    simp only [initState]
    constructor
    · rintro ⟨ci, hci⟩
      simp at hci
    · rintro ⟨i, hi, _⟩
      simp [esFor] at hi

theorem insertMany_inv (cfg : HTConfig) (hsc : 0 < cfg.sectionCount) :
    ∀ (ops ops0 : List (List Nat × List Nat)) (st : HTState), Inv cfg ops0 st →
      ∃ st2, insertMany cfg st ops = .ok st2 ∧ Inv cfg (ops0 ++ ops) st2 := by
  intro ops
  induction ops with
  | nil =>
    intro ops0 st hinv
    exact ⟨st, rfl, by rw [List.append_nil]; exact hinv⟩
  | cons e rest ih =>
    intro ops0 st hinv
    obtain ⟨st1, h1, hinv1⟩ := htInsert_inv cfg ops0 st e.1 e.2 hsc hinv
    obtain ⟨st2, h2, hinv2⟩ := ih (ops0 ++ [e]) st1 hinv1
    refine ⟨st2, ?_, ?_⟩
    · rw [insertMany, h1]
      simpa [Except.bind] using h2
    · rw [List.append_assoc] at hinv2
      simpa using hinv2

theorem length_le_secContent (es : List (List Nat × List Nat)) :
    es.length ≤ (secContent es).length := by
  rw [secContent_length]
  induction es with
  | nil => simp
  | cons e rest ih =>
    simp only [List.map_cons, List.sum_cons, List.length_cons]
    have := encLen_pos e
    omega

theorem chunksBy256_flatten (l : List Nat) : (chunksBy256 l).flatten = l := by
  have key : ∀ n (l2 : List Nat), l2.length ≤ n → (chunksBy256 l2).flatten = l2 := by
    intro n
    induction n with
    | zero =>
      intro l2 hl2
      have : l2 = [] := List.eq_nil_of_length_eq_zero (by omega)
      rw [this, chunksBy256]
      simp
    | succ n ih =>
      intro l2 hl2
      by_cases hnil : l2 = []
      · rw [hnil, chunksBy256]
        simp
      · rw [chunksBy256, if_neg hnil]
        have hpos : 0 < l2.length := List.length_pos.mpr hnil
        rw [List.flatten_cons, ih (l2.drop 256) (by simp [List.length_drop]; omega)]
        exact List.take_append_drop 256 l2
  exact key l.length l (le_refl _)

theorem chunksBy256_ne_nil (l : List Nat) : ∀ c ∈ chunksBy256 l, c ≠ [] := by
  have key : ∀ n (l2 : List Nat), l2.length ≤ n → ∀ c ∈ chunksBy256 l2, c ≠ [] := by
    intro n
    induction n with
    | zero =>
      intro l2 hl2 c hc
      have : l2 = [] := List.eq_nil_of_length_eq_zero (by omega)
      rw [this, chunksBy256] at hc
      simp at hc
    | succ n ih =>
      intro l2 hl2 c hc
      by_cases hnil : l2 = []
      · rw [hnil, chunksBy256] at hc
        simp at hc
      · rw [chunksBy256, if_neg hnil] at hc
        rcases List.mem_cons.mp hc with h1 | h2
        · rw [h1]
          simp only [ne_eq, List.take_eq_nil_iff]
          push_neg
          exact ⟨by omega, hnil⟩
        · exact ih (l2.drop 256) (by simp [List.length_drop]; omega) c h2
  exact key l.length l (le_refl _)

theorem matchChunks_join (chunks : List (List Nat)) (expected : List Nat)
    (hne : ∀ c ∈ chunks, c ≠ []) :
    matchChunks chunks expected = decide (chunks.flatten = expected) := by
  induction chunks generalizing expected with
  | nil =>
    rw [matchChunks, List.flatten_nil]
    cases expected <;> simp
  | cons c rest ih =>
    rw [matchChunks]
    have hc : ¬ c.isEmpty = true := by
      simp only [List.isEmpty_iff]
      exact hne c (List.mem_cons_self c rest)
    rw [if_neg hc, List.flatten_cons]
    by_cases h1 : expected.length < c.length
    · rw [if_pos h1]
      symm
      rw [decide_eq_false]
      intro heq
      have := congrArg List.length heq
      simp only [List.length_append] at this
      omega
    · rw [if_neg h1]
      by_cases h2 : c = expected.take c.length
      · rw [if_neg (by simpa using h2)]
        rw [ih (expected.drop c.length)
          (fun c2 hc2 => hne c2 (List.mem_cons_of_mem c hc2))]
        rw [decide_eq_decide]
        constructor
        · intro hr
          conv_rhs => rw [← List.take_append_drop c.length expected]
          rw [← h2, hr]
        · intro hr
          have hx : (c ++ rest.flatten).drop c.length = expected.drop c.length := by
            rw [hr]
          rw [List.drop_left] at hx
          exact hx
      · rw [if_pos (by simpa using h2)]
        symm
        rw [decide_eq_false]
        intro heq
        apply h2
        rw [← heq, List.take_left]

/-- The FilterScanner's chunked comparison accepts exactly key equality. -/
theorem keyMatches_eq (a b : List Nat) : keyMatches a b = decide (a = b) := by
  rw [keyMatches, matchChunks_join _ _ (chunksBy256_ne_nil a), chunksBy256_flatten]

theorem filter_key_esFor (cfg : HTConfig) (ops2 : List (List Nat × List Nat))
    (k : List Nat) :
    (esFor cfg ops2 (sectionOf cfg.sectionCount k)).filter
        (fun e => decide (e.1 = k)) =
      ops2.filter (fun e => decide (e.1 = k)) := by
  induction ops2 with
  | nil => rfl
  | cons e rest ih =>
    rw [esFor, List.filter_cons, List.filter_cons]
    by_cases hk : e.1 = k
    · have hsec : sectionOf cfg.sectionCount e.1 = sectionOf cfg.sectionCount k := by
        rw [hk]
      rw [if_pos (decide_eq_true hsec), List.filter_cons,
        if_pos (decide_eq_true hk), if_pos (decide_eq_true hk)]
      rw [esFor] at ih
      rw [ih]
    · by_cases hsec : sectionOf cfg.sectionCount e.1 = sectionOf cfg.sectionCount k
      · rw [if_pos (decide_eq_true hsec), List.filter_cons,
          if_neg (by simpa using hk), if_neg (by simpa using hk)]
        rw [esFor] at ih
        rw [ih]
      · rw [if_neg (by simpa using hsec), if_neg (by simpa using hk)]
        rw [esFor] at ih
        rw [ih]

/-- C1: after a sequence of successful inserts from the empty store followed
by `insert(k, v)`, `scan(Key(k))` succeeds and yields exactly the inserted
entries with key `k`, in insertion order; in particular at least one entry is
yielded and the just-inserted `(k, v)` is last. -/
theorem insert_then_scan_key (cfg : HTConfig) (ops : List (List Nat × List Nat))
    (k v : List Nat) (hsc : 0 < cfg.sectionCount)
    (hlens : ∀ e ∈ ops ++ [(k, v)], e.1.length < 2 ^ 32 ∧ e.2.length < 2 ^ 32) :
    ∃ st st2 r,
      insertMany cfg (initState cfg) ops = .ok st ∧
      htInsert cfg st k v = .ok st2 ∧
      scanKey cfg st2 k = .ok r ∧
      r = ops.filter (fun e => decide (e.1 = k)) ++ [(k, v)] ∧
      r ≠ [] ∧ r.getLast? = some (k, v) := by
  obtain ⟨st, hst, hinv0⟩ := insertMany_inv cfg hsc ops [] (initState cfg)
    (initState_inv cfg)
  rw [List.nil_append] at hinv0
  obtain ⟨st2, hst2, hinv⟩ := htInsert_inv cfg ops st k v hsc hinv0
  obtain ⟨hlen1, hlen2, h3, hidx⟩ := hinv
  set ops2 := ops ++ [(k, v)] with hops2
  set s := sectionOf cfg.sectionCount k with hsdef
  set es2 := esFor cfg ops2 s with hes2
  have hslt : s < cfg.sectionCount := Nat.mod_lt _ hsc
  obtain ⟨hsecc, hsecr⟩ := h3 s hslt
  have hkv_mem : (k, v) ∈ es2 := by
    rw [hes2, esFor]
    refine List.mem_filter.mpr ⟨?_, decide_eq_true rfl⟩
    rw [hops2]
    exact List.mem_append_right _ (List.mem_singleton.mpr rfl)
  have hlenpos : 0 < (secContent es2).length := by
    have h1 : 0 < es2.length := List.length_pos.mpr (List.ne_nil_of_mem hkv_mem)
    have h2 := length_le_secContent es2
    omega
  have hlens2 : ∀ e ∈ es2, e.1.length < 2 ^ 32 ∧ e.2.length < 2 ^ 32 := by
    intro e he
    rw [hes2, esFor] at he
    exact hlens e (List.mem_filter.mp he).1
  obtain ⟨r0, hr0, hrf⟩ := sectionScan_filter cfg ops2 st2.idxReg k hidx hlens2
    ((secContent es2).length + 1) 0 (Nat.zero_le _)
    (by rw [← hes2]; have := length_le_secContent es2; omega)
  rw [offAt_zero] at hr0
  have hscan : scanKey cfg st2 k = .ok (r0.filter (fun e => keyMatches e.1 k)) := by
    rw [hes2] at hlenpos hr0
    simp only [hsdef, sectionOf] at hsecr hsecc hlenpos
    simp only [hsdef, sectionOf, bloomBitOf, bloomIndexOf] at hr0
    simp only [scanKey]
    simp only [resolveSection, hsecr]
    rw [if_pos hlenpos, hsecc, hr0]
  refine ⟨st, st2, r0.filter (fun e => keyMatches e.1 k), hst, hst2, hscan, ?_, ?_, ?_⟩
  · rw [List.filter_congr (fun e _ => keyMatches_eq e.1 k), hrf, List.drop_zero]
    rw [filter_key_esFor cfg ops2 k, hops2, List.filter_append]
    congr 1
    simp
  · rw [List.filter_congr (fun e _ => keyMatches_eq e.1 k), hrf, List.drop_zero]
    rw [filter_key_esFor cfg ops2 k, hops2, List.filter_append]
    simp
  · rw [List.filter_congr (fun e _ => keyMatches_eq e.1 k), hrf, List.drop_zero]
    rw [filter_key_esFor cfg ops2 k, hops2, List.filter_append]
    have : (([(k, v)] : List (List Nat × List Nat)).filter
        (fun e => decide (e.1 = k))) = [(k, v)] := by simp
    rw [this, List.getLast?_concat]

/-- Witness for C1: the spec's concrete scenario (section_count 4,
index_chunk_size 64; insert a→1, b→2, then a→3; scan for a). -/
theorem insert_then_scan_key_witness :
    ∃ st st2 r,
      insertMany ⟨4, 64⟩ (initState ⟨4, 64⟩) [([97], [49]), ([98], [50])] = .ok st ∧
      htInsert ⟨4, 64⟩ st [97] [51] = .ok st2 ∧
      scanKey ⟨4, 64⟩ st2 [97] = .ok r ∧
      r = [([97], [49]), ([98], [50])].filter (fun e => decide (e.1 = [97])) ++
        [([97], [51])] ∧
      r ≠ [] ∧ r.getLast? = some ([97], [51]) :=
  insert_then_scan_key ⟨4, 64⟩ [([97], [49]), ([98], [50])] [97] [51]
    (by decide) (by decide)

/-! ## Byte-level helpers for registry snapshot files

`save` in each registry seeks to `slot * ENTRY_SIZE` and overwrites one
fixed-size entry; these lemmas describe such slotted writes. -/

theorem readBytes_length (c : List Nat) (off n : Nat) :
    (readBytes c off n).length = n := by
  simp [readBytes]

theorem mem_readBytes_lt (c : List Nat) (off n : Nat) (hwf : ∀ b ∈ c, b < 256) :
    ∀ x ∈ readBytes c off n, x < 256 := by
  intro x hx
  simp only [readBytes, List.mem_map, List.mem_range] at hx
  obtain ⟨i, _, hx⟩ := hx
  subst hx
  simp only [byteAt, List.getD]
  cases hq : c.get? (off + i) with
  | none => simp
  | some b => simpa using hwf b (List.get?_mem hq)

theorem readBytes_split (c : List Nat) (off m n : Nat) :
    readBytes c off (m + n) = readBytes c off m ++ readBytes c (off + m) n := by
  simp only [readBytes, List.range_add, List.map_append, List.map_map]
  congr 1
  simp only [List.map_inj_left, Function.comp_apply, List.mem_range]
  intro i _
  congr 1
  omega

/-- `toLE` inverts `fromLE` on genuine byte lists. -/
theorem toLE_fromLE (b : List Nat) (hwf : ∀ x ∈ b, x < 256) :
    toLE b.length (fromLE b) = b := by
  induction b with
  | nil => rfl
  | cons x bs ih =>
    have hx : x < 256 := hwf x (List.mem_cons_self x bs)
    have h1 : (x + 256 * fromLE bs) % 256 = x := by
      rw [Nat.add_mul_mod_self_left]
      exact Nat.mod_eq_of_lt hx
    have h2 : (x + 256 * fromLE bs) / 256 = fromLE bs := by
      rw [Nat.add_mul_div_left _ _ (by omega : 0 < 256),
        Nat.div_eq_of_lt hx, Nat.zero_add]
    simp only [List.length_cons, toLE, fromLE, h1, h2,
      ih (fun y hy => hwf y (List.mem_cons_of_mem x hy))]

theorem byteAt_writeAt_ge (c : List Nat) (off : Nat) (d : List Nat) (i : Nat)
    (h : off + d.length ≤ i) : byteAt (writeAt c off d) i = byteAt c i := by
  have hpre : (c.take off ++ (List.replicate (off - c.length) 0 ++ d)).length =
      off + d.length := by
    simp only [List.length_append, List.length_take, List.length_replicate]
    omega
  have hw : writeAt c off d =
      (c.take off ++ (List.replicate (off - c.length) 0 ++ d)) ++
        c.drop (off + d.length) := by
    simp [writeAt]
  rw [hw, byteAt_append_right _ _ i (by omega)]
  simp only [byteAt, List.getD, List.get?_eq_getElem?, List.getElem?_drop, hpre]
  congr 2
  omega

theorem readBytes_writeAt_ge (c : List Nat) (off : Nat) (d : List Nat)
    (p n : Nat) (h : off + d.length ≤ p) :
    readBytes (writeAt c off d) p n = readBytes c p n := by
  simp only [readBytes, List.map_inj_left, List.mem_range]
  intro i hi
  exact byteAt_writeAt_ge c off d (p + i) (by omega)

theorem readBytes_writeAt_exact (c : List Nat) (off : Nat) (d : List Nat) :
    readBytes (writeAt c off d) off d.length = d := by
  have hpre : (c.take off ++ List.replicate (off - c.length) 0).length = off := by
    simp only [List.length_append, List.length_take, List.length_replicate]
    omega
  have hw : writeAt c off d =
      (c.take off ++ List.replicate (off - c.length) 0) ++
        (d ++ c.drop (off + d.length)) := by
    simp [writeAt]
  rw [hw, readBytes_append_right _ _ off d.length (by omega), hpre,
    Nat.sub_self]
  exact readBytes_append_exact _ _

theorem writeAt_length (c : List Nat) (off : Nat) (d : List Nat) :
    (writeAt c off d).length = max c.length (off + d.length) := by
  simp only [writeAt, List.length_append, List.length_take,
    List.length_replicate, List.length_drop]
  omega

/-- The payload most recently written to slot `i` by the write list `ws`
(later writes win), if any. -/
def lastAt : List (Nat × List Nat) → Nat → Option (List Nat)
  | [], _ => none
  | w :: ws, i =>
    match lastAt ws i with
    | some d => some d
    | none => if w.1 = i then some w.2 else none

/-- Folding `E`-sized slotted writes: slot `i` ends up holding its last write,
or its original bytes if it was never written. -/
theorem slotsWrite_readBytes (E : Nat) (ws : List (Nat × List Nat))
    (hws : ∀ w ∈ ws, w.2.length = E) (file : List Nat) (i : Nat) :
    readBytes (ws.foldl (fun f w => writeAt f (E * w.1) w.2) file) (E * i) E =
      (lastAt ws i).getD (readBytes file (E * i) E) := by
  induction ws generalizing file with
  | nil => rfl
  | cons w ws ih =>
    have hwlen : w.2.length = E := hws w (List.mem_cons_self w ws)
    rw [List.foldl_cons, ih (fun x hx => hws x (List.mem_cons_of_mem w hx))]
    simp only [lastAt]
    match lastAt ws i with
    | some d => rfl
    | none =>
      simp only [Option.getD_none]
      by_cases hwi : w.1 = i
      · subst hwi
        rw [if_pos rfl, Option.getD_some]
        have h := readBytes_writeAt_exact file (E * w.1) w.2
        rw [hwlen] at h
        exact h
      · rw [if_neg hwi, Option.getD_none]
        rcases Nat.lt_or_ge w.1 i with hlt | hge
        · exact readBytes_writeAt_ge file (E * w.1) w.2 (E * i) E
            (by rw [hwlen]; calc E * w.1 + E = E * (w.1 + 1) := by ring
              _ ≤ E * i := Nat.mul_le_mul_left E hlt)
        · have hlt2 : i < w.1 := by omega
          exact readBytes_writeAt_of_le file (E * w.1) w.2 (E * i) E
            (by calc E * i + E = E * (i + 1) := by ring
              _ ≤ E * w.1 := Nat.mul_le_mul_left E hlt2)

theorem slotsWrite_length (E : Nat) (ws : List (Nat × List Nat))
    (file : List Nat)
    (hws : ∀ w ∈ ws, E * w.1 + w.2.length ≤ file.length) :
    (ws.foldl (fun f w => writeAt f (E * w.1) w.2) file).length = file.length := by
  induction ws generalizing file with
  | nil => rfl
  | cons w ws ih =>
    have h1 : (writeAt file (E * w.1) w.2).length = file.length := by
      rw [writeAt_length]
      have := hws w (List.mem_cons_self w ws)
      omega
    rw [List.foldl_cons, ih (writeAt file (E * w.1) w.2)
      (fun x hx => by rw [h1]; exact hws x (List.mem_cons_of_mem w hx)), h1]

/-- In a write list that writes `dataOf j` to each slot `j` in `hot`, the last
write to `i` is `dataOf i` exactly when `i ∈ hot`. -/
theorem lastAt_map_self (hot : List Nat) (dataOf : Nat → List Nat) (i : Nat) :
    lastAt (hot.map (fun j => (j, dataOf j))) i =
      if i ∈ hot then some (dataOf i) else none := by
  induction hot with
  | nil => simp [lastAt]
  | cons j hot ih =>
    by_cases hmem : i ∈ hot
    · simp only [List.map_cons, lastAt, ih, if_pos hmem,
        if_pos (List.mem_cons_of_mem j hmem)]
    · by_cases hji : j = i
      · subst hji
        simp only [List.map_cons, lastAt, ih, if_neg hmem, if_pos rfl,
          if_pos (List.mem_cons_self j hot), List.mem_cons_self, if_true]
      · have hni : i ∉ j :: hot := by
          intro hc
          rcases List.mem_cons.mp hc with h | h
          · exact hji h.symm
          · exact hmem h
        simp only [List.map_cons, lastAt, ih, if_neg hmem, if_neg hji,
          if_neg hni]

/-! ## ManagedHashTable::open and full_sync (src/dbms/hash_table.rs)

The store directory holds five files: `events.log` (WAL), `pages.dat`
(pager), and the three dense registry snapshots `pages.reg`, `sections.reg`,
`indexes.reg`.  `open` loads the WAL, loads each registry from its snapshot
and replays the registry's events from the WAL tail, and finishes with
`full_sync`. -/

inductive HashTableEvent where
  | pageEv (e : PageEvent)
  | sectionEv (e : SectionEvent)
  | indexEv (e : IndexEvent)
deriving Repr, DecidableEq

/-- `PageEvent::read` (src/dbms/page_registry.rs lines 19–33): tag byte `1`,
8-byte page key, 4-byte page index. -/
def decodePageEvent (f : List Nat) (pos : Nat) : Except String PageEvent :=
  if f.length < pos + 1 then .error "unexpected end of file"
  else if byteAt f pos = 1 then
    if f.length < pos + 13 then .error "unexpected end of file"
    else .ok (.assigned
      ⟨fromLE (readBytes f (pos + 1) 4), fromLE (readBytes f (pos + 5) 4)⟩
      (fromLE (readBytes f (pos + 9) 4)))
  else .error "Unknown PageEvent type"

/-- `SectionEvent::read` (src/dbms/section_registry.rs lines 19–33): tag byte
`1`, 4-byte section index, 8-byte header. -/
def decodeSectionEvent (f : List Nat) (pos : Nat) : Except String SectionEvent :=
  if f.length < pos + 1 then .error "unexpected end of file"
  else if byteAt f pos = 1 then
    if f.length < pos + 13 then .error "unexpected end of file"
    else .ok (.updated (fromLE (readBytes f (pos + 1) 4))
      ⟨fromLE (readBytes f (pos + 5) 8)⟩)
  else .error "Unknown SectionEvent type"

/-- `IndexEvent::read` (src/dbms/index_registry.rs lines 20–36): tag byte `1`,
4-byte cache index, 8-byte key, 16-byte header. -/
def decodeIndexEvent (f : List Nat) (pos : Nat) : Except String IndexEvent :=
  if f.length < pos + 1 then .error "unexpected end of file"
  else if byteAt f pos = 1 then
    if f.length < pos + 29 then .error "unexpected end of file"
    else .ok (.updated (fromLE (readBytes f (pos + 1) 4))
      ⟨fromLE (readBytes f (pos + 5) 4), fromLE (readBytes f (pos + 9) 4)⟩
      ⟨fromLE (readBytes f (pos + 13) 8), fromLE (readBytes f (pos + 21) 8)⟩)
  else .error "Unknown IndexEvent type"

/-- `HashTableEvent::read` (src/dbms/hash_table.rs lines 79–98): an outer tag
byte selects the registry, then the inner event follows.  Returns the event
together with its total encoded size (14, 14 or 30 bytes). -/
def decodeHashTableEvent (f : List Nat) (pos : Nat) :
    Except String (HashTableEvent × Nat) :=
  if f.length < pos + 1 then .error "unexpected end of file"
  else if byteAt f pos = 1 then
    (decodePageEvent f (pos + 1)).map (fun e => (.pageEv e, 14))
  else if byteAt f pos = 2 then
    (decodeSectionEvent f (pos + 1)).map (fun e => (.sectionEv e, 14))
  else if byteAt f pos = 3 then
    (decodeIndexEvent f (pos + 1)).map (fun e => (.indexEv e, 30))
  else .error "Unknown HashTableEvent type"

/-- Draining `FileWALReader::read_next` from `pos` up to the persisted height
`h` (src/dbms/wal.rs lines 173–187): stop at `pos = h`, fail past it,
otherwise decode one event and continue.  The fuel only bounds the recursion;
each event is at least 14 bytes, so `h + 1` units never run out. -/
def readEventsFrom (f : List Nat) (h : Nat) :
    Nat → Nat → Except String (List HashTableEvent)
  | _, 0 => .error "replay did not terminate"
  | pos, fuel + 1 =>
    if pos = h then .ok []
    else if h < pos then .error "WAL reader position exceeded height"
    else
      (decodeHashTableEvent f pos).bind (fun r =>
        (readEventsFrom f h (pos + r.2) fuel).map (fun rest => r.1 :: rest))

/-- `FileWALReader::new` (src/dbms/wal.rs lines 136–160) followed by the
replay loop: empty file reads nothing, else validate the persisted height and
decode events from byte 8 up to it. -/
def walReadEvents (f : List Nat) : Except String (List HashTableEvent) :=
  if f.length = 0 then .ok []
  else if f.length < 8 then .error "Failed to read WAL height"
  else
    let h := fromLE (readBytes f 0 8)
    if h < 8 ∨ f.length < h then .error "WAL height is invalid"
    else readEventsFrom f h 8 (h + 1)

/-- Modelled from the spec: `FilterMapWALReader` is referenced by
`ManagedHashTable::open` but absent from the sources.  Per the spec's
crash-recovery story, each registry replays exactly its own events from the
shared log in log order: the wrapper pulls inner events and yields those its
selector maps to `Some`.  This is that selector for page events. -/
def pageEventsOf (evs : List HashTableEvent) : List PageEvent :=
  evs.filterMap (fun e => match e with | .pageEv p => some p | _ => none)

/-- Modelled from the spec: the `FilterMapWALReader` selector keeping section
events (see `pageEventsOf`). -/
def sectionEventsOf (evs : List HashTableEvent) : List SectionEvent :=
  evs.filterMap (fun e => match e with | .sectionEv p => some p | _ => none)

/-- Modelled from the spec: the `FilterMapWALReader` selector keeping index
events (see `pageEventsOf`). -/
def indexEventsOf (evs : List HashTableEvent) : List IndexEvent :=
  evs.filterMap (fun e => match e with | .indexEv p => some p | _ => none)

/-- The 8-byte page-registry slot at `pos`, as decoded by `read_page_key`
(src/dbms/page_registry.rs lines 49–60). -/
def pageKeyAt (f : List Nat) (pos : Nat) : PageKey :=
  ⟨fromLE (readBytes f pos 4), fromLE (readBytes f (pos + 4) 4)⟩

/-- `write_page_key` (src/dbms/page_registry.rs lines 62–66). -/
def encodePageKey (k : PageKey) : List Nat :=
  toLE 4 k.section_index ++ toLE 4 k.section_page_index

/-- The dense part of `ManagedPageRegistry::load` (src/dbms/page_registry.rs
lines 89–101): one key per full 8-byte slot of the snapshot file. -/
def pageRegLoadBytes (f : List Nat) : PageRegState :=
  PageRegState.load ((List.range (f.length / 8)).map (fun i => pageKeyAt f (8 * i)))

def pageApplyAll : PageRegState → List PageEvent → Except String PageRegState
  | st, [] => .ok st
  | st, e :: es => (st.apply e).bind (fun st2 => pageApplyAll st2 es)

/-- `file.set_len(n)`: truncate or zero-extend to exactly `n` bytes. -/
def resizeTo (f : List Nat) (n : Nat) : List Nat :=
  f.take n ++ List.replicate (n - f.length) 0

/-- `read_section_header` (src/dbms/section_registry.rs lines 49–58). -/
def sectionHeaderAt (f : List Nat) (pos : Nat) : SectionHeader :=
  ⟨fromLE (readBytes f pos 8)⟩

/-- The dense part of `ManagedSectionRegistry::load` (lines 79–92), after the
file has been resized to `8 * section_count` bytes. -/
def secRegLoadBytes (f : List Nat) (sc : Nat) : SectionRegState :=
  { cache := (List.range sc).map (fun i => sectionHeaderAt f (8 * i))
    hot := []
    wal := [] }

def sectionApplyAll :
    SectionRegState → List SectionEvent → Except String SectionRegState
  | st, [] => .ok st
  | st, e :: es => (st.apply e).bind (fun st2 => sectionApplyAll st2 es)

/-- The 24-byte index-registry slot at `pos`: `read_index_entry`
(src/dbms/index_registry.rs lines 95–99). -/
def indexEntryAt (f : List Nat) (pos : Nat) : IndexKey × IndexHeader :=
  (⟨fromLE (readBytes f pos 4), fromLE (readBytes f (pos + 4) 4)⟩,
   ⟨fromLE (readBytes f (pos + 8) 8), fromLE (readBytes f (pos + 16) 8)⟩)

/-- `write_index_entry` (src/dbms/index_registry.rs lines 101–105). -/
def encodeIndexEntry (e : IndexKey × IndexHeader) : List Nat :=
  toLE 4 e.1.section_index ++ toLE 4 e.1.index_chunk ++
    toLE 8 e.2.bloom_filter ++ toLE 8 e.2.first_entry_offset

/-- The dense part of `ManagedIndexRegistry::load` (lines 123–139). -/
def idxRegLoadBytes (f : List Nat) : IndexRegState :=
  let cache := (List.range (f.length / 24)).map (fun i => indexEntryAt f (24 * i))
  { cache := cache
    map := enumMapFrom 0 (cache.map Prod.fst)
    hot := []
    wal := [] }

def indexApplyAll : IndexRegState → List IndexEvent → Except String IndexRegState
  | st, [] => .ok st
  | st, e :: es => (st.apply e).bind (fun st2 => indexApplyAll st2 es)

/-- `ManagedSectionRegistry::save` (lines 94–103): write each hot slot's
current header into the dense file.  The source iterates the `BTreeSet` in
ascending order; the slots are distinct, so any order yields the same file. -/
def secRegSaveFile (st : SectionRegState) (f : List Nat) : List Nat :=
  (st.hot.map (fun i => (i, toLE 8 ((st.cache.getD i ⟨0⟩).end_offset)))).foldl
    (fun g w => writeAt g (8 * w.1) w.2) f

/-- `ManagedPageRegistry::save` (lines 103–111): write each hot
`(key, index)` pair at its slot, in insertion order (later writes win). -/
def pageRegSaveFile (st : PageRegState) (f : List Nat) : List Nat :=
  (st.hot.map (fun w => (w.2, encodePageKey w.1))).foldl
    (fun g w => writeAt g (8 * w.1) w.2) f

/-- `ManagedIndexRegistry::save` (lines 141–150): write each hot slot's
current entry into the dense file (distinct slots, order irrelevant). -/
def idxRegSaveFile (st : IndexRegState) (f : List Nat) : List Nat :=
  (st.hot.map (fun i =>
    (i, encodeIndexEntry (st.cache.getD i (⟨0, 0⟩, ⟨0, 0⟩))))).foldl
    (fun g w => writeAt g (24 * w.1) w.2) f

/-- The five files of a store directory. -/
structure StoreFiles where
  wal : List Nat
  pages : List Nat
  pagesReg : List Nat
  sectionsReg : List Nat
  indexesReg : List Nat
deriving Repr, DecidableEq

/-- The state `open` returns: in-memory components plus the file contents. -/
structure OpenResult where
  wal : WALState
  pageReg : PageRegState
  secReg : SectionRegState
  idxReg : IndexRegState
  pagesFile : List Nat
  pageRegFile : List Nat
  secRegFile : List Nat
  idxRegFile : List Nat
  pagerFlushed : Bool
deriving Repr, DecidableEq

/-- `ManagedHashTable::full_sync` (src/dbms/hash_table.rs lines 308–325):
`quick_sync` (`pager.sync` is an fsync with no byte-level effect, recorded in
the `pagerFlushed` flag, and `wal.sync` persists the height header), then each
registry's `save` (hot slots written to the dense file, hot cleared), then
`wal.clear` (height back to 8 in memory and at bytes 0..8). -/
def fullSyncModel (r : OpenResult) : OpenResult :=
  { wal := walClear (walSync r.wal)
    pageReg := { r.pageReg with hot := [] }
    secReg := { r.secReg with hot := [] }
    idxReg := { r.idxReg with hot := [] }
    pagesFile := r.pagesFile
    pageRegFile := pageRegSaveFile r.pageReg r.pageRegFile
    secRegFile := secRegSaveFile r.secReg r.secRegFile
    idxRegFile := idxRegSaveFile r.idxReg r.idxRegFile
    pagerFlushed := true }

/-- `ManagedHashTable::open` (src/dbms/hash_table.rs lines 160–297): load the
WAL (writing the initial height header into an empty file), load each registry
from its snapshot and replay its WAL events, then `full_sync`.  The three
`FilterMapWALReader`s decode the same shared byte stream independently; this
is modelled by decoding the event list once and filtering per registry.
Header-file handling is omitted: it only restricts which opens succeed and
has no effect on the state produced. -/
def openModel (cfg : HTConfig) (files : StoreFiles) : Except String OpenResult :=
  (walLoad files.wal).bind (fun wal0 =>
  (walReadEvents wal0.file).bind (fun evs =>
  (pageApplyAll (pageRegLoadBytes files.pagesReg) (pageEventsOf evs)).bind (fun preg =>
  let sFile := resizeTo files.sectionsReg (8 * cfg.sectionCount)
  (sectionApplyAll (secRegLoadBytes sFile cfg.sectionCount)
      (sectionEventsOf evs)).bind (fun sreg =>
  (indexApplyAll (idxRegLoadBytes files.indexesReg) (indexEventsOf evs)).map
    (fun ireg =>
  fullSyncModel
    { wal := wal0, pageReg := preg, secReg := sreg, idxReg := ireg
      pagesFile := files.pages, pageRegFile := files.pagesReg
      secRegFile := sFile, idxRegFile := files.indexesReg
      pagerFlushed := false })))))

/-! ## Snapshot invariants: registry caches versus their dense files -/

theorem mem_setInsert {l : List Nat} {x y : Nat} :
    y ∈ setInsert l x ↔ y = x ∨ y ∈ l := by
  by_cases h : x ∈ l
  · simp only [setInsert, if_pos h]
    constructor
    · exact Or.inr
    · rintro (rfl | h2)
      · exact h
      · exact h2
  · simp [setInsert, if_neg h, List.mem_cons]

theorem resizeTo_length (f : List Nat) (n : Nat) : (resizeTo f n).length = n := by
  simp only [resizeTo, List.length_append, List.length_take, List.length_replicate]
  omega

theorem mem_resizeTo_lt (f : List Nat) (n : Nat) (hwf : ∀ b ∈ f, b < 256) :
    ∀ b ∈ resizeTo f n, b < 256 := by
  intro b hb
  rcases List.mem_append.mp hb with h | h
  · exact hwf b (List.mem_of_mem_take h)
  · rw [List.eq_of_mem_replicate h]
    omega

/-- Encoding the decoded slot reproduces the slot's bytes (8-byte page key). -/
theorem encode_pageKeyAt (f : List Nat) (pos : Nat) (hwf : ∀ b ∈ f, b < 256) :
    encodePageKey (pageKeyAt f pos) = readBytes f pos 8 := by
  have h1 : toLE 4 (fromLE (readBytes f pos 4)) = readBytes f pos 4 := by
    have h := toLE_fromLE (readBytes f pos 4) (mem_readBytes_lt f pos 4 hwf)
    rwa [readBytes_length] at h
  have h2 : toLE 4 (fromLE (readBytes f (pos + 4) 4)) = readBytes f (pos + 4) 4 := by
    have h := toLE_fromLE (readBytes f (pos + 4) 4) (mem_readBytes_lt f (pos + 4) 4 hwf)
    rwa [readBytes_length] at h
  rw [encodePageKey, pageKeyAt, h1, h2]
  exact (readBytes_split f pos 4 4).symm

/-- Encoding the decoded slot reproduces the slot's bytes (8-byte section
header). -/
theorem encode_sectionHeaderAt (f : List Nat) (pos : Nat)
    (hwf : ∀ b ∈ f, b < 256) :
    toLE 8 (sectionHeaderAt f pos).end_offset = readBytes f pos 8 := by
  have h := toLE_fromLE (readBytes f pos 8) (mem_readBytes_lt f pos 8 hwf)
  rw [readBytes_length] at h
  rw [sectionHeaderAt]
  exact h

/-- Encoding the decoded slot reproduces the slot's bytes (24-byte index
entry). -/
theorem encode_indexEntryAt (f : List Nat) (pos : Nat)
    (hwf : ∀ b ∈ f, b < 256) :
    encodeIndexEntry (indexEntryAt f pos) = readBytes f pos 24 := by
  have hb : ∀ p n : Nat, toLE n (fromLE (readBytes f p n)) = readBytes f p n := by
    intro p n
    have h := toLE_fromLE (readBytes f p n) (mem_readBytes_lt f p n hwf)
    rwa [readBytes_length] at h
  have hsplit : readBytes f pos 24 =
      readBytes f pos 4 ++ (readBytes f (pos + 4) 4 ++
        (readBytes f (pos + 8) 8 ++ readBytes f (pos + 16) 8)) := by
    have s1 : readBytes f pos 24 = readBytes f pos 4 ++ readBytes f (pos + 4) 20 :=
      readBytes_split f pos 4 20
    have s2 : readBytes f (pos + 4) 20 =
        readBytes f (pos + 4) 4 ++ readBytes f (pos + 4 + 4) 16 :=
      readBytes_split f (pos + 4) 4 16
    have s3 : readBytes f (pos + 8) 16 =
        readBytes f (pos + 8) 8 ++ readBytes f (pos + 8 + 8) 8 :=
      readBytes_split f (pos + 8) 8 8
    have e1 : pos + 4 + 4 = pos + 8 := by omega
    have e2 : pos + 8 + 8 = pos + 16 := by omega
    rw [s1, s2, e1, s3, e2]
  rw [encodeIndexEntry, indexEntryAt, hb pos 4, hb (pos + 4) 4, hb (pos + 8) 8,
    hb (pos + 16) 8, hsplit]
  simp [List.append_assoc]

/-- While a section registry evolves from its snapshot: the cache stays one
entry per section, hot slots are in range, and slots outside `hot` still hold
the value decoded from the snapshot file. -/
def SecSnapInv (sc : Nat) (f : List Nat) (st : SectionRegState) : Prop :=
  st.cache.length = sc ∧ (∀ i ∈ st.hot, i < sc) ∧
    ∀ i, i < sc → i ∉ st.hot → st.cache[i]? = some (sectionHeaderAt f (8 * i))

theorem secSnapInv_load (sc : Nat) (f : List Nat) :
    SecSnapInv sc f (secRegLoadBytes f sc) := by
  refine ⟨by simp [secRegLoadBytes], by simp [secRegLoadBytes], ?_⟩
  intro i hi _
  simp [secRegLoadBytes, List.getElem?_map, List.getElem?_range hi]

theorem secSnapInv_apply {sc : Nat} {f : List Nat} {st : SectionRegState}
    (hinv : SecSnapInv sc f st) {ev : SectionEvent} {st2 : SectionRegState}
    (h : st.apply ev = .ok st2) : SecSnapInv sc f st2 := by
  obtain ⟨h1, h2, h3⟩ := hinv
  cases ev with
  | updated si header =>
    simp only [SectionRegState.apply] at h
    by_cases hle : st.cache.length ≤ si
    · rw [if_pos hle] at h
      cases h
    · rw [if_neg hle] at h
      cases h
      refine ⟨by simp [h1], ?_, ?_⟩
      · intro i hi
        rcases mem_setInsert.mp hi with rfl | hi2
        · omega
        · exact h2 i hi2
      · intro i hi hmem
        have hne : i ≠ si := fun hc => hmem (mem_setInsert.mpr (Or.inl hc))
        have hold : i ∉ st.hot := fun hc => hmem (mem_setInsert.mpr (Or.inr hc))
        rw [List.getElem?_set_ne (fun hc => hne hc.symm)]
        exact h3 i hi hold

theorem secSnapInv_applyAll {sc : Nat} {f : List Nat} {st : SectionRegState}
    (hinv : SecSnapInv sc f st) (evs : List SectionEvent) {st2 : SectionRegState}
    (h : sectionApplyAll st evs = .ok st2) : SecSnapInv sc f st2 := by
  induction evs generalizing st with
  | nil =>
    simp only [sectionApplyAll] at h
    cases h
    exact hinv
  | cons e es ih =>
    simp only [sectionApplyAll] at h
    cases happ : st.apply e with
    | error msg => rw [happ] at h; cases h
    | ok stm =>
      rw [happ] at h
      simp only [Except.bind] at h
      exact ih (secSnapInv_apply hinv happ) h

/-- The key most recently recorded for slot `i` in the page registry's hot
list (later entries win). -/
def lastHotAt : List (PageKey × Nat) → Nat → Option PageKey
  | [], _ => none
  | w :: ws, i =>
    match lastHotAt ws i with
    | some k => some k
    | none => if w.2 = i then some w.1 else none

theorem lastHotAt_append_single (ws : List (PageKey × Nat)) (k : PageKey)
    (pi i : Nat) :
    lastHotAt (ws ++ [(k, pi)]) i =
      if pi = i then some k else lastHotAt ws i := by
  induction ws with
  | nil =>
    by_cases hpi : pi = i <;> simp [lastHotAt, hpi]
  | cons w ws ih =>
    have hstep : lastHotAt ((w :: ws) ++ [(k, pi)]) i =
        (match lastHotAt (ws ++ [(k, pi)]) i with
          | some d => some d
          | none => if w.2 = i then some w.1 else none) := rfl
    have hstep2 : lastHotAt (w :: ws) i =
        (match lastHotAt ws i with
          | some d => some d
          | none => if w.2 = i then some w.1 else none) := rfl
    rw [hstep, ih, hstep2]
    by_cases hpi : pi = i
    · rw [if_pos hpi, if_pos hpi]
    · rw [if_neg hpi, if_neg hpi]

theorem lastAt_map_enc (hot : List (PageKey × Nat)) (i : Nat) :
    lastAt (hot.map (fun w => (w.2, encodePageKey w.1))) i =
      (lastHotAt hot i).map encodePageKey := by
  induction hot with
  | nil => rfl
  | cons w ws ih =>
    simp only [List.map_cons, lastAt, lastHotAt, ih]
    cases lastHotAt ws i with
    | some k => rfl
    | none =>
      by_cases hwi : w.2 = i <;> simp [hwi]

/-- While a page registry evolves from its snapshot: a slot never touched by
`hot` still holds the key decoded from the snapshot file, and a slot whose
last hot entry is `k` holds `k` in the cache. -/
def PageSnapInv (f : List Nat) (st : PageRegState) : Prop :=
  (∀ i, i < st.cache.length → lastHotAt st.hot i = none →
      st.cache[i]? = some (pageKeyAt f (8 * i))) ∧
  (∀ i k, lastHotAt st.hot i = some k → st.cache[i]? = some k)

theorem pageSnapInv_load (f : List Nat) : PageSnapInv f (pageRegLoadBytes f) := by
  constructor
  · intro i hi _
    simp only [pageRegLoadBytes, PageRegState.load, List.length_map,
      List.length_range] at hi ⊢
    simp [List.getElem?_map, List.getElem?_range hi]
  · intro i k hk
    have hnone : lastHotAt (pageRegLoadBytes f).hot i = none := rfl
    rw [hnone] at hk
    cases hk

theorem pageSnapInv_apply {f : List Nat} {st : PageRegState}
    (hinv : PageSnapInv f st) {ev : PageEvent} {st2 : PageRegState}
    (h : st.apply ev = .ok st2) : PageSnapInv f st2 := by
  obtain ⟨h1, h2⟩ := hinv
  cases ev with
  | assigned key pi =>
    simp only [PageRegState.apply] at h
    by_cases hlt : st.cache.length < pi
    · rw [if_pos hlt] at h
      cases h
    · rw [if_neg hlt] at h
      cases h
      constructor
      · intro i hi hnone
        rw [lastHotAt_append_single] at hnone
        by_cases hpi : pi = i
        · rw [if_pos hpi] at hnone
          cases hnone
        · rw [if_neg hpi] at hnone
          simp only at hi ⊢
          by_cases hpush : st.cache.length = pi
          · rw [if_pos hpush] at hi ⊢
            simp only [List.length_append, List.length_cons,
              List.length_nil] at hi
            have hilt : i < st.cache.length := by omega
            rw [List.getElem?_append_left hilt]
            exact h1 i hilt hnone
          · rw [if_neg hpush] at hi ⊢
            simp only [List.length_set] at hi
            rw [List.getElem?_set_ne (fun hc => hpi hc)]
            exact h1 i hi hnone
      · intro i k hk
        rw [lastHotAt_append_single] at hk
        by_cases hpi : pi = i
        · rw [if_pos hpi] at hk
          cases hk
          subst hpi
          simp only
          by_cases hpush : st.cache.length = pi
          · rw [if_pos hpush, ← hpush, List.getElem?_append_right (by omega),
              Nat.sub_self]
            rfl
          · have hplt : pi < st.cache.length := by omega
            rw [if_neg hpush]
            exact List.getElem?_set_eq_of_lt _ hplt
        · rw [if_neg hpi] at hk
          have hold := h2 i k hk
          have hilt : i < st.cache.length := by
            by_contra hc
            rw [List.getElem?_eq_none (by omega)] at hold
            cases hold
          simp only
          by_cases hpush : st.cache.length = pi
          · rw [if_pos hpush, List.getElem?_append_left hilt]
            exact hold
          · rw [if_neg hpush, List.getElem?_set_ne (fun hc => hpi hc)]
            exact hold

theorem pageSnapInv_applyAll {f : List Nat} {st : PageRegState}
    (hinv : PageSnapInv f st) (evs : List PageEvent) {st2 : PageRegState}
    (h : pageApplyAll st evs = .ok st2) : PageSnapInv f st2 := by
  induction evs generalizing st with
  | nil =>
    simp only [pageApplyAll] at h
    cases h
    exact hinv
  | cons e es ih =>
    simp only [pageApplyAll] at h
    cases happ : st.apply e with
    | error msg => rw [happ] at h; cases h
    | ok stm =>
      rw [happ] at h
      simp only [Except.bind] at h
      exact ih (pageSnapInv_apply hinv happ) h

/-- While an index registry evolves from its snapshot: slots outside `hot`
still hold the entry decoded from the snapshot file. -/
def IdxSnapInv (f : List Nat) (st : IndexRegState) : Prop :=
  ∀ i, i < st.cache.length → i ∉ st.hot →
    st.cache[i]? = some (indexEntryAt f (24 * i))

theorem idxSnapInv_load (f : List Nat) : IdxSnapInv f (idxRegLoadBytes f) := by
  intro i hi _
  simp only [idxRegLoadBytes, List.length_map, List.length_range] at hi ⊢
  simp [List.getElem?_map, List.getElem?_range hi]

theorem idxSnapInv_apply {f : List Nat} {st : IndexRegState}
    (hinv : IdxSnapInv f st) {ev : IndexEvent} {st2 : IndexRegState}
    (h : st.apply ev = .ok st2) : IdxSnapInv f st2 := by
  cases ev with
  | updated ci key header =>
    simp only [IndexRegState.apply] at h
    by_cases hlt : st.cache.length < ci
    · rw [if_pos hlt] at h
      cases h
    · rw [if_neg hlt] at h
      cases h
      intro i hi hmem
      have hne : i ≠ ci := fun hc => hmem (mem_setInsert.mpr (Or.inl hc))
      have hold : i ∉ st.hot := fun hc => hmem (mem_setInsert.mpr (Or.inr hc))
      simp only at hi ⊢
      by_cases hpush : st.cache.length = ci
      · rw [if_pos hpush] at hi ⊢
        simp only [List.length_append, List.length_cons, List.length_nil] at hi
        have hilt : i < st.cache.length := by omega
        rw [List.getElem?_append_left hilt]
        exact hinv i hilt hold
      · rw [if_neg hpush] at hi ⊢
        simp only [List.length_set] at hi
        rw [List.getElem?_set_ne (fun hc => hne hc.symm)]
        exact hinv i hi hold

theorem idxSnapInv_applyAll {f : List Nat} {st : IndexRegState}
    (hinv : IdxSnapInv f st) (evs : List IndexEvent) {st2 : IndexRegState}
    (h : indexApplyAll st evs = .ok st2) : IdxSnapInv f st2 := by
  induction evs generalizing st with
  | nil =>
    simp only [indexApplyAll] at h
    cases h
    exact hinv
  | cons e es ih =>
    simp only [indexApplyAll] at h
    cases happ : st.apply e with
    | error msg => rw [happ] at h; cases h
    | ok stm =>
      rw [happ] at h
      simp only [Except.bind] at h
      exact ih (idxSnapInv_apply hinv happ) h

/-- After `save`, every section slot of the dense file holds the encoding of
the current cache entry. -/
theorem secRegSaveFile_slots (st : SectionRegState) (f : List Nat) (sc : Nat)
    (hinv : SecSnapInv sc f st) (hwf : ∀ b ∈ f, b < 256) (i : Nat)
    (hi : i < sc) :
    readBytes (secRegSaveFile st f) (8 * i) 8 =
      toLE 8 ((st.cache.getD i ⟨0⟩).end_offset) := by
  obtain ⟨hlen, hhot, hslot⟩ := hinv
  have hl : ∀ w ∈ st.hot.map
      (fun j => (j, toLE 8 ((st.cache.getD j ⟨0⟩).end_offset))),
      w.2.length = 8 := by
    intro w hw
    simp only [List.mem_map] at hw
    obtain ⟨j, _, rfl⟩ := hw
    exact toLE_length 8 _
  rw [secRegSaveFile, slotsWrite_readBytes 8 _ hl f i, lastAt_map_self]
  by_cases hmem : i ∈ st.hot
  · rw [if_pos hmem, Option.getD_some]
  · rw [if_neg hmem, Option.getD_none]
    have hsl := hslot i hi hmem
    rw [List.getD_eq_getElem?_getD, hsl, Option.getD_some]
    exact (encode_sectionHeaderAt f (8 * i) hwf).symm

theorem secRegSaveFile_length (st : SectionRegState) (f : List Nat) (sc : Nat)
    (hinv : SecSnapInv sc f st) (hflen : f.length = 8 * sc) :
    (secRegSaveFile st f).length = 8 * sc := by
  obtain ⟨hlen, hhot, _⟩ := hinv
  have hws : ∀ w ∈ st.hot.map
      (fun j => (j, toLE 8 ((st.cache.getD j ⟨0⟩).end_offset))),
      8 * w.1 + w.2.length ≤ f.length := by
    intro w hw
    simp only [List.mem_map] at hw
    obtain ⟨j, hj, rfl⟩ := hw
    simp only [toLE_length]
    have := hhot j hj
    omega
  rw [secRegSaveFile, slotsWrite_length 8 _ f hws, hflen]

theorem encodePageKey_length (k : PageKey) : (encodePageKey k).length = 8 := by
  simp [encodePageKey, toLE_length]

/-- After `save`, every page slot of the dense file holds the encoding of the
current cache entry. -/
theorem pageRegSaveFile_slots (st : PageRegState) (f : List Nat)
    (hinv : PageSnapInv f st) (hwf : ∀ b ∈ f, b < 256) (i : Nat)
    (hi : i < st.cache.length) :
    readBytes (pageRegSaveFile st f) (8 * i) 8 =
      encodePageKey (st.cache.getD i ⟨0, 0⟩) := by
  obtain ⟨h1, h2⟩ := hinv
  have hl : ∀ w ∈ st.hot.map (fun w => (w.2, encodePageKey w.1)),
      w.2.length = 8 := by
    intro w hw
    simp only [List.mem_map] at hw
    obtain ⟨u, _, rfl⟩ := hw
    exact encodePageKey_length _
  rw [pageRegSaveFile, slotsWrite_readBytes 8 _ hl f i, lastAt_map_enc]
  cases hk : lastHotAt st.hot i with
  | some k =>
    have hc := h2 i k hk
    have hlhs : (Option.map encodePageKey (some k)).getD
        (readBytes f (8 * i) 8) = encodePageKey k := rfl
    rw [hlhs, List.getD_eq_getElem?_getD, hc, Option.getD_some]
  | none =>
    have hc := h1 i hi hk
    have hlhs : (Option.map encodePageKey (none : Option PageKey)).getD
        (readBytes f (8 * i) 8) = readBytes f (8 * i) 8 := rfl
    rw [hlhs, List.getD_eq_getElem?_getD, hc, Option.getD_some]
    exact (encode_pageKeyAt f (8 * i) hwf).symm

theorem encodeIndexEntry_length (e : IndexKey × IndexHeader) :
    (encodeIndexEntry e).length = 24 := by
  simp [encodeIndexEntry, toLE_length]

/-- After `save`, every index slot of the dense file holds the encoding of
the current cache entry. -/
theorem idxRegSaveFile_slots (st : IndexRegState) (f : List Nat)
    (hinv : IdxSnapInv f st) (hwf : ∀ b ∈ f, b < 256) (i : Nat)
    (hi : i < st.cache.length) :
    readBytes (idxRegSaveFile st f) (24 * i) 24 =
      encodeIndexEntry (st.cache.getD i (⟨0, 0⟩, ⟨0, 0⟩)) := by
  have hl : ∀ w ∈ st.hot.map
      (fun j => (j, encodeIndexEntry (st.cache.getD j (⟨0, 0⟩, ⟨0, 0⟩)))),
      w.2.length = 24 := by
    intro w hw
    simp only [List.mem_map] at hw
    obtain ⟨j, _, rfl⟩ := hw
    exact encodeIndexEntry_length _
  rw [idxRegSaveFile, slotsWrite_readBytes 24 _ hl f i, lastAt_map_self]
  by_cases hmem : i ∈ st.hot
  · rw [if_pos hmem, Option.getD_some]
  · rw [if_neg hmem, Option.getD_none]
    have hsl := hinv i hi hmem
    rw [List.getD_eq_getElem?_getD, hsl, Option.getD_some]
    exact (encode_indexEntryAt f (24 * i) hwf).symm

/-- C10: every successful `ManagedHashTable::open` ends by performing a
`full_sync` before returning: the pager is flushed; the WAL height is reset
to 8 both in memory and at bytes 0..8 on disk, so the freshly opened store
starts with an effectively empty WAL; every registry hot set is cleared; and
each registry's in-memory table — including any state replayed from the WAL
tail — is compacted into its dense `.reg` file (each slot of the final file
holds the encoding of the corresponding cache entry, and the section file has
exactly `section_count` slots). -/
theorem open_ends_with_full_sync (cfg : HTConfig) (files : StoreFiles)
    (res : OpenResult)
    (hws : ∀ b ∈ files.sectionsReg, b < 256)
    (hwp : ∀ b ∈ files.pagesReg, b < 256)
    (hwi : ∀ b ∈ files.indexesReg, b < 256)
    (hok : openModel cfg files = .ok res) :
    res.pagerFlushed = true ∧
    res.wal.height = 8 ∧
    readBytes res.wal.file 0 8 = toLE 8 8 ∧
    res.pageReg.hot = [] ∧ res.secReg.hot = [] ∧ res.idxReg.hot = [] ∧
    res.secReg.cache.length = cfg.sectionCount ∧
    res.secRegFile.length = 8 * cfg.sectionCount ∧
    (∀ i, i < cfg.sectionCount →
      readBytes res.secRegFile (8 * i) 8 =
        toLE 8 ((res.secReg.cache.getD i ⟨0⟩).end_offset)) ∧
    (∀ i, i < res.pageReg.cache.length →
      readBytes res.pageRegFile (8 * i) 8 =
        encodePageKey (res.pageReg.cache.getD i ⟨0, 0⟩)) ∧
    (∀ i, i < res.idxReg.cache.length →
      readBytes res.idxRegFile (24 * i) 24 =
        encodeIndexEntry (res.idxReg.cache.getD i (⟨0, 0⟩, ⟨0, 0⟩))) := by
  simp only [openModel] at hok
  cases hw : walLoad files.wal with
  | error e =>
    rw [hw] at hok
    simp only [Except.bind] at hok
    exact Except.noConfusion hok
  | ok wal0 =>
    rw [hw] at hok
    simp only [Except.bind] at hok
    cases hevs : walReadEvents wal0.file with
    | error e =>
      rw [hevs] at hok
      simp only [Except.bind] at hok
      exact Except.noConfusion hok
    | ok evs =>
      rw [hevs] at hok
      simp only [Except.bind] at hok
      cases hpreg : pageApplyAll (pageRegLoadBytes files.pagesReg)
          (pageEventsOf evs) with
      | error e =>
        rw [hpreg] at hok
        simp only [Except.bind] at hok
        exact Except.noConfusion hok
      | ok preg =>
        rw [hpreg] at hok
        simp only [Except.bind] at hok
        cases hsreg : sectionApplyAll
            (secRegLoadBytes (resizeTo files.sectionsReg (8 * cfg.sectionCount))
              cfg.sectionCount) (sectionEventsOf evs) with
        | error e =>
          rw [hsreg] at hok
          simp only [Except.bind] at hok
          exact Except.noConfusion hok
        | ok sreg =>
          rw [hsreg] at hok
          simp only [Except.bind] at hok
          cases hireg : indexApplyAll (idxRegLoadBytes files.indexesReg)
              (indexEventsOf evs) with
          | error e =>
            rw [hireg] at hok
            simp only [Except.map] at hok
            exact Except.noConfusion hok
          | ok ireg =>
            rw [hireg] at hok
            simp only [Except.map] at hok
            cases hok
            have hsinv : SecSnapInv cfg.sectionCount
                (resizeTo files.sectionsReg (8 * cfg.sectionCount)) sreg :=
              secSnapInv_applyAll
                (secSnapInv_load cfg.sectionCount
                  (resizeTo files.sectionsReg (8 * cfg.sectionCount)))
                (sectionEventsOf evs) hsreg
            have hpinv : PageSnapInv files.pagesReg preg :=
              pageSnapInv_applyAll (pageSnapInv_load files.pagesReg)
                (pageEventsOf evs) hpreg
            have hiinv : IdxSnapInv files.indexesReg ireg :=
              idxSnapInv_applyAll (idxSnapInv_load files.indexesReg)
                (indexEventsOf evs) hireg
            have hswf : ∀ b ∈ resizeTo files.sectionsReg
                (8 * cfg.sectionCount), b < 256 :=
              mem_resizeTo_lt files.sectionsReg (8 * cfg.sectionCount) hws
            refine ⟨rfl, rfl, ?_, rfl, rfl, rfl, hsinv.1, ?_, ?_, ?_, ?_⟩
            · have h := readBytes_writeAt_exact (walSync wal0).file 0 (toLE 8 8)
              rw [toLE_length] at h
              exact h
            · exact secRegSaveFile_length sreg _ cfg.sectionCount hsinv
                (resizeTo_length files.sectionsReg (8 * cfg.sectionCount))
            · intro i hi
              exact secRegSaveFile_slots sreg _ cfg.sectionCount hsinv hswf i hi
            · intro i hi
              exact pageRegSaveFile_slots preg files.pagesReg hpinv hwp i hi
            · intro i hi
              exact idxRegSaveFile_slots ireg files.indexesReg hiinv hwi i hi

/-- Witness for C10: opening a fresh (all files empty) store with one section
succeeds, the pager is flushed, the hot sets are empty, and the WAL ends
reset to height 8 in memory and on disk. -/
theorem open_ends_with_full_sync_witness :
    ∃ res, openModel ⟨1, 64⟩ ⟨[], [], [], [], []⟩ = .ok res ∧
      (res.pagerFlushed = true ∧ res.wal.height = 8 ∧
        readBytes res.wal.file 0 8 = toLE 8 8 ∧
        res.pageReg.hot = [] ∧ res.secReg.hot = [] ∧ res.idxReg.hot = []) :=
  ⟨_, rfl, by
    have h := open_ends_with_full_sync ⟨1, 64⟩ ⟨[], [], [], [], []⟩ _
      (by decide) (by decide) (by decide) rfl
    exact ⟨h.1, h.2.1, h.2.2.1, h.2.2.2.1, h.2.2.2.2.1, h.2.2.2.2.2.1⟩⟩

end Datastore
